import Mathlib

/-!
Verification of the algorithm step-trace engine of the Visualizer repository.

The TypeScript sources are shallowly embedded:
* `src/algorithms/sorting.ts`  → namespace `Sorting`
* `src/algorithms/pathfinding.ts` → namespace `Pathfinding`
* `src/algorithms/graph.ts`    → namespace `GraphAlg`

JavaScript features are modelled as follows.
* Number arrays hold `Int` values; array mutation is explicit state passing
  (each loop returns the final array together with the emitted steps).
* `Infinity`-valued distances are `WithTop ℕ` (grids, unit edge cost) or
  `WithTop ℤ` (weighted graphs).
* `Array.prototype.sort` with a numeric-key comparator is a stable sort and is
  modelled by a stable insertion sort on the same key (V8 treats a NaN
  comparator result, which arises only for two `Infinity` keys, as 0, so ties
  keep insertion order exactly like a stable `≤`-sort).
* `while` loops whose iteration count is bounded by the input size are modelled
  with an explicit fuel that strictly exceeds that bound, so the fuel never
  runs out on the executions the source can perform.
-/

namespace Sorting

/-- `Step` of sorting.ts: a full array snapshot plus the indices being
compared or just swapped. -/
structure Step where
  array : List Int
  comparingIndices : List Nat
  swappedIndices : List Nat
deriving DecidableEq, Repr

/-- `swap` of sorting.ts: `[arr[i], arr[j]] = [arr[j], arr[i]]`. -/
def swap (arr : List Int) (i j : Nat) : List Int :=
  (arr.set i (arr.getD j 0)).set j (arr.getD i 0)

/-- Inner loop of `bubbleSort` starting at index `j`, running `c` iterations. -/
def bubbleInner (arr : List Int) (j : Nat) : Nat → List Int × List Step
  | 0 => (arr, [])
  | c + 1 =>
    let s1 : Step := ⟨arr, [j, j + 1], []⟩
    if arr.getD j 0 > arr.getD (j + 1) 0 then
      let arr2 := swap arr j (j + 1)
      let s2 : Step := ⟨arr2, [], [j, j + 1]⟩
      let res := bubbleInner arr2 (j + 1) c
      (res.1, s1 :: s2 :: res.2)
    else
      let res := bubbleInner arr (j + 1) c
      (res.1, s1 :: res.2)

/-- Outer loop of `bubbleSort`: iteration `i`, `c` iterations remaining;
`n` is the (fixed) array length. -/
def bubbleOuter (arr : List Int) (n i : Nat) : Nat → List Int × List Step
  | 0 => (arr, [])
  | c + 1 =>
    let r1 := bubbleInner arr 0 (n - i - 1)
    let r2 := bubbleOuter r1.1 n (i + 1) c
    (r2.1, r1.2 ++ r2.2)

/-- `bubbleSort` of sorting.ts, returning the final array and the steps. -/
def bubbleSortRun (array : List Int) : List Int × List Step :=
  bubbleOuter array array.length 0 (array.length - 1)

/-- `bubbleSort` of sorting.ts (the returned step trace). -/
def bubbleSort (array : List Int) : List Step := (bubbleSortRun array).2

/-- Scan loop of `partition` (Lomuto).  `i1` is `i + 1` of the source
(the next store position, kept in `Nat`); `j` the scan pointer; `c` the
remaining iterations (`high - j`). -/
def partitionLoop (arr : List Int) (pivot : Int) (high i1 j : Nat) :
    Nat → List Int × List Step × Nat
  | 0 => (arr, [], i1)
  | c + 1 =>
    let s1 : Step := ⟨arr, [j, high], []⟩
    if arr.getD j 0 < pivot then
      let arr2 := swap arr i1 j
      let s2 : Step := ⟨arr2, [], [i1, j]⟩
      let res := partitionLoop arr2 pivot high (i1 + 1) (j + 1) c
      (res.1, s1 :: s2 :: res.2.1, res.2.2)
    else
      let res := partitionLoop arr pivot high i1 (j + 1) c
      (res.1, s1 :: res.2.1, res.2.2)

/-- `partition` of sorting.ts (pivot `arr[high]`, final pivot-placement swap). -/
def partition (arr : List Int) (low high : Nat) : List Int × List Step × Nat :=
  let pivot := arr.getD high 0
  let r1 := partitionLoop arr pivot high low low (high - low)
  let a2 := swap r1.1 r1.2.2 high
  let s2 : Step := ⟨a2, [], [r1.2.2, high]⟩
  (a2, r1.2.1 ++ [s2], r1.2.2)

/-- `quickSortHelper` of sorting.ts.  The fuel bounds the recursion depth;
`quickSortRun` supplies `array.length`, which always suffices because each
recursive call shrinks `high - low` by at least one. -/
def quickSortHelper (arr : List Int) (low high : Nat) : Nat → List Int × List Step
  | 0 => (arr, [])
  | fuel + 1 =>
    if low < high then
      let r1 := partition arr low high
      let r2 := quickSortHelper r1.1 low (r1.2.2 - 1) fuel
      let r3 := quickSortHelper r2.1 (r1.2.2 + 1) high fuel
      (r3.1, r1.2.1 ++ r2.2 ++ r3.2)
    else (arr, [])

/-- `quickSort` of sorting.ts, returning the final array and the steps. -/
def quickSortRun (array : List Int) : List Int × List Step :=
  quickSortHelper array 0 (array.length - 1) array.length

/-- `quickSort` of sorting.ts (the returned step trace). -/
def quickSort (array : List Int) : List Step := (quickSortRun array).2

/-- The merge loop of `merge` in sorting.ts.  `lrest`/`rrest` are the unread
suffixes of the sliced copies `leftArr`/`rightArr`; `i`/`j` count consumed
elements (for the comparing indices `left + i`, `mid + 1 + j`); `k` is the
write position. -/
def mergeLoop (arr : List Int) (l m k i j : Nat) :
    List Int → List Int → List Int × List Step
  | [], [] => (arr, [])
  | [], rh :: rt =>
    let arr2 := arr.set k rh
    let s : Step := ⟨arr2, [], [k]⟩
    let res := mergeLoop arr2 l m (k + 1) i (j + 1) [] rt
    (res.1, s :: res.2)
  | lh :: lt, [] =>
    let arr2 := arr.set k lh
    let s : Step := ⟨arr2, [], [k]⟩
    let res := mergeLoop arr2 l m (k + 1) (i + 1) j lt []
    (res.1, s :: res.2)
  | lh :: lt, rh :: rt =>
    let s1 : Step := ⟨arr, [l + i, m + 1 + j], []⟩
    if lh ≤ rh then
      let arr2 := arr.set k lh
      let s2 : Step := ⟨arr2, [], [k]⟩
      let res := mergeLoop arr2 l m (k + 1) (i + 1) j lt (rh :: rt)
      (res.1, s1 :: s2 :: res.2)
    else
      let arr2 := arr.set k rh
      let s2 : Step := ⟨arr2, [], [k]⟩
      let res := mergeLoop arr2 l m (k + 1) i (j + 1) (lh :: lt) rt
      (res.1, s1 :: s2 :: res.2)
termination_by lrest rrest => lrest.length + rrest.length

/-- `merge` of sorting.ts: copies the two runs and merges them back in place. -/
def merge (arr : List Int) (l m r : Nat) : List Int × List Step :=
  let leftArr := (arr.take (m + 1)).drop l
  let rightArr := (arr.take (r + 1)).drop (m + 1)
  mergeLoop arr l m l 0 0 leftArr rightArr

/-- `mergeSortHelper` of sorting.ts. -/
def mergeSortHelper (arr : List Int) (l r : Nat) : List Int × List Step :=
  if h : l < r then
    let mid := (l + r) / 2
    let r1 := mergeSortHelper arr l mid
    let r2 := mergeSortHelper r1.1 (mid + 1) r
    let r3 := merge r2.1 l mid r
    (r3.1, r1.2 ++ r2.2 ++ r3.2)
  else (arr, [])
termination_by r - l
decreasing_by
· have h2 : (l + r) / 2 < r := Nat.div_lt_of_lt_mul (by omega)
  omega
· have h2 : l ≤ (l + r) / 2 := Nat.le_div_iff_mul_le (by omega) |>.mpr (by omega)
  omega

/-- `mergeSort` of sorting.ts, returning the final array and the steps. -/
def mergeSortRun (array : List Int) : List Int × List Step :=
  mergeSortHelper array 0 (array.length - 1)

/-- `mergeSort` of sorting.ts (the returned step trace). -/
def mergeSort (array : List Int) : List Step := (mergeSortRun array).2

/-- The `largest` index computed by `heapify` of sorting.ts after its two
child comparisons. -/
def largestIdx (arr : List Int) (n i : Nat) : Nat :=
  let left := 2 * i + 1
  let right := 2 * i + 2
  let l1 := if left < n ∧ arr.getD i 0 < arr.getD left 0 then left else i
  if right < n ∧ arr.getD l1 0 < arr.getD right 0 then right else l1

theorem largestIdx_bounds (arr : List Int) (n i : Nat)
    (h : largestIdx arr n i ≠ i) :
    i < largestIdx arr n i ∧ largestIdx arr n i < n := by
  unfold largestIdx at h ⊢
  dsimp only at h ⊢
  by_cases h1 : 2 * i + 1 < n ∧ arr.getD i 0 < arr.getD (2 * i + 1) 0
  · rw [if_pos h1] at h ⊢
    by_cases h2 : 2 * i + 2 < n ∧ arr.getD (2 * i + 1) 0 < arr.getD (2 * i + 2) 0
    · rw [if_pos h2] at h ⊢; omega
    · rw [if_neg h2] at h ⊢; omega
  · rw [if_neg h1] at h ⊢
    by_cases h2 : 2 * i + 2 < n ∧ arr.getD i 0 < arr.getD (2 * i + 2) 0
    · rw [if_pos h2] at h ⊢; omega
    · rw [if_neg h2] at h ⊢; exact absurd rfl h

/-- `heapify` of sorting.ts (sift-down at `i` within heap size `n`). -/
def heapify (arr : List Int) (n i : Nat) : List Int × List Step :=
  let left := 2 * i + 1
  let right := 2 * i + 2
  let s1 : Step := ⟨arr, [i, left, right].filter (· < n), []⟩
  let l2 := largestIdx arr n i
  if h : l2 ≠ i then
    let arr2 := swap arr i l2
    let s2 : Step := ⟨arr2, [], [i, l2]⟩
    let res := heapify arr2 n l2
    (res.1, s1 :: s2 :: res.2)
  else (arr, [s1])
termination_by n - i
decreasing_by
  have hb := largestIdx_bounds arr n i h
  omega

/-- The heap-build loop of `heapSort`, iterating `heapify n` over an index list. -/
def heapifyFold (arr : List Int) (n : Nat) : List Nat → List Int × List Step
  | [] => (arr, [])
  | i :: rest =>
    let r1 := heapify arr n i
    let r2 := heapifyFold r1.1 n rest
    (r2.1, r1.2 ++ r2.2)

/-- The extraction loop of `heapSort` over the index list `n-1, …, 1`. -/
def extractLoop (arr : List Int) : List Nat → List Int × List Step
  | [] => (arr, [])
  | i :: rest =>
    let a1 := swap arr 0 i
    let s : Step := ⟨a1, [], [0, i]⟩
    let r2 := heapify a1 i 0
    let r3 := extractLoop r2.1 rest
    (r3.1, s :: (r2.2 ++ r3.2))

/-- `heapSort` of sorting.ts, returning the final array and the steps.
The build loop runs `i = ⌊n/2⌋ - 1, …, 0` and the extraction loop
`i = n - 1, …, 1`. -/
def heapSortRun (array : List Int) : List Int × List Step :=
  let n := array.length
  let r1 := heapifyFold array n ((List.range (n / 2)).reverse)
  let r2 := extractLoop r1.1 ((List.range' 1 (n - 1)).reverse)
  (r2.1, r1.2 ++ r2.2)

/-- `heapSort` of sorting.ts (the returned step trace). -/
def heapSort (array : List Int) : List Step := (heapSortRun array).2

/-! ### Basic lemmas about `getD`, `set` and `swap` -/

theorem getD_set_self {l : List Int} {i : Nat} (a : Int) (h : i < l.length) :
    (l.set i a).getD i 0 = a := by
  rw [List.getD_eq_getElem?_getD, List.getElem?_set_eq_of_lt a h]; rfl

theorem getD_set_ne {l : List Int} {i j : Nat} (a : Int) (h : i ≠ j) :
    (l.set i a).getD j 0 = l.getD j 0 := by
  rw [List.getD_eq_getElem?_getD, List.getElem?_set_ne h, ← List.getD_eq_getElem?_getD]

@[simp] theorem length_swap (arr : List Int) (i j : Nat) :
    (swap arr i j).length = arr.length := by
  simp [swap]

theorem getD_swap_right {arr : List Int} {i j : Nat} (h : j < arr.length) :
    (swap arr i j).getD j 0 = arr.getD i 0 := by
  unfold swap
  rw [getD_set_self _ (by simpa using h)]

theorem getD_swap_left {arr : List Int} {i j : Nat} (hi : i < arr.length) :
    (swap arr i j).getD i 0 = arr.getD j 0 := by
  unfold swap
  rcases eq_or_ne j i with rfl | hne
  · rw [getD_set_self _ (by simpa using hi)]
  · rw [getD_set_ne _ hne, getD_set_self _ hi]

theorem getD_swap_other {arr : List Int} {i j t : Nat} (hti : t ≠ i) (htj : t ≠ j) :
    (swap arr i j).getD t 0 = arr.getD t 0 := by
  unfold swap
  rw [getD_set_ne _ (Ne.symm htj), getD_set_ne _ (Ne.symm hti)]

theorem getD_cons_set_perm :
    ∀ (l : List Int) (j : Nat) (a : Int), j < l.length →
      List.Perm (l.getD j 0 :: l.set j a) (a :: l)
  | [], j, a, h => by simp at h
  | b :: t, 0, a, _ => by
    simpa using List.Perm.swap a b t
  | b :: t, j + 1, a, h => by
    have ih := getD_cons_set_perm t j a (by simpa using h)
    have e1 : ((b :: t).getD (j + 1) 0 :: (b :: t).set (j + 1) a)
        = t.getD j 0 :: b :: t.set j a := by simp [List.getD_cons_succ]
    rw [e1]
    exact ((List.Perm.swap b _ _).trans (List.Perm.cons b ih)).trans
      (List.Perm.swap a b t)

theorem swap_perm {arr : List Int} {i j : Nat}
    (hi : i < arr.length) (hj : j < arr.length) :
    List.Perm (swap arr i j) arr := by
  have h1 : List.Perm ((arr.set i (arr.getD j 0)).getD j 0 ::
      (arr.set i (arr.getD j 0)).set j (arr.getD i 0))
      (arr.getD i 0 :: arr.set i (arr.getD j 0)) :=
    getD_cons_set_perm _ j _ (by simpa using hj)
  have h2 : List.Perm (arr.getD i 0 :: arr.set i (arr.getD j 0))
      (arr.getD j 0 :: arr) := getD_cons_set_perm arr i _ hi
  rcases eq_or_ne i j with rfl | hne
  · -- `swap arr i i` sets index `i` twice
    have heq : (arr.set i (arr.getD i 0)).getD i 0 = arr.getD i 0 :=
      getD_set_self _ hi
    have base := getD_cons_set_perm (arr.set i (arr.getD i 0)) i (arr.getD i 0)
      (by simpa using hi)
    rw [heq] at base
    have hch : List.Perm (arr.getD i 0 :: swap arr i i) (arr.getD i 0 :: arr) :=
      base.trans h2
    exact List.Perm.cons_inv hch
  · have heq : (arr.set i (arr.getD j 0)).getD j 0 = arr.getD j 0 :=
      getD_set_ne _ hne
    have base := h1.trans h2
    rw [heq] at base
    exact List.Perm.cons_inv base

/-- Sortedness from pointwise `getD` comparisons. -/
theorem sorted_of_getD {l : List Int}
    (h : ∀ p q, p < q → q < l.length → l.getD p 0 ≤ l.getD q 0) :
    List.Sorted (· ≤ ·) l := by
  refine List.pairwise_iff_getElem.2 fun p q hp hq hpq => ?_
  have := h p q hpq hq
  rwa [List.getD_eq_getElem?_getD, List.getElem?_eq_getElem hp,
    List.getD_eq_getElem?_getD, List.getElem?_eq_getElem hq] at this

theorem getD_eq_getElem {l : List Int} {i : Nat} (h : i < l.length) :
    l.getD i 0 = l[i] := by
  rw [List.getD_eq_getElem?_getD, List.getElem?_eq_getElem h]; rfl

/-! ### Windows (contiguous index ranges) of an array -/

/-- The sublist of `arr` on index range `[l, r]` (both inclusive). -/
def win (arr : List Int) (l r : Nat) : List Int := (arr.drop l).take (r + 1 - l)

theorem length_win {arr : List Int} {l r : Nat} (hr : r < arr.length) (hlr : l ≤ r) :
    (win arr l r).length = r + 1 - l := by
  simp [win]; omega

theorem getD_win {arr : List Int} {l r t : Nat} (ht : t < r + 1 - l) :
    (win arr l r).getD t 0 = arr.getD (l + t) 0 := by
  unfold win
  rw [List.getD_eq_getElem?_getD, List.getElem?_take_of_lt ht,
    List.getElem?_drop, ← List.getD_eq_getElem?_getD]

theorem mem_win {arr : List Int} {l r : Nat} {v : Int} (hv : v ∈ win arr l r)
    (hr : r < arr.length) (hlr : l ≤ r) :
    ∃ t, l ≤ t ∧ t ≤ r ∧ v = arr.getD t 0 := by
  obtain ⟨t, ht, hvt⟩ := List.mem_iff_getElem.1 hv
  rw [length_win hr hlr] at ht
  refine ⟨l + t, by omega, by omega, ?_⟩
  rw [← @getD_win arr l r t ht, ← hvt,
    getD_eq_getElem (by rw [length_win hr hlr]; exact ht)]

theorem take_eq_of_getD {a b : List Int} (hlen : b.length = a.length) (l : Nat)
    (h : ∀ t, t < l → b.getD t 0 = a.getD t 0) : b.take l = a.take l := by
  apply List.ext_getElem?
  intro i
  rcases Nat.lt_or_ge i l with hi | hi
  · rw [List.getElem?_take_of_lt hi, List.getElem?_take_of_lt hi]
    rcases Nat.lt_or_ge i a.length with hib | hib
    · have hgd := h i hi
      rw [@getD_eq_getElem b i (by omega), @getD_eq_getElem a i hib] at hgd
      rw [@List.getElem?_eq_getElem Int b i (by omega),
        @List.getElem?_eq_getElem Int a i hib, hgd]
    · rw [@List.getElem?_eq_none Int b i (by omega),
        @List.getElem?_eq_none Int a i (by omega)]
  · rw [List.getElem?_take_eq_none hi, List.getElem?_take_eq_none hi]

theorem drop_eq_of_getD {a b : List Int} (hlen : b.length = a.length) (l : Nat)
    (h : ∀ t, l ≤ t → b.getD t 0 = a.getD t 0) : b.drop l = a.drop l := by
  apply List.ext_getElem?
  intro i
  rw [List.getElem?_drop, List.getElem?_drop]
  rcases Nat.lt_or_ge (l + i) a.length with hib | hib
  · have := h (l + i) (by omega)
    rw [@getD_eq_getElem b (l + i) (by omega), @getD_eq_getElem a (l + i) hib] at this
    rw [@List.getElem?_eq_getElem Int b (l + i) (by omega),
      @List.getElem?_eq_getElem Int a (l + i) hib, this]
  · rw [@List.getElem?_eq_none Int b (l + i) (by omega),
      @List.getElem?_eq_none Int a (l + i) (by omega)]

theorem win_decomp (arr : List Int) (l r : Nat) (h : l ≤ r + 1) :
    arr = arr.take l ++ win arr l r ++ arr.drop (r + 1) := by
  unfold win
  conv_lhs => rw [← List.take_append_drop l arr]
  rw [List.append_assoc]
  congr 1
  conv_lhs => rw [← List.take_append_drop (r + 1 - l) (arr.drop l)]
  congr 1
  rw [List.drop_drop]
  congr 1
  omega

/-- Windows of permuted arrays that agree outside the window are permutations. -/
theorem win_perm_of_perm {a b : List Int} (hlen : b.length = a.length)
    (hperm : List.Perm b a) {l r : Nat} (hl : l ≤ r + 1)
    (hout : ∀ t, t < l ∨ r < t → b.getD t 0 = a.getD t 0) :
    List.Perm (win b l r) (win a l r) := by
  have htake : b.take l = a.take l :=
    take_eq_of_getD hlen l (fun t ht => hout t (Or.inl ht))
  have hdrop : b.drop (r + 1) = a.drop (r + 1) :=
    drop_eq_of_getD hlen (r + 1) (fun t ht => hout t (Or.inr (by omega)))
  have hb := win_decomp b l r hl
  have ha := win_decomp a l r hl
  rw [hb, ha, htake, hdrop] at hperm
  rw [← Multiset.coe_eq_coe] at hperm ⊢
  simp only [← Multiset.coe_add, List.append_assoc] at hperm
  have h1 : (win b l r : Multiset Int) + (a.drop (r + 1) : Multiset Int) =
      (win a l r : Multiset Int) + (a.drop (r + 1) : Multiset Int) := by
    have h2 := add_left_cancel hperm
    simpa [Multiset.coe_add] using h2
  exact add_right_cancel h1

theorem getD_mem_win {arr : List Int} {l r t : Nat} (hl : l ≤ t) (htr : t ≤ r)
    (hr : r < arr.length) : arr.getD t 0 ∈ win arr l r := by
  have ht : t - l < r + 1 - l := by omega
  have h1 : (win arr l r).getD (t - l) 0 = arr.getD t 0 := by
    rw [getD_win ht]; congr 1; omega
  rw [← h1, getD_eq_getElem (by rw [length_win hr (by omega)]; omega)]
  exact List.getElem_mem _

/-! ### Tracking the final emitted step -/

/-- `trail res arr0` says: either the loop emitted no steps and left the array
as `arr0`, or the array snapshot in its last emitted step is the final array. -/
def trail (res : List Int × List Step) (arr0 : List Int) : Prop :=
  match res.2.getLast? with
  | none => res.1 = arr0
  | some s => s.array = res.1

theorem trail_nil (arr : List Int) : trail (arr, []) arr := rfl

theorem getLast?_cons_ne {s : Step} {ss : List Step} (h : ss ≠ []) :
    (s :: ss).getLast? = ss.getLast? := by
  cases ss with
  | nil => exact absurd rfl h
  | cons b t => exact List.getLast?_cons_cons

theorem trail_cons {arr0 b : List Int} {s : Step} {res : List Int × List Step}
    (hs : s.array = arr0) (h : trail res arr0) : trail (res.1, s :: res.2) b := by
  unfold trail at h ⊢
  rcases hl : res.2.getLast? with _ | s2
  · have hnil : res.2 = [] := List.getLast?_eq_none_iff.1 hl
    rw [hl] at h
    simp only [hnil, List.getLast?_singleton]
    exact hs.trans h.symm
  · have hne : res.2 ≠ [] := by
      intro hc; rw [hc] at hl; exact Option.noConfusion hl
    rw [hl] at h
    simpa only [getLast?_cons_ne hne, hl] using h

theorem trail_cons_of_ne {b0 b : List Int} {s : Step} {res : List Int × List Step}
    (hne : res.2 ≠ []) (h : trail res b0) : trail (res.1, s :: res.2) b := by
  unfold trail at h ⊢
  rcases hl : res.2.getLast? with _ | s2
  · exact absurd (List.getLast?_eq_none_iff.1 hl) hne
  · rw [hl] at h
    simpa only [getLast?_cons_ne hne, hl] using h

theorem trail_cons2 {arr0 b : List Int} {s1 s2 : Step} {res : List Int × List Step}
    (hs : s2.array = arr0) (h : trail res arr0) :
    trail (res.1, s1 :: s2 :: res.2) b := by
  have h2 : trail (res.1, s2 :: res.2) b := trail_cons hs h
  unfold trail at h2 ⊢
  rwa [List.getLast?_cons_cons]

theorem trail_append {a0 : List Int} {r1 r2 : List Int × List Step}
    (h1 : trail r1 a0) (h2 : trail r2 r1.1) : trail (r2.1, r1.2 ++ r2.2) a0 := by
  unfold trail at h1 h2 ⊢
  rcases hl : r2.2.getLast? with _ | s2
  · have hnil : r2.2 = [] := List.getLast?_eq_none_iff.1 hl
    rw [hl] at h2
    simp only [hnil, List.append_nil]
    rcases hl1 : r1.2.getLast? with _ | s1 <;> rw [hl1] at h1
    · exact h2.trans h1
    · exact h1.trans h2.symm
  · have hne : r2.2 ≠ [] := by
      intro hc; rw [hc] at hl; exact Option.noConfusion hl
    rw [hl] at h2
    simpa only [List.getLast?_append_of_ne_nil _ hne, hl] using h2

theorem trail_append3 {a0 : List Int} {r1 r2 r3 : List Int × List Step}
    (h1 : trail r1 a0) (h2 : trail r2 r1.1) (h3 : trail r3 r2.1) :
    trail (r3.1, r1.2 ++ r2.2 ++ r3.2) a0 :=
  trail_append (trail_append h1 h2) h3

/-! ### Bubble sort -/

/-- One bubble pass: frame, permutation, and the prefix maximum reaching the
end of the scanned range. -/
theorem bubbleInner_spec (c : Nat) :
    ∀ (arr : List Int) (j : Nat), j + c < arr.length →
      (bubbleInner arr j c).1.length = arr.length ∧
      (∀ t, t < j ∨ j + c < t → (bubbleInner arr j c).1.getD t 0 = arr.getD t 0) ∧
      List.Perm (bubbleInner arr j c).1 arr ∧
      ((∀ t, t ≤ j → arr.getD t 0 ≤ arr.getD j 0) →
        ∀ t, t ≤ j + c →
          (bubbleInner arr j c).1.getD t 0 ≤ (bubbleInner arr j c).1.getD (j + c) 0) ∧
      (∀ s ∈ (bubbleInner arr j c).2, List.Perm s.array arr) ∧
      trail (bubbleInner arr j c) arr := by
  induction c with
  | zero =>
    intro arr j _
    refine ⟨rfl, fun t _ => rfl, List.Perm.refl arr, ?_, by simp [bubbleInner], ?_⟩
    · intro hpre t ht
      simp only [bubbleInner]
      exact hpre t ht
    · exact trail_nil arr
  | succ c ih =>
    intro arr j hb
    have hj : j < arr.length := by omega
    have hj1 : j + 1 < arr.length := by omega
    simp only [bubbleInner]
    by_cases hcmp : arr.getD j 0 > arr.getD (j + 1) 0
    · rw [if_pos hcmp]
      have hlen2 : (swap arr j (j + 1)).length = arr.length := length_swap arr j (j + 1)
      have hrec := ih (swap arr j (j + 1)) (j + 1) (by omega)
      obtain ⟨rlen, rframe, rperm, rmax, rsteps, rtrail⟩ := hrec
      have hswp : List.Perm (swap arr j (j + 1)) arr := swap_perm hj hj1
      refine ⟨by simpa [hlen2] using rlen, ?_, rperm.trans hswp, ?_, ?_, ?_⟩
      · intro t ht
        have h1 : (bubbleInner (swap arr j (j + 1)) (j + 1) c).1.getD t 0 =
            (swap arr j (j + 1)).getD t 0 := rframe t (by omega)
        rw [h1, getD_swap_other (by omega) (by omega)]
      · intro hpre t ht
        have hpre2 : ∀ t2, t2 ≤ j + 1 →
            (swap arr j (j + 1)).getD t2 0 ≤ (swap arr j (j + 1)).getD (j + 1) 0 := by
          intro t2 ht2
          rw [getD_swap_right hj1]
          rcases Nat.lt_or_ge t2 j with h2 | h2
          · rw [getD_swap_other (by omega) (by omega)]
            exact hpre t2 (by omega)
          · rcases Nat.eq_or_lt_of_le h2 with rfl | h3
            · rw [getD_swap_left hj]
              exact le_of_lt hcmp
            · have ht2e : t2 = j + 1 := by omega
              subst ht2e
              rw [getD_swap_right hj1]
        have := rmax hpre2 t (by omega)
        have he : j + 1 + c = j + (c + 1) := by omega
        rwa [he] at this
      · intro s hs
        rcases List.mem_cons.mp hs with rfl | hs
        · exact List.Perm.refl arr
        rcases List.mem_cons.mp hs with rfl | hs
        · exact hswp
        · exact (rsteps s hs).trans hswp
      · exact trail_cons2 rfl rtrail
    · rw [if_neg hcmp]
      have hrec := ih arr (j + 1) (by omega)
      obtain ⟨rlen, rframe, rperm, rmax, rsteps, rtrail⟩ := hrec
      refine ⟨rlen, ?_, rperm, ?_, ?_, ?_⟩
      · intro t ht
        exact rframe t (by omega)
      · intro hpre t ht
        have hpre2 : ∀ t2, t2 ≤ j + 1 → arr.getD t2 0 ≤ arr.getD (j + 1) 0 := by
          intro t2 ht2
          rcases Nat.eq_or_lt_of_le ht2 with rfl | h3
          · exact le_refl _
          · exact le_trans (hpre t2 (by omega)) (not_lt.mp hcmp)
        have := rmax hpre2 t (by omega)
        have he : j + 1 + c = j + (c + 1) := by omega
        rwa [he] at this
      · intro s hs
        rcases List.mem_cons.mp hs with rfl | hs
        · exact List.Perm.refl arr
        · exact rsteps s hs
      · exact trail_cons rfl rtrail

end Sorting

namespace Sorting

/-- Outer-loop invariant of bubble sort: the suffix `[n - i, n)` is sorted and
dominates the prefix; one pass extends it by one position. -/
theorem bubbleOuter_spec (c : Nat) :
    ∀ (arr : List Int) (n i : Nat), n = arr.length → i + c ≤ n - 1 →
      (∀ p q, n - i ≤ p → p ≤ q → q < n → arr.getD p 0 ≤ arr.getD q 0) →
      (∀ p q, p < n - i → n - i ≤ q → q < n → arr.getD p 0 ≤ arr.getD q 0) →
      (bubbleOuter arr n i c).1.length = arr.length ∧
      List.Perm (bubbleOuter arr n i c).1 arr ∧
      (∀ s ∈ (bubbleOuter arr n i c).2, List.Perm s.array arr) ∧
      (∀ p q, n - (i + c) ≤ p → p ≤ q → q < n →
        (bubbleOuter arr n i c).1.getD p 0 ≤ (bubbleOuter arr n i c).1.getD q 0) ∧
      (∀ p q, p < n - (i + c) → n - (i + c) ≤ q → q < n →
        (bubbleOuter arr n i c).1.getD p 0 ≤ (bubbleOuter arr n i c).1.getD q 0) ∧
      trail (bubbleOuter arr n i c) arr := by
  induction c with
  | zero =>
    intro arr n i hn _ hsuf hdom
    exact ⟨rfl, List.Perm.refl arr, by simp [bubbleOuter], hsuf, hdom, trail_nil arr⟩
  | succ c ih =>
    intro arr n i hn hc hsuf hdom
    have hn2 : 2 ≤ n := by omega
    have hpass := bubbleInner_spec (n - i - 1) arr 0 (by omega)
    obtain ⟨plen, pframe, pperm, pmax, psteps, ptrail⟩ := hpass
    set a1 := (bubbleInner arr 0 (n - i - 1)).1 with ha1
    have hmax : ∀ t, t ≤ n - i - 1 → a1.getD t 0 ≤ a1.getD (n - i - 1) 0 := by
      have := pmax (fun t ht => by
        have : t = 0 := by omega
        subst this; exact le_refl _)
      simpa using this
    -- values in the scanned prefix of `a1` come from the scanned prefix of `arr`
    have hval : ∀ t, t ≤ n - i - 1 → ∃ t2, t2 ≤ n - i - 1 ∧
        a1.getD t 0 = arr.getD t2 0 := by
      intro t ht
      have hmem : a1.getD t 0 ∈ win a1 0 (n - i - 1) :=
        getD_mem_win (by omega) ht (by omega)
      have hwp : List.Perm (win a1 0 (n - i - 1)) (win arr 0 (n - i - 1)) := by
        refine win_perm_of_perm (by omega) pperm (by omega) ?_
        intro t2 ht2
        rcases ht2 with h2 | h2
        · omega
        · exact pframe t2 (Or.inr (by omega))
      have hmem2 := hwp.mem_iff.1 hmem
      obtain ⟨t2, h1, h2, h3⟩ := mem_win hmem2 (by omega) (by omega)
      exact ⟨t2, by omega, h3⟩
    -- invariants for the next iteration
    have hsuf2 : ∀ p q, n - (i + 1) ≤ p → p ≤ q → q < n →
        a1.getD p 0 ≤ a1.getD q 0 := by
      intro p q hp hpq hq
      rcases Nat.lt_or_ge p (n - i) with hpi | hpi
      · -- p = n - i - 1 (the new boundary)
        rcases Nat.lt_or_ge q (n - i) with hqi | hqi
        · have hpq2 : p = q ∨ p < q := by omega
          rcases hpq2 with rfl | h2
          · exact le_refl _
          · omega
        · -- q in the old suffix
          have hq1 : a1.getD q 0 = arr.getD q 0 := pframe q (Or.inr (by omega))
          obtain ⟨t2, ht2, hv⟩ := hval p (by omega)
          rw [hv, hq1]
          exact hdom t2 q (by omega) hqi hq
      · -- both in the old suffix
        have hp1 : a1.getD p 0 = arr.getD p 0 := pframe p (Or.inr (by omega))
        have hq1 : a1.getD q 0 = arr.getD q 0 := pframe q (Or.inr (by omega))
        rw [hp1, hq1]
        exact hsuf p q hpi hpq hq
    have hdom2 : ∀ p q, p < n - (i + 1) → n - (i + 1) ≤ q → q < n →
        a1.getD p 0 ≤ a1.getD q 0 := by
      intro p q hp hq hqn
      rcases Nat.lt_or_ge q (n - i) with hqi | hqi
      · -- q is the new boundary position n - i - 1
        have : q = n - i - 1 := by omega
        subst this
        exact hmax p (by omega)
      · -- q in the old suffix
        have hq1 : a1.getD q 0 = arr.getD q 0 := pframe q (Or.inr (by omega))
        obtain ⟨t2, ht2, hv⟩ := hval p (by omega)
        rw [hv, hq1]
        exact hdom t2 q (by omega) hqi hqn
    have hrec := ih a1 n (i + 1) (by omega) (by omega) hsuf2 hdom2
    obtain ⟨rlen, rperm, rsteps, rsuf, rdom, rtrail⟩ := hrec
    simp only [bubbleOuter]
    refine ⟨by rw [rlen, plen], rperm.trans pperm, ?_, ?_, ?_, ?_⟩
    · intro s hs
      rcases List.mem_append.mp hs with hs | hs
      · exact psteps s hs
      · exact (rsteps s hs).trans pperm
    · intro p q hp hpq hq
      exact rsuf p q (by omega) hpq hq
    · intro p q hp hq hqn
      exact rdom p q (by omega) (by omega) hqn
    · exact trail_append ptrail rtrail

/-- Bubble sort: the final array is a sorted permutation of the input, every
step snapshot is a permutation of the input, and the last step holds the
final array. -/
theorem bubbleSortRun_spec (a : List Int) :
    List.Perm (bubbleSortRun a).1 a ∧
    List.Sorted (· ≤ ·) (bubbleSortRun a).1 ∧
    (∀ s ∈ bubbleSort a, List.Perm s.array a) ∧
    trail (bubbleSortRun a) a := by
  rcases Nat.lt_or_ge a.length 2 with hsmall | hbig
  · match a, hsmall with
    | [], _ =>
      exact ⟨List.Perm.refl _, List.sorted_nil,
        fun s hs => absurd hs (List.not_mem_nil s), trail_nil _⟩
    | [x], _ =>
      exact ⟨List.Perm.refl _, List.sorted_singleton x,
        fun s hs => absurd hs (List.not_mem_nil s), trail_nil _⟩
  · unfold bubbleSortRun bubbleSort bubbleSortRun
    have h := bubbleOuter_spec (a.length - 1) a a.length 0 rfl (by omega)
      (fun p q hp _ hq => by omega) (fun p q _ hq hqn => by omega)
    obtain ⟨hlen, hperm, hsteps, hsuf, hdom, htr⟩ := h
    refine ⟨hperm, ?_, ?_, ?_⟩
    · refine sorted_of_getD ?_
      intro p q hpq hq
      rw [hlen] at hq
      rcases Nat.eq_zero_or_pos p with rfl | hp
      · exact hdom 0 q (by omega) (by omega) hq
      · exact hsuf p q (by omega) (by omega) hq
    · exact fun s hs => hsteps s hs
    · exact htr

end Sorting

namespace Sorting

/-! ### Quick sort -/

/-- Lomuto scan loop: invariants of the store pointer `i1` and scan pointer
`j`, and the partition of scanned values around the pivot. -/
theorem partitionLoop_spec (c : Nat) :
    ∀ (arr : List Int) (pivot : Int) (high i1 j : Nat),
      j + c = high → i1 ≤ j → high < arr.length →
      (∀ t, i1 ≤ t → t < j → pivot ≤ arr.getD t 0) →
      (partitionLoop arr pivot high i1 j c).1.length = arr.length ∧
      i1 ≤ (partitionLoop arr pivot high i1 j c).2.2 ∧
      (partitionLoop arr pivot high i1 j c).2.2 ≤ high ∧
      (∀ t, t < i1 ∨ high ≤ t →
        (partitionLoop arr pivot high i1 j c).1.getD t 0 = arr.getD t 0) ∧
      List.Perm (partitionLoop arr pivot high i1 j c).1 arr ∧
      (∀ t, i1 ≤ t → t < (partitionLoop arr pivot high i1 j c).2.2 →
        (partitionLoop arr pivot high i1 j c).1.getD t 0 < pivot) ∧
      (∀ t, (partitionLoop arr pivot high i1 j c).2.2 ≤ t → t < high →
        pivot ≤ (partitionLoop arr pivot high i1 j c).1.getD t 0) ∧
      (∀ s ∈ (partitionLoop arr pivot high i1 j c).2.1, List.Perm s.array arr) ∧
      trail ((partitionLoop arr pivot high i1 j c).1,
        (partitionLoop arr pivot high i1 j c).2.1) arr := by
  induction c with
  | zero =>
    intro arr pivot high i1 j hj hij hhigh hmid
    refine ⟨rfl, le_refl _, hij.trans (by omega), fun t _ => rfl, List.Perm.refl arr,
      ?_, ?_, ?_, trail_nil arr⟩
    · intro t h1 h2
      have h3 : t < i1 := h2
      omega
    · intro t h1 h2
      have h3 : i1 ≤ t := h1
      exact hmid t h3 (by omega)
    · intro s hs; exact absurd hs (List.not_mem_nil s)
  | succ c ih =>
    intro arr pivot high i1 j hj hij hhigh hmid
    have hjlt : j < high := by omega
    have hjlen : j < arr.length := by omega
    have hi1len : i1 < arr.length := by omega
    simp only [partitionLoop]
    by_cases hcmp : arr.getD j 0 < pivot
    · rw [if_pos hcmp]
      dsimp only
      have hswp : List.Perm (swap arr i1 j) arr := swap_perm hi1len hjlen
      have hlen2 : (swap arr i1 j).length = arr.length := length_swap arr i1 j
      have hmid2 : ∀ t, i1 + 1 ≤ t → t < j + 1 → pivot ≤ (swap arr i1 j).getD t 0 := by
        intro t h1 h2
        rcases Nat.lt_or_ge t j with h3 | h3
        · rw [getD_swap_other (by omega) (by omega)]
          exact hmid t (by omega) h3
        · have ht : t = j := by omega
          subst ht
          rcases Nat.eq_or_lt_of_le hij with rfl | h4
          · omega
          · rw [getD_swap_right hjlen]
            exact hmid i1 (le_refl _) h4
      have hrec := ih (swap arr i1 j) pivot high (i1 + 1) (j + 1) (by omega)
        (by omega) (by omega) hmid2
      obtain ⟨rlen, ri1, ri2, rframe, rperm, rlt, rge, rsteps, rtrail⟩ := hrec
      refine ⟨by rw [rlen, hlen2], by omega, ri2, ?_, rperm.trans hswp, ?_, rge, ?_, ?_⟩
      · intro t ht
        rw [rframe t (by omega), getD_swap_other (by omega) (by omega)]
      · intro t h1 h2
        rcases Nat.eq_or_lt_of_le h1 with h3 | h3
        · rw [← h3, rframe i1 (by omega), getD_swap_left hi1len]
          exact hcmp
        · exact rlt t (by omega) h2
      · intro s hs
        rcases List.mem_cons.mp hs with rfl | hs
        · exact List.Perm.refl arr
        rcases List.mem_cons.mp hs with rfl | hs
        · exact hswp
        · exact (rsteps s hs).trans hswp
      · exact trail_cons2 rfl rtrail
    · rw [if_neg hcmp]
      dsimp only
      have hmid2 : ∀ t, i1 ≤ t → t < j + 1 → pivot ≤ arr.getD t 0 := by
        intro t h1 h2
        rcases Nat.lt_or_ge t j with h3 | h3
        · exact hmid t h1 h3
        · have ht : t = j := by omega
          subst ht
          exact not_lt.mp hcmp
      have hrec := ih arr pivot high i1 (j + 1) (by omega) (by omega) hhigh hmid2
      obtain ⟨rlen, ri1, ri2, rframe, rperm, rlt, rge, rsteps, rtrail⟩ := hrec
      refine ⟨rlen, ri1, ri2, rframe, rperm, rlt, rge, ?_, ?_⟩
      · intro s hs
        rcases List.mem_cons.mp hs with rfl | hs
        · exact List.Perm.refl arr
        · exact rsteps s hs
      · exact trail_cons rfl rtrail

/-- `partition` places the pivot at the returned index, with strictly smaller
values to its left and `≥` values to its right (within `[low, high]`). -/
theorem partition_spec (arr : List Int) (low high : Nat)
    (hlh : low ≤ high) (hhigh : high < arr.length) :
    (partition arr low high).1.length = arr.length ∧
    low ≤ (partition arr low high).2.2 ∧
    (partition arr low high).2.2 ≤ high ∧
    (∀ t, t < low ∨ high < t →
      (partition arr low high).1.getD t 0 = arr.getD t 0) ∧
    List.Perm (partition arr low high).1 arr ∧
    (partition arr low high).1.getD (partition arr low high).2.2 0 = arr.getD high 0 ∧
    (∀ t, low ≤ t → t < (partition arr low high).2.2 →
      (partition arr low high).1.getD t 0 < arr.getD high 0) ∧
    (∀ t, (partition arr low high).2.2 < t → t ≤ high →
      arr.getD high 0 ≤ (partition arr low high).1.getD t 0) ∧
    (∀ s ∈ (partition arr low high).2.1, List.Perm s.array arr) ∧
    trail ((partition arr low high).1, (partition arr low high).2.1) arr := by
  have h := partitionLoop_spec (high - low) arr (arr.getD high 0) high low low
    (by omega) (le_refl _) hhigh (fun t h1 h2 => by omega)
  obtain ⟨rlen, ri1, ri2, rframe, rperm, rlt, rge, rsteps, rtrail⟩ := h
  set a1 := (partitionLoop arr (arr.getD high 0) high low low (high - low)).1 with ha1
  set pi := (partitionLoop arr (arr.getD high 0) high low low (high - low)).2.2 with hpi
  have hpilen : pi < arr.length := by omega
  have hhlen1 : high < a1.length := by rw [rlen]; exact hhigh
  have hpilen1 : pi < a1.length := by omega
  have hhigh_val : a1.getD high 0 = arr.getD high 0 := rframe high (Or.inr (le_refl _))
  unfold partition
  dsimp only
  rw [← ha1, ← hpi]
  refine ⟨by rw [length_swap, rlen], ri1, ri2, ?_, ?_, ?_, ?_, ?_, ?_, ?_⟩
  · intro t ht
    rw [getD_swap_other (by omega) (by omega)]
    exact rframe t (by omega)
  · exact (swap_perm hpilen1 hhlen1).trans rperm
  · rw [getD_swap_left hpilen1]
    exact hhigh_val
  · intro t h1 h2
    rw [getD_swap_other (by omega) (by omega)]
    exact rlt t h1 h2
  · intro t h1 h2
    rcases Nat.lt_or_ge t high with h3 | h3
    · rw [getD_swap_other (by omega) (by omega)]
      exact rge t (by omega) h3
    · have ht : t = high := by omega
      subst ht
      rw [getD_swap_right hhlen1]
      rcases Nat.eq_or_lt_of_le ri2 with h4 | h4
      · rw [h4, hhigh_val]
      · exact rge pi (le_refl _) h4
  · intro s hs
    rcases List.mem_append.mp hs with hs | hs
    · exact rsteps s hs
    · rcases List.mem_singleton.mp hs with rfl
      exact (swap_perm hpilen1 hhlen1).trans rperm
  · exact @trail_append arr
      (a1, (partitionLoop arr (arr.getD high 0) high low low (high - low)).2.1)
      (swap a1 pi high, [⟨swap a1 pi high, [], [pi, high]⟩]) rtrail
      (trail_cons rfl (trail_nil _))

end Sorting

namespace Sorting

/-- `quickSortHelper` sorts the range `[low, high]`, leaves everything else
unchanged, and permutes the array; step snapshots are permutations of the
input and the last step carries the final array. -/
theorem quickSortHelper_spec (fuel : Nat) :
    ∀ (arr : List Int) (low high : Nat),
      high < arr.length → (low < high → high - low < fuel) →
      (quickSortHelper arr low high fuel).1.length = arr.length ∧
      (∀ t, t < low ∨ high < t →
        (quickSortHelper arr low high fuel).1.getD t 0 = arr.getD t 0) ∧
      List.Perm (quickSortHelper arr low high fuel).1 arr ∧
      (∀ p q, low ≤ p → p ≤ q → q ≤ high →
        (quickSortHelper arr low high fuel).1.getD p 0 ≤
          (quickSortHelper arr low high fuel).1.getD q 0) ∧
      (∀ s ∈ (quickSortHelper arr low high fuel).2, List.Perm s.array arr) ∧
      trail (quickSortHelper arr low high fuel) arr ∧
      (high ≤ low → (quickSortHelper arr low high fuel).1 = arr) := by
  induction fuel with
  | zero =>
    intro arr low high hlen hfuel
    have hle : high ≤ low := by
      by_contra hc
      exact absurd (hfuel (by omega)) (by omega)
    refine ⟨rfl, fun t _ => rfl, List.Perm.refl arr, ?_,
      fun s hs => absurd hs (List.not_mem_nil s), trail_nil arr, fun _ => rfl⟩
    intro p q hp hpq hq
    have hpe : p = q := by omega
    rw [hpe]
  | succ fuel ih =>
    intro arr low high hlen hfuel
    simp only [quickSortHelper]
    by_cases hlh : low < high
    · rw [if_pos hlh]
      dsimp only
      obtain ⟨plen, ppi1, ppi2, pframe, pperm, ppiv, plt, pge, psteps, ptrail⟩ :=
        partition_spec arr low high (by omega) hlen
      set a1 := (partition arr low high).1 with ha1
      set pi := (partition arr low high).2.2 with hpi
      have hlrec := ih a1 low (pi - 1) (by omega) (by omega)
      obtain ⟨llen, lframe, lperm, lsort, lsteps, ltrail, lnoop⟩ := hlrec
      set a2 := (quickSortHelper a1 low (pi - 1) fuel).1 with ha2
      have hrrec := ih a2 (pi + 1) high (by omega) (by omega)
      obtain ⟨rlen, rframe, rperm, rsort, rsteps, rtrail, rnoop⟩ := hrrec
      set a3 := (quickSortHelper a2 (pi + 1) high fuel).1 with ha3
      -- a2 agrees with a1 at pi and everywhere ≥ pi
      have ha2pi : ∀ t, pi ≤ t → a2.getD t 0 = a1.getD t 0 := by
        intro t ht
        rcases Nat.lt_or_ge low pi with h1 | h1
        · exact lframe t (Or.inr (by omega))
        · rw [lnoop (by omega)]
      -- the pivot value sits at pi in a3
      have hpiv3 : a3.getD pi 0 = arr.getD high 0 := by
        rw [rframe pi (Or.inl (by omega)), ha2pi pi (le_refl _), ppiv]
      -- values strictly left of pi stay < pivot
      have hleftvals : ∀ t, low ≤ t → t < pi → a3.getD t 0 < arr.getD high 0 := by
        intro t h1 h2
        have h3 : a3.getD t 0 = a2.getD t 0 := rframe t (Or.inl (by omega))
        have hmem : a2.getD t 0 ∈ win a2 low (pi - 1) :=
          getD_mem_win h1 (by omega) (by omega)
        have hwp : List.Perm (win a2 low (pi - 1)) (win a1 low (pi - 1)) := by
          refine win_perm_of_perm (by rw [llen]) lperm (by omega) ?_
          intro t2 ht2
          rcases ht2 with h4 | h4
          · exact lframe t2 (Or.inl h4)
          · exact lframe t2 (Or.inr h4)
        obtain ⟨t2, h5, h6, h7⟩ := mem_win (hwp.mem_iff.1 hmem) (by omega) (by omega)
        rw [h3, h7]
        exact plt t2 h5 (by omega)
      -- values strictly right of pi stay ≥ pivot
      have hrightvals : ∀ t, pi < t → t ≤ high → arr.getD high 0 ≤ a3.getD t 0 := by
        intro t h1 h2
        have hmem : a3.getD t 0 ∈ win a3 (pi + 1) high :=
          getD_mem_win (by omega) h2 (by omega)
        have hwp : List.Perm (win a3 (pi + 1) high) (win a2 (pi + 1) high) := by
          refine win_perm_of_perm (by rw [rlen]) rperm (by omega) ?_
          intro t2 ht2
          rcases ht2 with h4 | h4
          · exact rframe t2 (Or.inl h4)
          · exact rframe t2 (Or.inr h4)
        obtain ⟨t2, h5, h6, h7⟩ := mem_win (hwp.mem_iff.1 hmem) (by omega) (by omega)
        rw [h7, ha2pi t2 (by omega)]
        exact pge t2 (by omega) h6
      refine ⟨?_, ?_, ?_, ?_, ?_, ?_, ?_⟩
      · rw [rlen, llen, plen]
      · intro t ht
        rw [rframe t (by rcases ht with h | h; exacts [Or.inl (by omega), Or.inr (by omega)]),
          lframe t (by rcases ht with h | h; exacts [Or.inl (by omega), Or.inr (by omega)]),
          pframe t ht]
      · exact (rperm.trans lperm).trans pperm
      · intro p q hp hpq hq
        rcases Nat.lt_trichotomy p pi with h1 | h1 | h1
        · rcases Nat.lt_trichotomy q pi with h2 | h2 | h2
          · rw [rframe p (Or.inl (by omega)), rframe q (Or.inl (by omega))]
            exact lsort p q hp hpq (by omega)
          · rw [h2, hpiv3]
            exact le_of_lt (hleftvals p hp h1)
          · exact le_trans (le_of_lt (hleftvals p hp h1)) (hrightvals q h2 hq)
        · rcases Nat.lt_or_ge pi q with h2 | h2
          · rw [h1, hpiv3]
            exact hrightvals q h2 hq
          · have hq2 : q = pi := by omega
            rw [h1, hq2]
        · exact rsort p q (by omega) hpq hq
      · intro s hs
        rcases List.mem_append.mp hs with hs | hs
        · rcases List.mem_append.mp hs with hs | hs
          · exact psteps s hs
          · exact (lsteps s hs).trans pperm
        · exact ((rsteps s hs).trans lperm).trans pperm
      · exact @trail_append3 arr (a1, (partition arr low high).2.1)
          (quickSortHelper a1 low (pi - 1) fuel)
          (quickSortHelper a2 (pi + 1) high fuel) ptrail ltrail rtrail
      · intro h
        omega
    · rw [if_neg hlh]
      refine ⟨rfl, fun t _ => rfl, List.Perm.refl arr, ?_,
        fun s hs => absurd hs (List.not_mem_nil s), trail_nil arr, fun _ => rfl⟩
      intro p q hp hpq hq
      have hpe : p = q := by omega
      rw [hpe]

/-- Quick sort: the final array is a sorted permutation of the input, every
step snapshot is a permutation of the input, and the last step holds the
final array. -/
theorem quickSortRun_spec (a : List Int) :
    List.Perm (quickSortRun a).1 a ∧
    List.Sorted (· ≤ ·) (quickSortRun a).1 ∧
    (∀ s ∈ quickSort a, List.Perm s.array a) ∧
    trail (quickSortRun a) a := by
  rcases Nat.eq_zero_or_pos a.length with hz | hpos
  · have ha : a = [] := List.length_eq_zero.mp hz
    subst ha
    exact ⟨List.Perm.refl _, List.sorted_nil,
      fun s hs => absurd hs (List.not_mem_nil s), trail_nil _⟩
  · unfold quickSortRun quickSort quickSortRun
    have h := quickSortHelper_spec a.length a 0 (a.length - 1) (by omega) (by omega)
    obtain ⟨hlen, _, hperm, hsort, hsteps, htrail, _⟩ := h
    refine ⟨hperm, ?_, hsteps, htrail⟩
    refine sorted_of_getD ?_
    intro p q hpq hq
    rw [hlen] at hq
    exact hsort p q (by omega) (by omega) (by omega)

end Sorting

namespace Sorting

/-! ### Merge sort -/

/-- The sequence of values the merge loop writes: the standard stable merge of
the two runs. -/
def mergeLists : List Int → List Int → List Int
  | [], rs => rs
  | lh :: lt, [] => lh :: mergeLists lt []
  | lh :: lt, rh :: rt =>
    if lh ≤ rh then lh :: mergeLists lt (rh :: rt)
    else rh :: mergeLists (lh :: lt) rt
termination_by ls rs => ls.length + rs.length

/-- Writing a list of values into consecutive positions starting at `k`. -/
def writeSeq (arr : List Int) (k : Nat) : List Int → List Int
  | [] => arr
  | v :: vs => writeSeq (arr.set k v) (k + 1) vs

theorem mergeLists_nil_right : ∀ ls : List Int, mergeLists ls [] = ls
  | [] => by rw [mergeLists]
  | lh :: lt => by rw [mergeLists, mergeLists_nil_right lt]

theorem mergeLists_perm : ∀ (ls rs : List Int),
    List.Perm (mergeLists ls rs) (ls ++ rs)
  | [], rs => by simp [mergeLists]
  | lh :: lt, [] => by simp [mergeLists_nil_right]
  | lh :: lt, rh :: rt => by
    rw [mergeLists]
    split
    · exact (mergeLists_perm lt (rh :: rt)).cons lh
    · exact ((mergeLists_perm (lh :: lt) rt).cons rh).trans List.perm_middle.symm
termination_by ls rs => ls.length + rs.length

theorem mergeLists_length (ls rs : List Int) :
    (mergeLists ls rs).length = ls.length + rs.length := by
  have h := (mergeLists_perm ls rs).length_eq
  simpa using h

theorem mergeLists_sorted : ∀ (ls rs : List Int),
    List.Sorted (· ≤ ·) ls → List.Sorted (· ≤ ·) rs →
    List.Sorted (· ≤ ·) (mergeLists ls rs)
  | [], rs, _, hr => by simpa [mergeLists] using hr
  | lh :: lt, [], hl, _ => by rw [mergeLists_nil_right]; exact hl
  | lh :: lt, rh :: rt, hl, hr => by
    rw [mergeLists]
    obtain ⟨hlb, hlt⟩ := List.sorted_cons.mp hl
    obtain ⟨hrb, hrt⟩ := List.sorted_cons.mp hr
    split
    · rename_i hle
      refine List.sorted_cons.mpr ⟨?_, mergeLists_sorted lt (rh :: rt) hlt hr⟩
      intro b hb
      have hb2 := (mergeLists_perm lt (rh :: rt)).mem_iff.1 hb
      rcases List.mem_append.mp hb2 with hb3 | hb3
      · exact hlb b hb3
      · rcases List.mem_cons.mp hb3 with rfl | hb4
        · exact hle
        · exact le_trans hle (hrb b hb4)
    · rename_i hgt
      have hlt2 : rh ≤ lh := le_of_lt (lt_of_not_le hgt)
      refine List.sorted_cons.mpr ⟨?_, mergeLists_sorted (lh :: lt) rt hl hrt⟩
      intro b hb
      have hb2 := (mergeLists_perm (lh :: lt) rt).mem_iff.1 hb
      rcases List.mem_append.mp hb2 with hb3 | hb3
      · rcases List.mem_cons.mp hb3 with rfl | hb4
        · exact hlt2
        · exact le_trans hlt2 (hlb b hb4)
      · exact hrb b hb3
termination_by ls rs => ls.length + rs.length

@[simp] theorem length_writeSeq : ∀ (vs : List Int) (arr : List Int) (k : Nat),
    (writeSeq arr k vs).length = arr.length
  | [], arr, k => rfl
  | v :: vs, arr, k => by
    rw [writeSeq, length_writeSeq vs]
    simp

theorem getD_writeSeq_outside : ∀ (vs : List Int) (arr : List Int) (k t : Nat),
    t < k ∨ k + vs.length ≤ t → (writeSeq arr k vs).getD t 0 = arr.getD t 0
  | [], arr, k, t, _ => rfl
  | v :: vs, arr, k, t, ht => by
    have ht2 : t < k ∨ k + (vs.length + 1) ≤ t := by
      simpa only [List.length_cons] using ht
    rw [writeSeq, getD_writeSeq_outside vs _ (k + 1) t (by omega),
      getD_set_ne _ (by omega)]

theorem getD_writeSeq_inside : ∀ (vs : List Int) (arr : List Int) (k t : Nat),
    t < vs.length → k + vs.length ≤ arr.length →
    (writeSeq arr k vs).getD (k + t) 0 = vs.getD t 0
  | v :: vs, arr, k, 0, _, hlen => by
    have hlen2 : k + (vs.length + 1) ≤ arr.length := by
      simpa only [List.length_cons] using hlen
    simp only [Nat.add_zero]
    rw [writeSeq, getD_writeSeq_outside vs _ (k + 1) k (by omega),
      getD_set_self _ (by omega)]
    rfl
  | v :: vs, arr, k, t + 1, ht, hlen => by
    have ht2 : t < vs.length := by
      have h3 : t + 1 < vs.length + 1 := by simpa only [List.length_cons] using ht
      omega
    have hlen2 : k + (vs.length + 1) ≤ arr.length := by
      simpa only [List.length_cons] using hlen
    rw [writeSeq]
    have h2 : k + (t + 1) = (k + 1) + t := by omega
    rw [h2, getD_writeSeq_inside vs _ (k + 1) t ht2 (by simp; omega)]
    rfl

end Sorting

namespace Sorting

theorem sorted_getD_mono {lst : List Int} (h : List.Sorted (· ≤ ·) lst) {p q : Nat}
    (hpq : p ≤ q) (hq : q < lst.length) : lst.getD p 0 ≤ lst.getD q 0 := by
  rcases Nat.eq_or_lt_of_le hpq with rfl | hlt
  · exact le_refl _
  · rw [getD_eq_getElem (by omega), getD_eq_getElem hq]
    exact List.pairwise_iff_getElem.1 h p q (by omega) hq hlt

theorem list_eq_of_getD {a b : List Int} (hlen : a.length = b.length)
    (h : ∀ t, t < a.length → a.getD t 0 = b.getD t 0) : a = b := by
  have h1 : a.take a.length = b.take a.length :=
    take_eq_of_getD hlen.symm a.length (fun t ht => (h t ht).symm) |>.symm
  rwa [List.take_length, hlen, List.take_length] at h1

theorem win_concat {arr : List Int} {l m r : Nat} (hlm : l ≤ m) (hmr : m < r) :
    win arr l r = win arr l m ++ win arr (m + 1) r := by
  unfold win
  have h1 : r + 1 - l = (m + 1 - l) + (r - m) := by omega
  have h3 : l + (m + 1 - l) = m + 1 := by omega
  have h4 : r - m = r + 1 - (m + 1) := by omega
  rw [h1, List.take_add, List.drop_drop, h3, h4]

theorem perm_of_win_perm {a b : List Int} (hlen : b.length = a.length) {l r : Nat}
    (hl : l ≤ r + 1) (hout : ∀ t, t < l ∨ r < t → b.getD t 0 = a.getD t 0)
    (hwin : List.Perm (win b l r) (win a l r)) : List.Perm b a := by
  have htake : b.take l = a.take l :=
    take_eq_of_getD hlen l (fun t ht => hout t (Or.inl ht))
  have hdrop : b.drop (r + 1) = a.drop (r + 1) :=
    drop_eq_of_getD hlen (r + 1) (fun t ht => hout t (Or.inr (by omega)))
  have hb := win_decomp b l r hl
  have ha := win_decomp a l r hl
  rw [hb, ha, htake, hdrop, List.append_assoc, List.append_assoc]
  exact ((hwin.append_right (a.drop (r + 1))).append_left (a.take l))

theorem mergeLoop_fst : ∀ (lrest rrest : List Int) (arr : List Int) (l m k i j : Nat),
    (mergeLoop arr l m k i j lrest rrest).1 = writeSeq arr k (mergeLists lrest rrest)
  | [], [], arr, l, m, k, i, j => by rw [mergeLoop, mergeLists, writeSeq]
  | [], rh :: rt, arr, l, m, k, i, j => by
    rw [mergeLoop, mergeLists, writeSeq]
    dsimp only
    have h := mergeLoop_fst [] rt (arr.set k rh) l m (k + 1) i (j + 1)
    rwa [mergeLists] at h
  | lh :: lt, [], arr, l, m, k, i, j => by
    rw [mergeLoop, mergeLists_nil_right, writeSeq]
    dsimp only
    have h := mergeLoop_fst lt [] (arr.set k lh) l m (k + 1) (i + 1) j
    rwa [mergeLists_nil_right] at h
  | lh :: lt, rh :: rt, arr, l, m, k, i, j => by
    rw [mergeLoop, mergeLists]
    split
    · rw [writeSeq]
      dsimp only
      exact mergeLoop_fst lt (rh :: rt) _ l m (k + 1) (i + 1) j
    · rw [writeSeq]
      dsimp only
      exact mergeLoop_fst (lh :: lt) rt _ l m (k + 1) i (j + 1)
termination_by lrest rrest => lrest.length + rrest.length

theorem mergeLoop_trail : ∀ (lrest rrest : List Int) (arr : List Int) (l m k i j : Nat),
    trail (mergeLoop arr l m k i j lrest rrest) arr
  | [], [], arr, l, m, k, i, j => by rw [mergeLoop]; exact trail_nil arr
  | [], rh :: rt, arr, l, m, k, i, j => by
    rw [mergeLoop]
    exact trail_cons rfl (mergeLoop_trail [] rt _ l m (k + 1) i (j + 1))
  | lh :: lt, [], arr, l, m, k, i, j => by
    rw [mergeLoop]
    exact trail_cons rfl (mergeLoop_trail lt [] _ l m (k + 1) (i + 1) j)
  | lh :: lt, rh :: rt, arr, l, m, k, i, j => by
    rw [mergeLoop]
    split
    · exact trail_cons2 rfl (mergeLoop_trail lt (rh :: rt) _ l m (k + 1) (i + 1) j)
    · exact trail_cons2 rfl (mergeLoop_trail (lh :: lt) rt _ l m (k + 1) i (j + 1))
termination_by lrest rrest => lrest.length + rrest.length

/-- `merge` merges the two sorted runs `[l, m]`, `[m+1, r]` in place. -/
theorem merge_spec (arr : List Int) (l m r : Nat)
    (hlm : l ≤ m) (hmr : m < r) (hr : r < arr.length)
    (hsl : ∀ p q, l ≤ p → p ≤ q → q ≤ m → arr.getD p 0 ≤ arr.getD q 0)
    (hsr : ∀ p q, m + 1 ≤ p → p ≤ q → q ≤ r → arr.getD p 0 ≤ arr.getD q 0) :
    (merge arr l m r).1.length = arr.length ∧
    (∀ t, t < l ∨ r < t → (merge arr l m r).1.getD t 0 = arr.getD t 0) ∧
    List.Perm (merge arr l m r).1 arr ∧
    (∀ p q, l ≤ p → p ≤ q → q ≤ r →
      (merge arr l m r).1.getD p 0 ≤ (merge arr l m r).1.getD q 0) ∧
    trail (merge arr l m r) arr := by
  have hLdef : (arr.take (m + 1)).drop l = win arr l m := (List.drop_take (m + 1) l arr)
  have hRdef : (arr.take (r + 1)).drop (m + 1) = win arr (m + 1) r :=
    (List.drop_take (r + 1) (m + 1) arr)
  have hLlen : (win arr l m).length = m + 1 - l := length_win (by omega) hlm
  have hRlen : (win arr (m + 1) r).length = r - m := by
    rw [length_win hr (by omega)]; omega
  have hMLlen : (mergeLists (win arr l m) (win arr (m + 1) r)).length = r + 1 - l := by
    rw [mergeLists_length, hLlen, hRlen]; omega
  have hfst : (merge arr l m r).1 =
      writeSeq arr l (mergeLists (win arr l m) (win arr (m + 1) r)) := by
    unfold merge
    rw [hLdef, hRdef]
    exact mergeLoop_fst _ _ arr l m l 0 0
  have hsortedL : List.Sorted (· ≤ ·) (win arr l m) := by
    refine sorted_of_getD ?_
    intro p q hpq hq
    rw [hLlen] at hq
    rw [getD_win (by omega), getD_win (by omega)]
    exact hsl (l + p) (l + q) (by omega) (by omega) (by omega)
  have hsortedR : List.Sorted (· ≤ ·) (win arr (m + 1) r) := by
    refine sorted_of_getD ?_
    intro p q hpq hq
    rw [hRlen] at hq
    rw [getD_win (by omega), getD_win (by omega)]
    exact hsr (m + 1 + p) (m + 1 + q) (by omega) (by omega) (by omega)
  have hsortedML := mergeLists_sorted _ _ hsortedL hsortedR
  have hframe : ∀ t, t < l ∨ r < t → (merge arr l m r).1.getD t 0 = arr.getD t 0 := by
    intro t ht
    rw [hfst]
    exact getD_writeSeq_outside _ arr l t (by rw [hMLlen]; omega)
  have hlen2 : (merge arr l m r).1.length = arr.length := by
    rw [hfst]; simp
  have hinside : ∀ t, t ≤ r - l → (merge arr l m r).1.getD (l + t) 0 =
      (mergeLists (win arr l m) (win arr (m + 1) r)).getD t 0 := by
    intro t ht
    rw [hfst]
    exact getD_writeSeq_inside _ arr l t (by omega) (by rw [hMLlen]; omega)
  refine ⟨hlen2, hframe, ?_, ?_, ?_⟩
  · -- permutation: the written window is a permutation of the old window
    refine perm_of_win_perm hlen2 (by omega) hframe ?_
    have hwres : win (merge arr l m r).1 l r =
        mergeLists (win arr l m) (win arr (m + 1) r) := by
      refine list_eq_of_getD ?_ ?_
      · rw [length_win (by omega) (by omega), hMLlen]
      · intro t ht
        rw [length_win (by omega) (by omega)] at ht
        rw [getD_win (by omega)]
        exact hinside t (by omega)
    rw [hwres, win_concat hlm hmr]
    exact mergeLists_perm _ _
  · intro p q hp hpq hq
    have hp2 := hinside (p - l) (by omega)
    rw [show l + (p - l) = p by omega] at hp2
    have hq2 := hinside (q - l) (by omega)
    rw [show l + (q - l) = q by omega] at hq2
    rw [hp2, hq2]
    exact sorted_getD_mono hsortedML (by omega) (by rw [hMLlen]; omega)
  · unfold merge
    rw [hLdef, hRdef]
    exact mergeLoop_trail _ _ arr l m l 0 0

end Sorting

namespace Sorting

/-- `mergeSortHelper` sorts the range `[l, r]` in place and leaves the rest
unchanged. -/
theorem mergeSortHelper_spec (d : Nat) :
    ∀ (arr : List Int) (l r : Nat), r - l ≤ d → r < arr.length →
      (mergeSortHelper arr l r).1.length = arr.length ∧
      (∀ t, t < l ∨ r < t →
        (mergeSortHelper arr l r).1.getD t 0 = arr.getD t 0) ∧
      List.Perm (mergeSortHelper arr l r).1 arr ∧
      (∀ p q, l ≤ p → p ≤ q → q ≤ r →
        (mergeSortHelper arr l r).1.getD p 0 ≤ (mergeSortHelper arr l r).1.getD q 0) ∧
      trail (mergeSortHelper arr l r) arr := by
  induction d with
  | zero =>
    intro arr l r hd hr
    rw [mergeSortHelper, dif_neg (by omega : ¬ l < r)]
    refine ⟨rfl, fun t _ => rfl, List.Perm.refl arr, ?_, trail_nil arr⟩
    intro p q hp hpq hq
    have hpe : p = q := by omega
    rw [hpe]
  | succ d ih =>
    intro arr l r hd hr
    by_cases hlr : l < r
    · rw [mergeSortHelper, dif_pos hlr]
      dsimp only
      have hmid1 : l ≤ (l + r) / 2 := Nat.le_div_iff_mul_le (by omega) |>.mpr (by omega)
      have hmid2 : (l + r) / 2 < r := Nat.div_lt_of_lt_mul (by omega)
      set mid := (l + r) / 2 with hmiddef
      obtain ⟨llen, lframe, lperm, lsort, ltrail⟩ := ih arr l mid (by omega) (by omega)
      set a1 := (mergeSortHelper arr l mid).1 with ha1
      obtain ⟨rlen, rframe, rperm, rsort, rtrail⟩ := ih a1 (mid + 1) r (by omega)
        (by omega)
      set a2 := (mergeSortHelper a1 (mid + 1) r).1 with ha2
      have hsl : ∀ p q, l ≤ p → p ≤ q → q ≤ mid → a2.getD p 0 ≤ a2.getD q 0 := by
        intro p q hp hpq hq
        rw [rframe p (Or.inl (by omega)), rframe q (Or.inl (by omega))]
        exact lsort p q hp hpq hq
      have hsr : ∀ p q, mid + 1 ≤ p → p ≤ q → q ≤ r → a2.getD p 0 ≤ a2.getD q 0 :=
        fun p q hp hpq hq => rsort p q hp hpq hq
      obtain ⟨mlen, mframe, mperm, msort, mtrail⟩ :=
        merge_spec a2 l mid r hmid1 hmid2 (by omega) hsl hsr
      refine ⟨?_, ?_, ?_, ?_, ?_⟩
      · rw [mlen, rlen, llen]
      · intro t ht
        have h1 : t < l ∨ mid < t := by
          rcases ht with h | h
          · exact Or.inl h
          · exact Or.inr (by omega)
        have h2 : t < mid + 1 ∨ r < t := by
          rcases ht with h | h
          · exact Or.inl (by omega)
          · exact Or.inr h
        rw [mframe t ht, rframe t h2, lframe t h1]
      · exact (mperm.trans rperm).trans lperm
      · exact msort
      · exact @trail_append3 arr (mergeSortHelper arr l mid)
          (mergeSortHelper a1 (mid + 1) r) (merge a2 l mid r) ltrail rtrail mtrail
    · rw [mergeSortHelper, dif_neg hlr]
      refine ⟨rfl, fun t _ => rfl, List.Perm.refl arr, ?_, trail_nil arr⟩
      intro p q hp hpq hq
      have hpe : p = q := by omega
      rw [hpe]

/-- Merge sort: the final array is a sorted permutation of the input and the
last step holds the final array.  (Intermediate merge-sort steps are in
general not permutations of the input.) -/
theorem mergeSortRun_spec (a : List Int) :
    List.Perm (mergeSortRun a).1 a ∧
    List.Sorted (· ≤ ·) (mergeSortRun a).1 ∧
    trail (mergeSortRun a) a := by
  rcases Nat.eq_zero_or_pos a.length with hz | hpos
  · have ha : a = [] := List.length_eq_zero.mp hz
    subst ha
    unfold mergeSortRun
    rw [mergeSortHelper, dif_neg (by omega : ¬ (0:Nat) < List.length [] - 1)]
    exact ⟨List.Perm.refl _, List.sorted_nil, trail_nil _⟩
  · unfold mergeSortRun
    obtain ⟨hlen, _, hperm, hsort, htrail⟩ :=
      mergeSortHelper_spec (a.length - 1) a 0 (a.length - 1) (by omega) (by omega)
    refine ⟨hperm, ?_, htrail⟩
    refine sorted_of_getD ?_
    intro p q hpq hq
    rw [hlen] at hq
    exact hsort p q (by omega) (by omega) (by omega)

end Sorting

namespace Sorting

/-! ### Heap sort -/

/-- `inSubtree c j`: index `j` lies in the binary-heap subtree rooted at `c`
(parent of `j` is `(j - 1) / 2`). -/
def inSubtree (c j : Nat) : Prop :=
  if j = c then True
  else if j ≤ c then False
  else inSubtree c ((j - 1) / 2)
termination_by j
decreasing_by omega

theorem inSubtree_self (c : Nat) : inSubtree c c := by
  rw [inSubtree]; simp

theorem inSubtree_le {c j : Nat} (h : inSubtree c j) : c ≤ j := by
  by_contra hc
  rw [inSubtree] at h
  simp only [if_neg (by omega : ¬ j = c), if_pos (by omega : j ≤ c)] at h

theorem inSubtree_parent {c j : Nat} (h : inSubtree c j) (hne : j ≠ c) :
    inSubtree c ((j - 1) / 2) ∧ c < j := by
  have hle := inSubtree_le h
  rw [inSubtree] at h
  simp only [if_neg hne, if_neg (by omega : ¬ j ≤ c)] at h
  exact ⟨h, by omega⟩

theorem inSubtree_step {c j : Nat} (h : inSubtree c ((j - 1) / 2)) (hj : c < j) :
    inSubtree c j := by
  rw [inSubtree]
  simp only [if_neg (by omega : ¬ j = c), if_neg (by omega : ¬ j ≤ c)]
  exact h

theorem inSubtree_trans_child {c c2 : Nat}
    (hc : c2 = 2 * c + 1 ∨ c2 = 2 * c + 2) :
    ∀ j, inSubtree c2 j → inSubtree c j := by
  intro j
  induction j using Nat.strong_induction_on with
  | _ j ih =>
    intro h
    rcases eq_or_ne j c2 with rfl | hne
    · refine inSubtree_step ?_ (by omega)
      have hp : (j - 1) / 2 = c := by omega
      rw [hp]
      exact inSubtree_self c
    · obtain ⟨hpar, hlt⟩ := inSubtree_parent h hne
      refine inSubtree_step ?_ (by omega)
      exact ih ((j - 1) / 2) (by omega) hpar

theorem inSubtree_sibling_disjoint {c : Nat} :
    ∀ j, inSubtree (2 * c + 1) j → inSubtree (2 * c + 2) j → False := by
  intro j
  induction j using Nat.strong_induction_on with
  | _ j ih =>
    intro h1 h2
    rcases eq_or_ne j (2 * c + 1) with rfl | hne1
    · exact absurd (inSubtree_le h2) (by omega)
    rcases eq_or_ne j (2 * c + 2) with rfl | hne2
    · obtain ⟨hpar, _⟩ := inSubtree_parent h1 hne1
      have hp : (2 * c + 2 - 1) / 2 = c := by omega
      rw [hp] at hpar
      exact absurd (inSubtree_le hpar) (by omega)
    · obtain ⟨hp1, hl1⟩ := inSubtree_parent h1 hne1
      obtain ⟨hp2, _⟩ := inSubtree_parent h2 hne2
      exact ih ((j - 1) / 2) (by omega) hp1 hp2

theorem inSubtree_zero : ∀ j, inSubtree 0 j := by
  intro j
  induction j using Nat.strong_induction_on with
  | _ j ih =>
    rcases Nat.eq_zero_or_pos j with rfl | hpos
    · exact inSubtree_self 0
    · exact inSubtree_step (ih ((j - 1) / 2) (by omega)) hpos

theorem inSubtree_child_split {c : Nat} :
    ∀ j, inSubtree c j → j = c ∨ inSubtree (2 * c + 1) j ∨ inSubtree (2 * c + 2) j := by
  intro j
  induction j using Nat.strong_induction_on with
  | _ j ih =>
    intro h
    rcases eq_or_ne j c with rfl | hne
    · exact Or.inl rfl
    obtain ⟨hpar, hlt⟩ := inSubtree_parent h hne
    rcases ih ((j - 1) / 2) (by omega) hpar with hp | hp | hp
    · -- parent is the root: `j` is one of the two children
      rcases Nat.lt_or_ge j (2 * c + 2) with hj | hj
      · refine Or.inr (Or.inl ?_)
        have hj2 : j = 2 * c + 1 := by omega
        rw [hj2]; exact inSubtree_self _
      · rcases Nat.eq_or_lt_of_le hj with hj2 | hj2
        · refine Or.inr (Or.inr ?_)
          rw [← hj2]; exact inSubtree_self _
        · omega
    · exact Or.inr (Or.inl (inSubtree_step hp (by
        have := inSubtree_le hp; omega)))
    · exact Or.inr (Or.inr (inSubtree_step hp (by
        have := inSubtree_le hp; omega)))

/-- Chain the heap-edge property down a subtree: if every edge whose parent is
at least `c` holds, values in the subtree of `c` are bounded by the root. -/
theorem subtree_le_root {arr : List Int} {n c : Nat}
    (hedge : ∀ j, 1 ≤ j → j < n → c ≤ (j - 1) / 2 →
      arr.getD j 0 ≤ arr.getD ((j - 1) / 2) 0) :
    ∀ j, inSubtree c j → j < n → arr.getD j 0 ≤ arr.getD c 0 := by
  intro j
  induction j using Nat.strong_induction_on with
  | _ j ih =>
    intro h hj
    rcases eq_or_ne j c with rfl | hne
    · exact le_refl _
    obtain ⟨hpar, hlt⟩ := inSubtree_parent h hne
    have h1 : arr.getD j 0 ≤ arr.getD ((j - 1) / 2) 0 :=
      hedge j (by omega) hj (inSubtree_le hpar)
    exact le_trans h1 (ih ((j - 1) / 2) (by omega) hpar (by omega))

/-- Full characterisation of `heapify`'s `largest` index. -/
theorem largestIdx_max (arr : List Int) (n i : Nat) :
    (largestIdx arr n i = i ∨ largestIdx arr n i = 2 * i + 1 ∨
      largestIdx arr n i = 2 * i + 2) ∧
    arr.getD i 0 ≤ arr.getD (largestIdx arr n i) 0 ∧
    (2 * i + 1 < n → arr.getD (2 * i + 1) 0 ≤ arr.getD (largestIdx arr n i) 0) ∧
    (2 * i + 2 < n → arr.getD (2 * i + 2) 0 ≤ arr.getD (largestIdx arr n i) 0) := by
  unfold largestIdx
  dsimp only
  by_cases h1 : 2 * i + 1 < n ∧ arr.getD i 0 < arr.getD (2 * i + 1) 0
  · rw [if_pos h1]
    by_cases h2 : 2 * i + 2 < n ∧ arr.getD (2 * i + 1) 0 < arr.getD (2 * i + 2) 0
    · rw [if_pos h2]
      refine ⟨Or.inr (Or.inr rfl), ?_, ?_, ?_⟩
      · exact le_of_lt (lt_trans h1.2 h2.2)
      · intro _; exact le_of_lt h2.2
      · intro _; exact le_refl _
    · rw [if_neg h2]
      refine ⟨Or.inr (Or.inl rfl), le_of_lt h1.2, fun _ => le_refl _, ?_⟩
      intro hn
      rcases not_and_or.mp h2 with h3 | h3
      · exact absurd hn h3
      · exact not_lt.mp h3
  · rw [if_neg h1]
    by_cases h2 : 2 * i + 2 < n ∧ arr.getD i 0 < arr.getD (2 * i + 2) 0
    · rw [if_pos h2]
      refine ⟨Or.inr (Or.inr rfl), le_of_lt h2.2, ?_, fun _ => le_refl _⟩
      intro hn
      rcases not_and_or.mp h1 with h3 | h3
      · exact absurd hn h3
      · exact le_trans (not_lt.mp h3) (le_of_lt h2.2)
    · rw [if_neg h2]
      refine ⟨Or.inl rfl, le_refl _, ?_, ?_⟩
      · intro hn
        rcases not_and_or.mp h1 with h3 | h3
        · exact absurd hn h3
        · exact not_lt.mp h3
      · intro hn
        rcases not_and_or.mp h2 with h3 | h3
        · exact absurd hn h3
        · exact not_lt.mp h3

end Sorting

namespace Sorting

/-- `heapify` restores the heap property at `i` when all edges strictly below
`i` already satisfy it; it only touches the subtree of `i` (below `n`),
permutes the array, and never increases the maximum of the subtree. -/
theorem heapify_spec (d : Nat) :
    ∀ (arr : List Int) (n i : Nat), n - i ≤ d → n ≤ arr.length →
      (∀ j, 1 ≤ j → j < n → i < (j - 1) / 2 →
        arr.getD j 0 ≤ arr.getD ((j - 1) / 2) 0) →
      (heapify arr n i).1.length = arr.length ∧
      (∀ t, ¬ inSubtree i t ∨ n ≤ t →
        (heapify arr n i).1.getD t 0 = arr.getD t 0) ∧
      List.Perm (heapify arr n i).1 arr ∧
      (∀ j, 1 ≤ j → j < n → i ≤ (j - 1) / 2 →
        (heapify arr n i).1.getD j 0 ≤ (heapify arr n i).1.getD ((j - 1) / 2) 0) ∧
      (∀ B, (∀ t, inSubtree i t → t < n → arr.getD t 0 ≤ B) →
        ∀ t, inSubtree i t → t < n → (heapify arr n i).1.getD t 0 ≤ B) ∧
      (∀ s ∈ (heapify arr n i).2, List.Perm s.array arr) ∧
      trail (heapify arr n i) arr := by
  induction d with
  | zero =>
    intro arr n i hd hn hpre
    have hL : largestIdx arr n i = i := by
      by_contra hc
      have := largestIdx_bounds arr n i hc
      omega
    rw [heapify]
    dsimp only
    rw [dif_neg (not_not_intro hL)]
    refine ⟨rfl, fun t _ => rfl, List.Perm.refl arr, ?_, fun B hB => hB, ?_, ?_⟩
    · intro j h1 h2 h3
      omega
    · intro s hs
      rcases List.mem_cons.mp hs with rfl | hs
      · exact List.Perm.refl arr
      · exact absurd hs (List.not_mem_nil s)
    · exact trail_cons rfl (trail_nil arr)
  | succ d ih =>
    intro arr n i hd hn hpre
    obtain ⟨hcases, hmaxi, hmaxl, hmaxr⟩ := largestIdx_max arr n i
    by_cases hL : largestIdx arr n i = i
    · rw [heapify]
      dsimp only
      rw [dif_neg (not_not_intro hL)]
      dsimp only
      refine ⟨rfl, fun t _ => rfl, List.Perm.refl arr, ?_, fun B hB => hB, ?_, ?_⟩
      · intro j h1 h2 h3
        rcases Nat.eq_or_lt_of_le h3 with hp | hp
        · -- `j` is a child of `i`, and `largest = i` means `arr[i]` dominates
          have hj : j = 2 * i + 1 ∨ j = 2 * i + 2 := by omega
          rw [← hp]
          rcases hj with rfl | rfl
          · have h4 := hmaxl h2
            rwa [hL] at h4
          · have h4 := hmaxr h2
            rwa [hL] at h4
        · exact hpre j h1 h2 hp
      · intro s hs
        rcases List.mem_cons.mp hs with rfl | hs
        · exact List.Perm.refl arr
        · exact absurd hs (List.not_mem_nil s)
      · exact trail_cons rfl (trail_nil arr)
    · obtain ⟨hgt, hltn⟩ := largestIdx_bounds arr n i hL
      set l2 := largestIdx arr n i with hl2def
      have hchild : l2 = 2 * i + 1 ∨ l2 = 2 * i + 2 := by
        rcases hcases with h | h | h
        · exact absurd h hL
        · exact Or.inl h
        · exact Or.inr h
      have hil : i < arr.length := by omega
      have hll : l2 < arr.length := by omega
      have hi_nsub : ¬ inSubtree l2 i := fun hc => absurd (inSubtree_le hc) (by omega)
      have hsub_il2 : inSubtree i l2 :=
        inSubtree_trans_child hchild l2 (inSubtree_self l2)
      -- the swapped array still has all edges strictly below `l2`
      have hpre2 : ∀ j, 1 ≤ j → j < n → l2 < (j - 1) / 2 →
          (swap arr i l2).getD j 0 ≤ (swap arr i l2).getD ((j - 1) / 2) 0 := by
        intro j h1 h2 h3
        rw [getD_swap_other (by omega) (by omega),
          getD_swap_other (by omega) (by omega)]
        exact hpre j h1 h2 (by omega)
      have hrec := ih (swap arr i l2) n l2 (by omega) (by simpa using hn) hpre2
      obtain ⟨rlen, rframe, rperm, rpost, rbound, rsteps, rtrail⟩ := hrec
      have hswp : List.Perm (swap arr i l2) arr := swap_perm hil hll
      -- the root of the subtree now holds the maximal value
      have hfri : (heapify (swap arr i l2) n l2).1.getD i 0 = arr.getD l2 0 := by
        rw [rframe i (Or.inl hi_nsub), getD_swap_left hil]
      -- all values of the subtree of `i` are at most `arr[l2]`
      have hMbound : ∀ t, inSubtree i t → t < n → arr.getD t 0 ≤ arr.getD l2 0 := by
        intro t ht htn
        rcases inSubtree_child_split t ht with rfl | hsp | hsp
        · exact hmaxi
        · have h1 : arr.getD t 0 ≤ arr.getD (2 * i + 1) 0 := by
            refine subtree_le_root ?_ t hsp htn
            intro j hj1 hj2 hj3
            exact hpre j hj1 hj2 (by omega)
          exact le_trans h1 (hmaxl (by have := inSubtree_le hsp; omega))
        · have h1 : arr.getD t 0 ≤ arr.getD (2 * i + 2) 0 := by
            refine subtree_le_root ?_ t hsp htn
            intro j hj1 hj2 hj3
            exact hpre j hj1 hj2 (by omega)
          exact le_trans h1 (hmaxr (by have := inSubtree_le hsp; omega))
      have hM2 : ∀ t, inSubtree l2 t → t < n →
          (swap arr i l2).getD t 0 ≤ arr.getD l2 0 := by
        intro t ht htn
        rcases eq_or_ne t l2 with rfl | hne
        · rw [getD_swap_right hll]
          exact hmaxi
        · have hti : t ≠ i := by have := inSubtree_le ht; omega
          rw [getD_swap_other hti hne]
          exact hMbound t (inSubtree_trans_child hchild t ht) htn
      have hresM : ∀ t, inSubtree l2 t → t < n →
          (heapify (swap arr i l2) n l2).1.getD t 0 ≤ arr.getD l2 0 :=
        rbound (arr.getD l2 0) hM2
      rw [heapify]
      dsimp only
      rw [dif_pos hL]
      rw [← hl2def]
      dsimp only
      refine ⟨?_, ?_, ?_, ?_, ?_, ?_, ?_⟩
      · rw [rlen]; simp
      · intro t ht
        have htl2 : ¬ inSubtree l2 t ∨ n ≤ t := by
          rcases ht with h | h
          · exact Or.inl (fun hc => h (inSubtree_trans_child hchild t hc))
          · exact Or.inr h
        rw [rframe t htl2]
        have hti : t ≠ i := by
          rcases ht with h | h
          · exact fun hc => h (hc ▸ inSubtree_self i)
          · omega
        have htl : t ≠ l2 := by
          rcases ht with h | h
          · exact fun hc => h (hc ▸ hsub_il2)
          · omega
        exact getD_swap_other hti htl
      · exact rperm.trans hswp
      · intro j h1 h2 h3
        rcases Nat.eq_or_lt_of_le h3 with hp | hp
        · -- parent is `i` itself
          rw [← hp, hfri]
          by_cases hjl : inSubtree l2 j
          · exact hresM j hjl h2
          · have hji : j ≠ i := by omega
            have hjl2 : j ≠ l2 := fun hc => hjl (hc ▸ inSubtree_self l2)
            rw [rframe j (Or.inl hjl), getD_swap_other hji hjl2]
            refine hMbound j ?_ h2
            refine inSubtree_step ?_ (by omega)
            rw [← hp]
            exact inSubtree_self i
        · -- parent is strictly below `i`
          by_cases hjl : inSubtree l2 j
          · by_cases hjeq : j = l2
            · exfalso
              have hpar2 : (l2 - 1) / 2 = i := by
                rcases hchild with h | h <;> omega
              omega
            · obtain ⟨hpar, _⟩ := inSubtree_parent hjl hjeq
              exact rpost j h1 h2 (inSubtree_le hpar)
          · have hpnl : ¬ inSubtree l2 ((j - 1) / 2) := by
              intro hc
              exact hjl (inSubtree_step hc (by have := inSubtree_le hc; omega))
            have hji : j ≠ i := by omega
            have hjl2 : j ≠ l2 := fun hc => hjl (hc ▸ inSubtree_self l2)
            have hpi : (j - 1) / 2 ≠ i := by omega
            have hpl2 : (j - 1) / 2 ≠ l2 :=
              fun hc => hpnl (hc ▸ inSubtree_self l2)
            rw [rframe j (Or.inl hjl), rframe ((j - 1) / 2) (Or.inl hpnl),
              getD_swap_other hji hjl2, getD_swap_other hpi hpl2]
            exact hpre j h1 h2 hp
      · intro B hB t ht htn
        have hB2 : ∀ t2, inSubtree l2 t2 → t2 < n →
            (swap arr i l2).getD t2 0 ≤ B := by
          intro t2 ht2 htn2
          rcases eq_or_ne t2 l2 with rfl | hne
          · rw [getD_swap_right hll]
            exact hB i (inSubtree_self i) (by omega)
          · have hti : t2 ≠ i := by have := inSubtree_le ht2; omega
            rw [getD_swap_other hti hne]
            exact hB t2 (inSubtree_trans_child hchild t2 ht2) htn2
        by_cases htl : inSubtree l2 t
        · exact rbound B hB2 t htl htn
        · have hti2 : t ≠ l2 := fun hc => htl (hc ▸ inSubtree_self l2)
          rw [rframe t (Or.inl htl)]
          rcases eq_or_ne t i with rfl | hne
          · rw [getD_swap_left hil]
            exact hB l2 hsub_il2 (by omega)
          · rw [getD_swap_other hne hti2]
            exact hB t ht htn
      · intro s hs
        rcases List.mem_cons.mp hs with rfl | hs
        · exact List.Perm.refl arr
        rcases List.mem_cons.mp hs with rfl | hs
        · exact hswp
        · exact (rsteps s hs).trans hswp
      · exact trail_cons2 rfl rtrail

end Sorting

namespace Sorting

/-- The heap-build loop: processing `m-1, …, 0` turns the array into a heap. -/
theorem heapifyFold_spec (m : Nat) :
    ∀ (arr : List Int) (n : Nat), n ≤ arr.length →
      (∀ j, 1 ≤ j → j < n → m ≤ (j - 1) / 2 →
        arr.getD j 0 ≤ arr.getD ((j - 1) / 2) 0) →
      (heapifyFold arr n ((List.range m).reverse)).1.length = arr.length ∧
      List.Perm (heapifyFold arr n ((List.range m).reverse)).1 arr ∧
      (∀ j, 1 ≤ j → j < n →
        (heapifyFold arr n ((List.range m).reverse)).1.getD j 0 ≤
          (heapifyFold arr n ((List.range m).reverse)).1.getD ((j - 1) / 2) 0) ∧
      (∀ s ∈ (heapifyFold arr n ((List.range m).reverse)).2, List.Perm s.array arr) ∧
      trail (heapifyFold arr n ((List.range m).reverse)) arr := by
  induction m with
  | zero =>
    intro arr n hn hpre
    refine ⟨rfl, List.Perm.refl arr, ?_, ?_, trail_nil arr⟩
    · intro j h1 h2
      exact hpre j h1 h2 (by omega)
    · intro s hs
      exact absurd hs (List.not_mem_nil s)
  | succ m ih =>
    intro arr n hn hpre
    have hrw : (List.range (m + 1)).reverse = m :: (List.range m).reverse := by
      rw [List.range_succ, List.reverse_append]
      rfl
    rw [hrw]
    simp only [heapifyFold]
    obtain ⟨hlen, hframe, hperm, hpost, _, hsteps, htrail⟩ :=
      heapify_spec n arr n m (by omega) hn (fun j h1 h2 h3 => hpre j h1 h2 (by omega))
    obtain ⟨ilen, iperm, ipost, isteps, itrail⟩ :=
      ih (heapify arr n m).1 n (by omega) (fun j h1 h2 h3 => hpost j h1 h2 h3)
    refine ⟨by rw [ilen, hlen], iperm.trans hperm, ipost, ?_, ?_⟩
    · intro s hs
      rcases List.mem_append.mp hs with hs | hs
      · exact hsteps s hs
      · exact (isteps s hs).trans hperm
    · exact @trail_append arr (heapify arr n m)
        (heapifyFold (heapify arr n m).1 n ((List.range m).reverse)) htrail itrail

/-- The extraction loop of heap sort: repeatedly swap the root with the last
unsorted element and restore the heap. -/
theorem extractLoop_spec (k : Nat) :
    ∀ (arr : List Int), k < arr.length →
      (∀ j, 1 ≤ j → j < k + 1 → arr.getD j 0 ≤ arr.getD ((j - 1) / 2) 0) →
      (∀ p q, k < p → p ≤ q → q < arr.length → arr.getD p 0 ≤ arr.getD q 0) →
      (∀ p q, p ≤ k → k < q → q < arr.length → arr.getD p 0 ≤ arr.getD q 0) →
      (extractLoop arr ((List.range' 1 k).reverse)).1.length = arr.length ∧
      List.Perm (extractLoop arr ((List.range' 1 k).reverse)).1 arr ∧
      (∀ p q, p ≤ q → q < arr.length →
        (extractLoop arr ((List.range' 1 k).reverse)).1.getD p 0 ≤
          (extractLoop arr ((List.range' 1 k).reverse)).1.getD q 0) ∧
      (∀ s ∈ (extractLoop arr ((List.range' 1 k).reverse)).2, List.Perm s.array arr) ∧
      trail (extractLoop arr ((List.range' 1 k).reverse)) arr := by
  induction k with
  | zero =>
    intro arr hk hheap hsuf hdom
    refine ⟨rfl, List.Perm.refl arr, ?_, ?_, trail_nil arr⟩
    · intro p q hpq hq
      rcases Nat.eq_or_lt_of_le hpq with rfl | hlt
      · exact le_refl _
      · rcases Nat.eq_zero_or_pos p with rfl | hp
        · exact hdom 0 q (le_refl _) (by omega) hq
        · exact hsuf p q (by omega) hpq hq
    · intro s hs
      exact absurd hs (List.not_mem_nil s)
  | succ k ih =>
    intro arr hk hheap hsuf hdom
    have hrw : (List.range' 1 (k + 1)).reverse = (k + 1) :: (List.range' 1 k).reverse := by
      rw [List.range'_1_concat, List.reverse_append, Nat.add_comm 1 k]
      rfl
    rw [hrw]
    simp only [extractLoop]
    have h0len : 0 < arr.length := by omega
    have hklen : k + 1 < arr.length := by omega
    -- the heap root holds the maximum of the heap range
    have hroot : ∀ t, t < k + 2 → arr.getD t 0 ≤ arr.getD 0 0 := by
      intro t ht
      refine subtree_le_root ?_ t (inSubtree_zero t) ht
      intro j h1 h2 _
      exact hheap j h1 (by omega)
    set a1 := swap arr 0 (k + 1) with ha1
    have ha1len : a1.length = arr.length := length_swap arr 0 (k + 1)
    have ha1top : a1.getD (k + 1) 0 = arr.getD 0 0 := getD_swap_right hklen
    have ha1zero : a1.getD 0 0 = arr.getD (k + 1) 0 := getD_swap_left h0len
    have ha1other : ∀ t, t ≠ 0 → t ≠ k + 1 → a1.getD t 0 = arr.getD t 0 :=
      fun t h1 h2 => getD_swap_other h1 h2
    have ha1perm : List.Perm a1 arr := swap_perm h0len hklen
    -- heapify the shrunken heap
    have hpre1 : ∀ j, 1 ≤ j → j < k + 1 → 0 < (j - 1) / 2 →
        a1.getD j 0 ≤ a1.getD ((j - 1) / 2) 0 := by
      intro j h1 h2 h3
      rw [ha1other j (by omega) (by omega), ha1other ((j - 1) / 2) (by omega) (by omega)]
      exact hheap j h1 (by omega)
    obtain ⟨hflen, hframe, hfperm, hfpost, _, hfsteps, hftrail⟩ :=
      heapify_spec (k + 1) a1 (k + 1) 0 (by omega) (by omega) hpre1
    set a2 := (heapify a1 (k + 1) 0).1 with ha2
    have ha2len : a2.length = arr.length := by rw [hflen, ha1len]
    have ha2high : ∀ t, k + 1 ≤ t → a2.getD t 0 = a1.getD t 0 :=
      fun t ht => hframe t (Or.inr ht)
    -- values in the shrunken heap come from the shrunken heap of `a1`
    have hval : ∀ t, t ≤ k → ∃ t2, t2 ≤ k ∧ a2.getD t 0 = a1.getD t2 0 := by
      intro t ht
      have hmem : a2.getD t 0 ∈ win a2 0 k :=
        getD_mem_win (by omega) ht (by omega)
      have hwp : List.Perm (win a2 0 k) (win a1 0 k) := by
        refine win_perm_of_perm (by rw [hflen]) hfperm (by omega) ?_
        intro t2 ht2
        rcases ht2 with h2 | h2
        · omega
        · exact ha2high t2 (by omega)
      obtain ⟨t2, h5, h6, h7⟩ := mem_win (hwp.mem_iff.1 hmem) (by omega) (by omega)
      exact ⟨t2, h6, h7⟩
    have hheap2 : ∀ j, 1 ≤ j → j < k + 1 →
        a2.getD j 0 ≤ a2.getD ((j - 1) / 2) 0 := by
      intro j h1 h2
      exact hfpost j h1 h2 (by omega)
    have hsuf2 : ∀ p q, k < p → p ≤ q → q < a2.length →
        a2.getD p 0 ≤ a2.getD q 0 := by
      intro p q hp hpq hq
      have hq3 : q < arr.length := by omega
      rcases Nat.eq_or_lt_of_le hpq with rfl | hlt
      · exact le_refl _
      rcases Nat.eq_or_lt_of_le hp with hp2 | hp2
      · rw [ha2high p (by omega), ← hp2, ha1top]
        have hq4 : a2.getD q 0 = arr.getD q 0 := by
          rw [ha2high q (by omega), ha1other q (by omega) (by omega)]
        rw [hq4]
        exact hdom 0 q (by omega) (by omega) hq3
      · have hp3 : a2.getD p 0 = arr.getD p 0 := by
          rw [ha2high p (by omega), ha1other p (by omega) (by omega)]
        have hq4 : a2.getD q 0 = arr.getD q 0 := by
          rw [ha2high q (by omega), ha1other q (by omega) (by omega)]
        rw [hp3, hq4]
        exact hsuf p q (by omega) hpq hq3
    have hdom2 : ∀ p q, p ≤ k → k < q → q < a2.length →
        a2.getD p 0 ≤ a2.getD q 0 := by
      intro p q hp hq hqlen
      have hq3 : q < arr.length := by omega
      obtain ⟨t2, ht2, hv⟩ := hval p hp
      rcases Nat.eq_or_lt_of_le (show k + 1 ≤ q by omega) with hq4 | hq4
      · -- `q` is the freshly placed maximum
        rw [hv, ha2high q (by omega), ← hq4, ha1top]
        rcases Nat.eq_zero_or_pos t2 with rfl | ht3
        · rw [ha1zero]
          exact hroot (k + 1) (by omega)
        · rw [ha1other t2 (by omega) (by omega)]
          exact hroot t2 (by omega)
      · have hqv : a2.getD q 0 = arr.getD q 0 := by
          rw [ha2high q (by omega), ha1other q (by omega) (by omega)]
        rw [hv, hqv]
        rcases Nat.eq_zero_or_pos t2 with rfl | ht3
        · rw [ha1zero]
          exact hdom (k + 1) q (by omega) (by omega) hq3
        · rw [ha1other t2 (by omega) (by omega)]
          exact hdom t2 q (by omega) (by omega) hq3
    obtain ⟨rlen, rperm, rsort, rsteps, rtrail⟩ := ih a2 (by omega) hheap2 hsuf2 hdom2
    refine ⟨?_, ?_, ?_, ?_, ?_⟩
    · rw [rlen, ha2len]
    · exact (rperm.trans hfperm).trans ha1perm
    · intro p q hpq hq
      exact rsort p q hpq (by omega)
    · intro s hs
      rcases List.mem_cons.mp hs with rfl | hs
      · exact ha1perm
      rcases List.mem_append.mp hs with hs | hs
      · exact (hfsteps s hs).trans ha1perm
      · exact ((rsteps s hs).trans hfperm).trans ha1perm
    · exact trail_cons rfl (@trail_append a1 (heapify a1 (k + 1) 0)
        (extractLoop a2 ((List.range' 1 k).reverse)) hftrail rtrail)

end Sorting

namespace Sorting

/-- Heap sort: the final array is a sorted permutation of the input, every
step snapshot is a permutation of the input, and the last step holds the
final array. -/
theorem heapSortRun_spec (a : List Int) :
    List.Perm (heapSortRun a).1 a ∧
    List.Sorted (· ≤ ·) (heapSortRun a).1 ∧
    (∀ s ∈ heapSort a, List.Perm s.array a) ∧
    trail (heapSortRun a) a := by
  rcases Nat.eq_zero_or_pos a.length with hz | hpos
  · have ha : a = [] := List.length_eq_zero.mp hz
    subst ha
    exact ⟨List.Perm.refl _, List.sorted_nil,
      fun s hs => absurd hs (List.not_mem_nil s), trail_nil _⟩
  · unfold heapSort heapSortRun
    dsimp only
    have hpre0 : ∀ j, 1 ≤ j → j < a.length → a.length / 2 ≤ (j - 1) / 2 →
        a.getD j 0 ≤ a.getD ((j - 1) / 2) 0 := by
      intro j h1 h2 h3
      omega
    obtain ⟨blen, bperm, bpost, bsteps, btrail⟩ :=
      heapifyFold_spec (a.length / 2) a a.length (le_refl _) hpre0
    set a1 := (heapifyFold a a.length ((List.range (a.length / 2)).reverse)).1 with ha1
    have hheap1 : ∀ j, 1 ≤ j → j < a.length - 1 + 1 →
        a1.getD j 0 ≤ a1.getD ((j - 1) / 2) 0 := by
      intro j h1 h2
      exact bpost j h1 (by omega)
    have hsuf1 : ∀ p q, a.length - 1 < p → p ≤ q → q < a1.length →
        a1.getD p 0 ≤ a1.getD q 0 := by
      intro p q hp hpq hq
      rw [blen] at hq
      omega
    have hdom1 : ∀ p q, p ≤ a.length - 1 → a.length - 1 < q → q < a1.length →
        a1.getD p 0 ≤ a1.getD q 0 := by
      intro p q hp hq hqlen
      rw [blen] at hqlen
      omega
    obtain ⟨elen, eperm, esort, esteps, etrail⟩ :=
      extractLoop_spec (a.length - 1) a1 (by rw [blen]; omega) hheap1 hsuf1 hdom1
    refine ⟨?_, ?_, ?_, ?_⟩
    · exact eperm.trans bperm
    · refine sorted_of_getD ?_
      intro p q hpq hq
      rw [elen, blen] at hq
      exact esort p q (le_of_lt hpq) (by rw [blen]; omega)
    · intro s hs
      rcases List.mem_append.mp hs with hs | hs
      · exact bsteps s hs
      · exact (esteps s hs).trans bperm
    · exact @trail_append a
        (heapifyFold a a.length ((List.range (a.length / 2)).reverse))
        (extractLoop a1 ((List.range' 1 (a.length - 1)).reverse)) btrail etrail

end Sorting

namespace Sorting

/-- When the trace is nonempty, `trail` says its last step's array is the
final array. -/
theorem last_step_array {res : List Int × List Step} {arr0 : List Int}
    (ht : trail res arr0) (h : res.2 ≠ []) :
    (res.2.getLast h).array = res.1 := by
  unfold trail at ht
  rwa [List.getLast?_eq_getLast res.2 h] at ht

/-- The full merge-sort trace on `[2, 1]`, computed from the model. -/
theorem mergeSort_eval_two_one :
    mergeSort [2, 1] =
      [⟨[2, 1], [0, 1], []⟩, ⟨[1, 1], [], [0]⟩, ⟨[1, 2], [], [1]⟩] := by
  simp [mergeSort, mergeSortRun, mergeSortHelper, merge, mergeLoop]

/-- The full heap-sort trace on `[3, 1, 2]`, computed from the model. -/
theorem heapSort_eval_312 :
    heapSort [3, 1, 2] =
      [⟨[3, 1, 2], [0, 1, 2], []⟩, ⟨[2, 1, 3], [], [0, 2]⟩,
       ⟨[2, 1, 3], [0, 1], []⟩, ⟨[1, 2, 3], [], [0, 1]⟩,
       ⟨[1, 2, 3], [0], []⟩] := by
  simp [heapSort, heapSortRun, heapifyFold, extractLoop, heapify, largestIdx,
    swap, List.range', List.range, List.range.loop]

theorem bubbleSort_312_ne : bubbleSort [3, 1, 2] ≠ [] := by decide

theorem quickSort_312_ne : quickSort [3, 1, 2] ≠ [] := by decide

theorem mergeSort_312_ne : mergeSort [3, 1, 2] ≠ [] := by
  simp [mergeSort, mergeSortRun, mergeSortHelper, merge, mergeLoop]

theorem heapSort_312_ne : heapSort [3, 1, 2] ≠ [] := by
  rw [heapSort_eval_312]; exact List.cons_ne_nil _ _

end Sorting

/-- **C1**: For every input array and each of the four sorting algorithms
(bubbleSort, quickSort, mergeSort, heapSort), whenever the returned trace is
nonempty its last Step's array field is the input array sorted in ascending
order: a permutation of the input that is sorted by `≤`. (For inputs of
length at most one the trace is empty and there is no last Step.) -/
theorem C1_last_step_is_sorted_input (a : List Int) :
    (∀ h : Sorting.bubbleSort a ≠ [],
      List.Perm ((Sorting.bubbleSort a).getLast h).array a ∧
      List.Sorted (· ≤ ·) ((Sorting.bubbleSort a).getLast h).array) ∧
    (∀ h : Sorting.quickSort a ≠ [],
      List.Perm ((Sorting.quickSort a).getLast h).array a ∧
      List.Sorted (· ≤ ·) ((Sorting.quickSort a).getLast h).array) ∧
    (∀ h : Sorting.mergeSort a ≠ [],
      List.Perm ((Sorting.mergeSort a).getLast h).array a ∧
      List.Sorted (· ≤ ·) ((Sorting.mergeSort a).getLast h).array) ∧
    (∀ h : Sorting.heapSort a ≠ [],
      List.Perm ((Sorting.heapSort a).getLast h).array a ∧
      List.Sorted (· ≤ ·) ((Sorting.heapSort a).getLast h).array) := by
  refine ⟨?_, ?_, ?_, ?_⟩
  · intro hb
    obtain ⟨hp, hs, -, ht⟩ := Sorting.bubbleSortRun_spec a
    have he : ((Sorting.bubbleSort a).getLast hb).array =
        (Sorting.bubbleSortRun a).1 := Sorting.last_step_array ht hb
    rw [he]
    exact ⟨hp, hs⟩
  · intro hb
    obtain ⟨hp, hs, -, ht⟩ := Sorting.quickSortRun_spec a
    have he : ((Sorting.quickSort a).getLast hb).array =
        (Sorting.quickSortRun a).1 := Sorting.last_step_array ht hb
    rw [he]
    exact ⟨hp, hs⟩
  · intro hb
    obtain ⟨hp, hs, ht⟩ := Sorting.mergeSortRun_spec a
    have he : ((Sorting.mergeSort a).getLast hb).array =
        (Sorting.mergeSortRun a).1 := Sorting.last_step_array ht hb
    rw [he]
    exact ⟨hp, hs⟩
  · intro hb
    obtain ⟨hp, hs, -, ht⟩ := Sorting.heapSortRun_spec a
    have he : ((Sorting.heapSort a).getLast hb).array =
        (Sorting.heapSortRun a).1 := Sorting.last_step_array ht hb
    rw [he]
    exact ⟨hp, hs⟩

/-- Witness for C1 at the concrete input `[3, 1, 2]`: all four traces are
nonempty and their last steps hold a sorted permutation of the input. -/
theorem C1_last_step_is_sorted_input_witness :
    (List.Perm ((Sorting.bubbleSort [3, 1, 2]).getLast
        Sorting.bubbleSort_312_ne).array [3, 1, 2] ∧
      List.Sorted (· ≤ ·) ((Sorting.bubbleSort [3, 1, 2]).getLast
        Sorting.bubbleSort_312_ne).array) ∧
    (List.Perm ((Sorting.quickSort [3, 1, 2]).getLast
        Sorting.quickSort_312_ne).array [3, 1, 2] ∧
      List.Sorted (· ≤ ·) ((Sorting.quickSort [3, 1, 2]).getLast
        Sorting.quickSort_312_ne).array) ∧
    (List.Perm ((Sorting.mergeSort [3, 1, 2]).getLast
        Sorting.mergeSort_312_ne).array [3, 1, 2] ∧
      List.Sorted (· ≤ ·) ((Sorting.mergeSort [3, 1, 2]).getLast
        Sorting.mergeSort_312_ne).array) ∧
    (List.Perm ((Sorting.heapSort [3, 1, 2]).getLast
        Sorting.heapSort_312_ne).array [3, 1, 2] ∧
      List.Sorted (· ≤ ·) ((Sorting.heapSort [3, 1, 2]).getLast
        Sorting.heapSort_312_ne).array) :=
  ⟨(C1_last_step_is_sorted_input [3, 1, 2]).1 Sorting.bubbleSort_312_ne,
   (C1_last_step_is_sorted_input [3, 1, 2]).2.1 Sorting.quickSort_312_ne,
   (C1_last_step_is_sorted_input [3, 1, 2]).2.2.1 Sorting.mergeSort_312_ne,
   (C1_last_step_is_sorted_input [3, 1, 2]).2.2.2 Sorting.heapSort_312_ne⟩

/-- **C2** counterexample: in `mergeSort [2, 1]` the in-place merge first
overwrites position 0, emitting an intermediate step whose array is
`[1, 1]` — not a permutation of the input `[2, 1]`. -/
theorem C2_mergeSort_intermediate_not_perm :
    ¬ (∀ s ∈ Sorting.mergeSort [2, 1], List.Perm s.array [2, 1]) := by
  intro h
  have h2 := h ⟨[1, 1], [], [0]⟩ (by rw [Sorting.mergeSort_eval_two_one]; decide)
  exact absurd h2 (by decide)

/-- **C2** (amended): every Step emitted by bubbleSort, quickSort and
heapSort holds a permutation of the input; for mergeSort only the last Step
is guaranteed to (its in-place merge emits snapshots with duplicated
values). -/
theorem C2_step_arrays_perm_amended (a : List Int) :
    (∀ s ∈ Sorting.bubbleSort a, List.Perm s.array a) ∧
    (∀ s ∈ Sorting.quickSort a, List.Perm s.array a) ∧
    (∀ s ∈ Sorting.heapSort a, List.Perm s.array a) ∧
    (∀ h : Sorting.mergeSort a ≠ [],
      List.Perm ((Sorting.mergeSort a).getLast h).array a) := by
  refine ⟨(Sorting.bubbleSortRun_spec a).2.2.1,
    (Sorting.quickSortRun_spec a).2.2.1,
    (Sorting.heapSortRun_spec a).2.2.1, ?_⟩
  intro hb
  obtain ⟨hp, -, ht⟩ := Sorting.mergeSortRun_spec a
  have he : ((Sorting.mergeSort a).getLast hb).array =
      (Sorting.mergeSortRun a).1 := Sorting.last_step_array ht hb
  rw [he]
  exact hp

/-- Witness for the amended C2 at `[3, 1, 2]`: a concrete intermediate step
of each of bubbleSort, quickSort and heapSort is a permutation of the input,
and mergeSort's last step is. -/
theorem C2_step_arrays_perm_amended_witness :
    List.Perm (Sorting.Step.mk [1, 3, 2] [] [0, 1]).array [3, 1, 2] ∧
    List.Perm (Sorting.Step.mk [3, 1, 2] [1, 2] []).array [3, 1, 2] ∧
    List.Perm (Sorting.Step.mk [2, 1, 3] [] [0, 2]).array [3, 1, 2] ∧
    List.Perm ((Sorting.mergeSort [3, 1, 2]).getLast
      Sorting.mergeSort_312_ne).array [3, 1, 2] :=
  ⟨(C2_step_arrays_perm_amended [3, 1, 2]).1 _ (by decide),
   (C2_step_arrays_perm_amended [3, 1, 2]).2.1 _ (by decide),
   (C2_step_arrays_perm_amended [3, 1, 2]).2.2.1 _
     (by rw [Sorting.heapSort_eval_312]; decide),
   (C2_step_arrays_perm_amended [3, 1, 2]).2.2.2 Sorting.mergeSort_312_ne⟩

/-- **C10**: for every input array of length 0 or 1, each of the four sorting
algorithms returns an empty Step trace — in particular a singleton array
yields no final Step at all. -/
theorem C10_short_input_empty_trace (a : List Int) (h : a.length ≤ 1) :
    Sorting.bubbleSort a = [] ∧ Sorting.quickSort a = [] ∧
    Sorting.mergeSort a = [] ∧ Sorting.heapSort a = [] := by
  match a, h with
  | [], _ =>
    refine ⟨rfl, rfl, ?_, ?_⟩
    · simp [Sorting.mergeSort, Sorting.mergeSortRun, Sorting.mergeSortHelper]
    · simp [Sorting.heapSort, Sorting.heapSortRun, Sorting.heapifyFold,
        Sorting.extractLoop, List.range, List.range.loop, List.range']
  | [x], _ =>
    refine ⟨rfl, rfl, ?_, ?_⟩
    · simp [Sorting.mergeSort, Sorting.mergeSortRun, Sorting.mergeSortHelper]
    · simp [Sorting.heapSort, Sorting.heapSortRun, Sorting.heapifyFold,
        Sorting.extractLoop, List.range, List.range.loop, List.range']

/-- Witness for C10 at the singleton array `[5]`. -/
theorem C10_short_input_empty_trace_witness :
    ([5] : List Int).length ≤ 1 ∧
    (Sorting.bubbleSort [5] = [] ∧ Sorting.quickSort [5] = [] ∧
     Sorting.mergeSort [5] = [] ∧ Sorting.heapSort [5] = []) :=
  ⟨by decide, C10_short_input_empty_trace [5] (by decide)⟩

namespace Pathfinding

/-- A grid position `(row, col)`. JS `Node` references are identified with
their positions: the app constructs grids whose cell at index `(r, c)` has
`row = r`, `col = c`, so reference equality coincides with position
equality. -/
abbrev Pos := Nat × Nat

/-- The fields of `Node` of types.ts that pathfinding.ts reads or writes.
`row`/`col` are the position; `isVisited`/`isPath` are never accessed by the
algorithms and are omitted. `distance`/`previousNode` are the mutable fields
with the values currently held by the caller's grid. -/
structure Cell where
  isWall : Bool
  isStart : Bool
  isEnd : Bool
  distance : WithTop Nat
  previousNode : Option Pos
deriving DecidableEq

/-- `Node[][]` of the source, row-major. -/
abbrev Grid := List (List Cell)

/-- A cell for out-of-bounds reads (JS would crash on them; the grids the
claims quantify over never produce such reads). -/
def defaultCell : Cell := ⟨false, false, false, ⊤, none⟩

instance : Inhabited Cell := ⟨defaultCell⟩

/-- `grid[r][c]`. -/
def cellAt (g : Grid) (p : Pos) : Cell := (g.getD p.1 []).getD p.2 defaultCell

/-- `grid.length`. -/
def rows (g : Grid) : Nat := g.length

/-- `grid[0].length`, the column count the source uses in its bound checks. -/
def cols (g : Grid) : Nat := (g.headD []).length

/-- The positions of `grid.flat()` in row-major order. -/
def allPositions (g : Grid) : List Pos :=
  ((List.range g.length).map
    (fun r => (List.range (g.getD r []).length).map (fun c => (r, c)))).flatten

/-- `grid.flat().find(node => node.isStart)`, as a position. -/
def findStart (g : Grid) : Option Pos :=
  (allPositions g).find? (fun p => (cellAt g p).isStart)

/-- `grid.flat().find(node => node.isEnd)`, as a position. -/
def findEnd (g : Grid) : Option Pos :=
  (allPositions g).find? (fun p => (cellAt g p).isEnd)

/-- `getNeighbors` of pathfinding.ts: up, down, left, right (in this order),
bounds-checked, keeping non-wall targets. -/
def getNeighbors (g : Grid) (p : Pos) : List Pos :=
  ((if 0 < p.1 then [(p.1 - 1, p.2)] else []) ++
   (if p.1 < rows g - 1 then [(p.1 + 1, p.2)] else []) ++
   (if 0 < p.2 then [(p.1, p.2 - 1)] else []) ++
   (if p.2 < cols g - 1 then [(p.1, p.2 + 1)] else [])).filter
     (fun q => !(cellAt g q).isWall)

/-- `getDistance` of pathfinding.ts: Manhattan distance. -/
def getDistance (a b : Pos) : Nat :=
  ((a.1 : Int) - b.1).natAbs + ((a.2 : Int) - b.2).natAbs

/-- The mutable per-node state: the `distance` and `previousNode` fields of
the grid's nodes, which the source mutates in place. -/
structure PState where
  dist : Pos → WithTop Nat
  prev : Pos → Option Pos

/-- The state currently held by the caller's grid. -/
def stateOf (g : Grid) : PState :=
  ⟨fun p => (cellAt g p).distance, fun p => (cellAt g p).previousNode⟩

/-- `node.distance = d` for the node at `p`. -/
def setDist (st : PState) (p : Pos) (d : WithTop Nat) : PState :=
  ⟨fun q => if q = p then d else st.dist q, st.prev⟩

/-- `node.previousNode = pr` for the node at `p`. -/
def setPrev (st : PState) (p : Pos) (pr : Option Pos) : PState :=
  ⟨st.dist, fun q => if q = p then pr else st.prev q⟩

/-- `getReversePath` of pathfinding.ts: the node followed by its
`previousNode` chain. `fuel` bounds the walk (the source would loop forever
on a cyclic chain; every call site passes more fuel than the number of
cells, enough for the acyclic chains the algorithms build). -/
def getReversePath (prev : Pos → Option Pos) : Nat → Pos → List Pos
  | 0, p => [p]
  | fuel + 1, p =>
    match prev p with
    | none => [p]
    | some q => p :: getReversePath prev fuel q

/-- `getPath` of pathfinding.ts: the `previousNode` chain from the end node,
built with repeated `unshift` — the reverse of `getReversePath`. -/
def getPath (prev : Pos → Option Pos) (fuel : Nat) (p : Pos) : List Pos :=
  (getReversePath prev fuel p).reverse

/-- `Step` of pathfinding.ts, with node references as positions. -/
structure Step where
  visited : List Pos
  path : List Pos
deriving DecidableEq, Repr

/-- Stable insertion of `p` into a list sorted by `key`: `p` goes before the
first element whose key is `≥` its own. -/
def insertByKey (key : Pos → WithTop Nat) (p : Pos) : List Pos → List Pos
  | [] => [p]
  | q :: t => if key p ≤ key q then p :: q :: t else q :: insertByKey key p t

/-- Stable sort by `key`: the result of `Array.prototype.sort` with the
numeric comparator `key a - key b` (V8's sort is stable; a NaN comparator
value, which arises only when both keys are `Infinity`, is treated as 0, so
ties keep their relative order). Inserting from the right keeps equal-key
elements in input order. -/
def sortByKey (key : Pos → WithTop Nat) : List Pos → List Pos
  | [] => []
  | p :: t => insertByKey key p (sortByKey key t)

/-- Fuel for `previousNode` chain walks: more than the number of cells. -/
def pathFuel (g : Grid) : Nat := (allPositions g).length + 1

/-- Fuel for the search loops: more than the number of positions any search
can ever hold. -/
def loopFuel (g : Grid) : Nat := (rows g + 1) * (cols g + 1) + 1

end Pathfinding

namespace Pathfinding

/-- One neighbor relaxation of `dijkstra`. -/
def relaxDijkstra (cur : Pos) (st : PState) (n : Pos) : PState :=
  if st.dist cur + 1 < st.dist n then
    setPrev (setDist st n (st.dist cur + 1)) n (some cur)
  else st

/-- The `while (unvisitedNodes.length)` loop of `dijkstra`: stably re-sort
the unvisited list by current distance, shift its head, stop on an
`Infinity` head, emit the path step on the end node, otherwise relax the
neighbors and emit an exploration step. The unvisited list shrinks by one
per iteration, so any `fuel` above its length is enough. -/
def dijkstraLoop (g : Grid) (ePos : Pos) :
    Nat → List Pos → PState → List Step × PState
  | 0, _, st => ([], st)
  | fuel + 1, unvisited, st =>
    match sortByKey st.dist unvisited with
    | [] => ([], st)
    | cur :: rest =>
      if st.dist cur = ⊤ then ([], st)
      else if cur = ePos then
        ([⟨[cur], getPath st.prev (pathFuel g) ePos⟩], st)
      else
        let st2 := (getNeighbors g cur).foldl (relaxDijkstra cur) st
        let res := dijkstraLoop g ePos fuel rest st2
        (⟨[cur], []⟩ :: res.1, res.2)

/-- `dijkstra` of pathfinding.ts: the step trace together with the final
values of the `distance`/`previousNode` fields the source leaves in the
caller's grid. -/
def dijkstraRun (g : Grid) : List Step × PState :=
  match findStart g, findEnd g with
  | some s, some e =>
    dijkstraLoop g e ((allPositions g).length + 1) (allPositions g)
      ⟨fun p => if p = s then 0 else ⊤, fun _ => none⟩
  | _, _ => ([], stateOf g)

/-- The step trace `dijkstra` returns. -/
def dijkstra (g : Grid) : List Step := (dijkstraRun g).1

/-- The neighbor loop of `astar`: skip closed nodes; push unseen ones to the
open set and (re)point them at the current node; update open ones only on a
strictly smaller tentative distance. -/
def astarVisit (g : Grid) (cur : Pos) (closed : List Pos)
    (acc : List Pos × PState) (n : Pos) : List Pos × PState :=
  if n ∈ closed then acc
  else
    let tentative := acc.2.dist cur + 1
    if n ∈ acc.1 then
      if acc.2.dist n ≤ tentative then acc
      else (acc.1, setDist (setPrev acc.2 n (some cur)) n tentative)
    else (acc.1 ++ [n], setDist (setPrev acc.2 n (some cur)) n tentative)

/-- The `while (openSet.length > 0)` loop of `astar`, sorted by
`distance + heuristic`. -/
def astarLoop (g : Grid) (ePos : Pos) :
    Nat → List Pos → List Pos → PState → List Step × PState
  | 0, _, _, st => ([], st)
  | fuel + 1, openSet, closed, st =>
    match sortByKey (fun p => st.dist p + (getDistance p ePos : WithTop Nat))
        openSet with
    | [] => ([], st)
    | cur :: rest =>
      let closed2 := closed ++ [cur]
      if cur = ePos then
        ([⟨[cur], getPath st.prev (pathFuel g) ePos⟩], st)
      else
        let r := (getNeighbors g cur).foldl (astarVisit g cur closed2) (rest, st)
        let res := astarLoop g ePos fuel r.1 closed2 r.2
        (⟨[cur], []⟩ :: res.1, res.2)

/-- `astar` of pathfinding.ts. -/
def astarRun (g : Grid) : List Step × PState :=
  match findStart g, findEnd g with
  | some s, some e =>
    astarLoop g e (loopFuel g) [s] []
      ⟨fun p => if p = s then 0 else ⊤, fun _ => none⟩
  | _, _ => ([], stateOf g)

/-- The step trace `astar` returns. -/
def astar (g : Grid) : List Step := (astarRun g).1

/-- The neighbor loop shared by `bfs` and `dfs`: enqueue unseen neighbors,
mark them visited and point them at the current node. The accumulator is
(queue or stack, visited set as a list, state). -/
def bfsVisit (cur : Pos) (acc : List Pos × List Pos × PState) (n : Pos) :
    List Pos × List Pos × PState :=
  if n ∈ acc.2.1 then acc
  else (acc.1 ++ [n], acc.2.1 ++ [n], setPrev acc.2.2 n (some cur))

/-- The `while (queue.length)` loop of `bfs`. -/
def bfsLoop (g : Grid) (ePos : Pos) :
    Nat → List Pos → List Pos → PState → List Step × PState
  | 0, _, _, st => ([], st)
  | fuel + 1, queue, visited, st =>
    match queue with
    | [] => ([], st)
    | cur :: rest =>
      if cur = ePos then
        ([⟨[cur], getPath st.prev (pathFuel g) ePos⟩], st)
      else
        let r := (getNeighbors g cur).foldl (bfsVisit cur) (rest, visited, st)
        let res := bfsLoop g ePos fuel r.1 r.2.1 r.2.2
        (⟨[cur], []⟩ :: res.1, res.2)

/-- `bfs` of pathfinding.ts (it resets `previousNode` but not `distance`). -/
def bfsRun (g : Grid) : List Step × PState :=
  match findStart g, findEnd g with
  | some s, some e =>
    bfsLoop g e (loopFuel g) [s] [s] ⟨(stateOf g).dist, fun _ => none⟩
  | _, _ => ([], stateOf g)

/-- The step trace `bfs` returns. -/
def bfs (g : Grid) : List Step := (bfsRun g).1

/-- The `while (stack.length)` loop of `dfs`: `stack.pop()` takes the last
element; pushes append. -/
def dfsLoop (g : Grid) (ePos : Pos) :
    Nat → List Pos → List Pos → PState → List Step × PState
  | 0, _, _, st => ([], st)
  | fuel + 1, stack, visited, st =>
    match stack.getLast? with
    | none => ([], st)
    | some cur =>
      if cur = ePos then
        ([⟨[cur], getPath st.prev (pathFuel g) ePos⟩], st)
      else
        let r := (getNeighbors g cur).foldl (bfsVisit cur)
          (stack.dropLast, visited, st)
        let res := dfsLoop g ePos fuel r.1 r.2.1 r.2.2
        (⟨[cur], []⟩ :: res.1, res.2)

/-- `dfs` of pathfinding.ts. -/
def dfsRun (g : Grid) : List Step × PState :=
  match findStart g, findEnd g with
  | some s, some e =>
    dfsLoop g e (loopFuel g) [s] [s] ⟨(stateOf g).dist, fun _ => none⟩
  | _, _ => ([], stateOf g)

/-- The step trace `dfs` returns. -/
def dfs (g : Grid) : List Step := (dfsRun g).1

/-- The neighbor loop of `greedyBestFirst`: skip closed or already-open
neighbors, otherwise point them at the current node and push them. -/
def greedyVisit (cur : Pos) (closed : List Pos)
    (acc : List Pos × PState) (n : Pos) : List Pos × PState :=
  if n ∈ closed then acc
  else if n ∈ acc.1 then acc
  else (acc.1 ++ [n], setPrev acc.2 n (some cur))

/-- The `while (openSet.length > 0)` loop of `greedyBestFirst`, sorted by the
heuristic alone. -/
def greedyLoop (g : Grid) (ePos : Pos) :
    Nat → List Pos → List Pos → PState → List Step × PState
  | 0, _, _, st => ([], st)
  | fuel + 1, openSet, closed, st =>
    match sortByKey (fun p => (getDistance p ePos : WithTop Nat)) openSet with
    | [] => ([], st)
    | cur :: rest =>
      let closed2 := closed ++ [cur]
      if cur = ePos then
        ([⟨[cur], getPath st.prev (pathFuel g) ePos⟩], st)
      else
        let r := (getNeighbors g cur).foldl (greedyVisit cur closed2) (rest, st)
        let res := greedyLoop g ePos fuel r.1 closed2 r.2
        (⟨[cur], []⟩ :: res.1, res.2)

/-- `greedyBestFirst` of pathfinding.ts (it resets `previousNode` for every
node and sets the start node's `distance` to 0). -/
def greedyBestFirstRun (g : Grid) : List Step × PState :=
  match findStart g, findEnd g with
  | some s, some e =>
    greedyLoop g e (loopFuel g) [s] []
      (setDist ⟨(stateOf g).dist, fun _ => none⟩ s 0)
  | _, _ => ([], stateOf g)

/-- The step trace `greedyBestFirst` returns. -/
def greedyBestFirst (g : Grid) : List Step := (greedyBestFirstRun g).1

end Pathfinding

namespace Pathfinding

/-- The neighbor loop of each direction of `bidirectionalSearch`: enqueue
unseen neighbors into that direction's queue and visited set and point them
at the current node. Note both directions write the same shared
`previousNode` field. -/
def bidirVisit (cur : Pos) (acc : List Pos × List Pos × PState) (n : Pos) :
    List Pos × List Pos × PState :=
  if n ∈ acc.2.1 then acc
  else (acc.1 ++ [n], acc.2.1 ++ [n], setPrev acc.2.2 n (some cur))

/-- The combined path `bidirectionalSearch` builds at the meeting node `m`:
`getPath(m)` concatenated with `getReversePath(m)` minus its head. -/
def bidirPath (g : Grid) (st : PState) (m : Pos) : List Pos :=
  getPath st.prev (pathFuel g) m ++ (getReversePath st.prev (pathFuel g) m).drop 1

/-- The `while (forwardQueue.length && backwardQueue.length)` loop of
`bidirectionalSearch`. Arguments: forward queue, backward queue, forward
visited, backward visited (visited sets as insertion-ordered lists). -/
def bidirLoop (g : Grid) :
    Nat → List Pos → List Pos → List Pos → List Pos → PState →
      List Step × PState
  | 0, _, _, _, _, st => ([], st)
  | fuel + 1, fq, bq, fv, bv, st =>
    match fq, bq with
    | [], _ => ([], st)
    | _, [] => ([], st)
    | fNode :: fRest, bNode :: bRest =>
      if fNode ∈ bv then
        ([⟨fv ++ bv, bidirPath g st fNode⟩], st)
      else
        let f := (getNeighbors g fNode).foldl (bidirVisit fNode) (fRest, fv, st)
        if bNode ∈ f.2.1 then
          ([⟨f.2.1 ++ bv, bidirPath g f.2.2 bNode⟩], f.2.2)
        else
          let b := (getNeighbors g bNode).foldl (bidirVisit bNode)
            (bRest, bv, f.2.2)
          let res := bidirLoop g fuel f.1 b.1 f.2.1 b.2.1 b.2.2
          (⟨f.2.1 ++ b.2.1, []⟩ :: res.1, res.2)

/-- `bidirectionalSearch` of pathfinding.ts. -/
def bidirectionalSearchRun (g : Grid) : List Step × PState :=
  match findStart g, findEnd g with
  | some s, some e =>
    bidirLoop g (loopFuel g) [s] [e] [s] [e]
      ⟨fun p => if p = s then 0 else if p = e then 0 else ⊤, fun _ => none⟩
  | _, _ => ([], stateOf g)

/-- The step trace `bidirectionalSearch` returns. -/
def bidirectionalSearch (g : Grid) : List Step := (bidirectionalSearchRun g).1

/-- The edge list of `bellmanFord`: for each non-wall node in row-major
order, one edge to each of its (non-wall) neighbors. -/
def bfEdges (g : Grid) : List (Pos × Pos) :=
  (((allPositions g).filter (fun p => !(cellAt g p).isWall)).map
    (fun p => (getNeighbors g p).map (fun q => (p, q)))).flatten

/-- One edge relaxation of `bellmanFord` (the accumulator carries the
`updated` flag). -/
def bfRelaxStep (acc : PState × Bool) (e : Pos × Pos) : PState × Bool :=
  if acc.1.dist e.1 + 1 < acc.1.dist e.2 then
    (setPrev (setDist acc.1 e.2 (acc.1.dist e.1 + 1)) e.2 (some e.1), true)
  else acc

/-- One full relaxation pass of `bellmanFord` over the edge list, with the
`updated` flag. -/
def bfRelaxPass (edges : List (Pos × Pos)) (st : PState) : PState × Bool :=
  edges.foldl bfRelaxStep (st, false)

/-- The `for (let i = 0; i < nodes.length - 1; i++)` loop of `bellmanFord`,
breaking early when a pass makes no update. -/
def bfLoop (edges : List (Pos × Pos)) : Nat → PState → PState
  | 0, st => st
  | k + 1, st =>
    let r := bfRelaxPass edges st
    if r.2 then bfLoop edges k r.1 else r.1

/-- `bellmanFord` of pathfinding.ts: after the relaxation passes it returns
an empty trace if some edge is still relaxable (its "negative cycle" check),
and otherwise pushes a single step whose visited set is the `previousNode`
chain of the end node and whose path is `getPath(endNode)`. (The source's
trailing `if (steps.length === 0)` block is unreachable: a step was just
pushed.) -/
def bellmanFordRun (g : Grid) : List Step × PState :=
  match findStart g, findEnd g with
  | some s, some e =>
    let edges := bfEdges g
    let st2 := bfLoop edges ((allPositions g).length - 1)
      ⟨fun p => if p = s then 0 else ⊤, fun _ => none⟩
    if edges.any (fun ed => decide (st2.dist ed.1 + 1 < st2.dist ed.2)) then
      ([], st2)
    else
      ([⟨getReversePath st2.prev (pathFuel g) e,
         getPath st2.prev (pathFuel g) e⟩], st2)
  | _, _ => ([], stateOf g)

/-- The step trace `bellmanFord` returns. -/
def bellmanFord (g : Grid) : List Step := (bellmanFordRun g).1

/-- Whether the integer coordinates `(r, c)` are inside the grid. -/
def inBounds (g : Grid) (r c : Int) : Bool :=
  decide (0 ≤ r) && decide (r < (rows g : Int)) &&
    decide (0 ≤ c) && decide (c < (cols g : Int))

/-- The 8 directions of `getDiagonalNeighbors`, in source order. -/
def dirs8 : List (Int × Int) :=
  [(-1, -1), (-1, 0), (-1, 1), (0, -1), (0, 1), (1, -1), (1, 0), (1, 1)]

/-- `getDiagonalNeighbors` of pathfinding.ts: the 8 surrounding cells,
bounds-checked, non-wall, in source order. -/
def getDiagonalNeighbors (g : Grid) (p : Pos) : List Pos :=
  dirs8.foldr
    (fun d acc =>
      let nr := (p.1 : Int) + d.1
      let nc := (p.2 : Int) + d.2
      if inBounds g nr nc && !(cellAt g (nr.toNat, nc.toNat)).isWall then
        (nr.toNat, nc.toNat) :: acc
      else acc) []

/-- The forced-neighbor test of `findJumpPoint` at the cell `(nr, nc)`
reached while moving in direction `dir` (transcribed case by case from the
source's diagonal / horizontal / vertical blocks). -/
def jpForced (g : Grid) (dir : Int × Int) (nr nc : Int) : Bool :=
  let dx := dir.1
  let dy := dir.2
  if dx ≠ 0 ∧ dy ≠ 0 then
    (if 0 ≤ nr - dx ∧ nr - dx < (rows g : Int) then
       if 0 ≤ nc + dy ∧ nc + dy < (cols g : Int) then
         !(cellAt g ((nr - dx).toNat, nc.toNat)).isWall &&
           (cellAt g ((nr - dx).toNat, (nc + dy).toNat)).isWall
       else false
     else false) ||
    (if 0 ≤ nc - dy ∧ nc - dy < (cols g : Int) then
       if 0 ≤ nr + dx ∧ nr + dx < (rows g : Int) then
         !(cellAt g (nr.toNat, (nc - dy).toNat)).isWall &&
           (cellAt g ((nr + dx).toNat, (nc - dy).toNat)).isWall
       else false
     else false)
  else if dx ≠ 0 then
    (if 0 ≤ nc + 1 ∧ nc + 1 < (cols g : Int) then
       if 0 ≤ nr + dx ∧ nr + dx < (rows g : Int) then
         !(cellAt g (nr.toNat, (nc + 1).toNat)).isWall &&
           (cellAt g ((nr + dx).toNat, (nc + 1).toNat)).isWall
       else false
     else false) ||
    (if 0 ≤ nc - 1 ∧ nc - 1 < (cols g : Int) then
       if 0 ≤ nr + dx ∧ nr + dx < (rows g : Int) then
         !(cellAt g (nr.toNat, (nc - 1).toNat)).isWall &&
           (cellAt g ((nr + dx).toNat, (nc - 1).toNat)).isWall
       else false
     else false)
  else
    (if 0 ≤ nr + 1 ∧ nr + 1 < (rows g : Int) then
       if 0 ≤ nc + dy ∧ nc + dy < (cols g : Int) then
         !(cellAt g ((nr + 1).toNat, nc.toNat)).isWall &&
           (cellAt g ((nr + 1).toNat, (nc + dy).toNat)).isWall
       else false
     else false) ||
    (if 0 ≤ nr - 1 ∧ nr - 1 < (rows g : Int) then
       if 0 ≤ nc + dy ∧ nc + dy < (cols g : Int) then
         !(cellAt g ((nr - 1).toNat, nc.toNat)).isWall &&
           (cellAt g ((nr - 1).toNat, (nc + dy).toNat)).isWall
       else false
     else false)

/-- `findJumpPoint` of pathfinding.ts. It walks from `cur` in direction
`dir`; returns the next cell when it is the end node or has a forced
neighbor; otherwise recurses, and when the recursion finds a jump point it
may relax it and push it into the open set (a side effect on the open set
and the node state) while itself returning `null`. `fuel` exceeds the grid
diameter, the maximum length of the walk. -/
def findJumpPoint (g : Grid) (ePos : Pos) (dir : Int × Int) :
    Nat → Pos → PState → List Pos → Option Pos × PState × List Pos
  | 0, _, st, os => (none, st, os)
  | fuel + 1, cur, st, os =>
    let nr := (cur.1 : Int) + dir.1
    let nc := (cur.2 : Int) + dir.2
    if !(inBounds g nr nc) || (cellAt g (nr.toNat, nc.toNat)).isWall then
      (none, st, os)
    else
      let next : Pos := (nr.toNat, nc.toNat)
      if next = ePos then (some next, st, os)
      else if jpForced g dir nr nc then (some next, st, os)
      else
        let r := findJumpPoint g ePos dir fuel next st os
        match r.1 with
        | some jp =>
          let d := r.2.1.dist next + (getDistance next jp : WithTop Nat)
          if d < r.2.1.dist jp then
            (none, setDist (setPrev r.2.1 jp (some next)) jp d,
              if jp ∈ r.2.2 then r.2.2 else r.2.2 ++ [jp])
          else (none, r.2)
        | none => (none, r.2)

/-- Fuel for one `findJumpPoint` walk: more than the grid diameter. -/
def jumpFuel (g : Grid) : Nat := rows g + cols g + 2

/-- The neighbor loop of `jumpPointSearch`: for each diagonal neighbor not
yet closed, search for a jump point in its direction and relax it. The
accumulator is (open set, state). -/
def jpsVisit (g : Grid) (ePos : Pos) (cur : Pos) (closed : List Pos)
    (acc : List Pos × PState) (n : Pos) : List Pos × PState :=
  if n ∈ closed then acc
  else
    let dir : Int × Int := ((n.1 : Int) - cur.1, (n.2 : Int) - cur.2)
    let fj := findJumpPoint g ePos dir (jumpFuel g) cur acc.2 acc.1
    match fj.1 with
    | some jp =>
      let d := fj.2.1.dist cur + (getDistance cur jp : WithTop Nat)
      if d < fj.2.1.dist jp then
        (if jp ∈ fj.2.2 then fj.2.2 else fj.2.2 ++ [jp],
          setDist (setPrev fj.2.1 jp (some cur)) jp d)
      else (fj.2.2, fj.2.1)
    | none => (fj.2.2, fj.2.1)

/-- The `while (openSet.length > 0)` loop of `jumpPointSearch`, sorted by
`distance + heuristic` like `astar`. -/
def jpsLoop (g : Grid) (ePos : Pos) :
    Nat → List Pos → List Pos → PState → List Step × PState
  | 0, _, _, st => ([], st)
  | fuel + 1, openSet, closed, st =>
    match sortByKey (fun p => st.dist p + (getDistance p ePos : WithTop Nat))
        openSet with
    | [] => ([], st)
    | cur :: rest =>
      let closed2 := closed ++ [cur]
      if cur = ePos then
        ([⟨[cur], getPath st.prev (pathFuel g) ePos⟩], st)
      else
        let r := (getDiagonalNeighbors g cur).foldl
          (jpsVisit g ePos cur closed2) (rest, st)
        let res := jpsLoop g ePos fuel r.1 closed2 r.2
        (⟨[cur], []⟩ :: res.1, res.2)

/-- Loop fuel for `jumpPointSearch`: unlike the other searches its open set
can re-admit closed nodes whose distance improved, so iterations are bounded
by the number of cells times the number of possible distance decreases. -/
def jpsTotalFuel (g : Grid) : Nat :=
  loopFuel g * (loopFuel g * (rows g + cols g + 2) + 1) + 1

/-- `jumpPointSearch` of pathfinding.ts, including its fallback step for an
empty trace. -/
def jumpPointSearchRun (g : Grid) : List Step × PState :=
  match findStart g, findEnd g with
  | some s, some e =>
    let r := jpsLoop g e (jpsTotalFuel g) [s] []
      ⟨fun p => if p = s then 0 else ⊤, fun _ => none⟩
    if r.1 = [] then ([⟨[s], []⟩], r.2) else r
  | _, _ => ([], stateOf g)

/-- The step trace `jumpPointSearch` returns. -/
def jumpPointSearch (g : Grid) : List Step := (jumpPointSearchRun g).1

end Pathfinding

namespace Pathfinding

/-- 1×2 grid: a start cell and an adjacent end cell, no walls, with the
`distance`/`previousNode` values the app's `createNode` gives them. -/
def twoCellGrid : Grid :=
  [[⟨false, true, false, ⊤, none⟩, ⟨false, false, true, ⊤, none⟩]]

/-- 2×1 grid: start above end, no walls. -/
def vertCellGrid : Grid :=
  [[⟨false, true, false, ⊤, none⟩], [⟨false, false, true, ⊤, none⟩]]

/-- 1×3 grid whose end cell is walled off from the start. -/
def walledGrid : Grid :=
  [[⟨false, true, false, ⊤, none⟩, ⟨true, false, false, ⊤, none⟩,
    ⟨false, false, true, ⊤, none⟩]]

/-- 1×3 grid with two start cells (violating exactly-one-start). -/
def twoStartGrid : Grid :=
  [[⟨false, true, false, ⊤, none⟩, ⟨false, true, false, ⊤, none⟩,
    ⟨false, false, true, ⊤, none⟩]]

/-- `p` is a legal index pair of the grid's bound checks. -/
def inGrid (g : Grid) (p : Pos) : Prop := p.1 < rows g ∧ p.2 < cols g

/-- One 4-neighbor search step: the search can move from `p` to `q`. -/
def Adj4 (g : Grid) (p q : Pos) : Prop := q ∈ getNeighbors g p

/-- `q` is reachable from `p` by 4-neighbor steps. -/
def Reach4 (g : Grid) (p q : Pos) : Prop := Relation.ReflTransGen (Adj4 g) p q

/-- One 8-neighbor step (jump point search moves diagonally). -/
def Adj8 (g : Grid) (p q : Pos) : Prop := q ∈ getDiagonalNeighbors g p

/-- `q` is reachable from `p` by 8-neighbor steps. -/
def Reach8 (g : Grid) (p q : Pos) : Prop := Relation.ReflTransGen (Adj8 g) p q

theorem insertByKey_perm (key : Pos → WithTop Nat) (p : Pos) :
    ∀ l : List Pos, List.Perm (insertByKey key p l) (p :: l)
  | [] => List.Perm.refl _
  | q :: t => by
    unfold insertByKey
    by_cases h : key p ≤ key q
    · rw [if_pos h]
    · rw [if_neg h]
      exact ((insertByKey_perm key p t).cons q).trans (List.Perm.swap p q t)

theorem sortByKey_perm (key : Pos → WithTop Nat) :
    ∀ l : List Pos, List.Perm (sortByKey key l) l
  | [] => List.Perm.refl _
  | p :: t =>
    (insertByKey_perm key p (sortByKey key t)).trans
      ((sortByKey_perm key t).cons p)

theorem mem_of_mem_sortByKey {key : Pos → WithTop Nat} {l : List Pos} {p : Pos}
    (h : p ∈ sortByKey key l) : p ∈ l :=
  (sortByKey_perm key l).mem_iff.mp h

/-- Case analysis for membership in `getNeighbors`. -/
theorem mem_getNeighbors_cases {g : Grid} {p q : Pos}
    (h : q ∈ getNeighbors g p) :
    (cellAt g q).isWall = false ∧
    ((0 < p.1 ∧ q = (p.1 - 1, p.2)) ∨ (p.1 < rows g - 1 ∧ q = (p.1 + 1, p.2)) ∨
     (0 < p.2 ∧ q = (p.1, p.2 - 1)) ∨ (p.2 < cols g - 1 ∧ q = (p.1, p.2 + 1))) := by
  unfold getNeighbors at h
  rw [List.mem_filter] at h
  obtain ⟨h1, h2⟩ := h
  refine ⟨by simpa using h2, ?_⟩
  rcases List.mem_append.mp h1 with h3 | h3
  rotate_left
  · by_cases hc : p.2 < cols g - 1
    · rw [if_pos hc] at h3
      exact Or.inr (Or.inr (Or.inr ⟨hc, List.mem_singleton.mp h3⟩))
    · rw [if_neg hc] at h3
      exact absurd h3 (List.not_mem_nil q)
  rcases List.mem_append.mp h3 with h4 | h4
  rotate_left
  · by_cases hc : 0 < p.2
    · rw [if_pos hc] at h4
      exact Or.inr (Or.inr (Or.inl ⟨hc, List.mem_singleton.mp h4⟩))
    · rw [if_neg hc] at h4
      exact absurd h4 (List.not_mem_nil q)
  rcases List.mem_append.mp h4 with h5 | h5
  · by_cases hc : 0 < p.1
    · rw [if_pos hc] at h5
      exact Or.inl ⟨hc, List.mem_singleton.mp h5⟩
    · rw [if_neg hc] at h5
      exact absurd h5 (List.not_mem_nil q)
  · by_cases hc : p.1 < rows g - 1
    · rw [if_pos hc] at h5
      exact Or.inr (Or.inl ⟨hc, List.mem_singleton.mp h5⟩)
    · rw [if_neg hc] at h5
      exact absurd h5 (List.not_mem_nil q)

end Pathfinding

namespace Pathfinding

/-- Introduction for membership in `getNeighbors`. -/
theorem mem_getNeighbors_of {g : Grid} {p q : Pos}
    (hw : (cellAt g q).isWall = false)
    (h : (0 < p.1 ∧ q = (p.1 - 1, p.2)) ∨ (p.1 < rows g - 1 ∧ q = (p.1 + 1, p.2)) ∨
      (0 < p.2 ∧ q = (p.1, p.2 - 1)) ∨ (p.2 < cols g - 1 ∧ q = (p.1, p.2 + 1))) :
    q ∈ getNeighbors g p := by
  unfold getNeighbors
  rw [List.mem_filter]
  refine ⟨?_, by simp [hw]⟩
  rcases h with ⟨hc, rfl⟩ | ⟨hc, rfl⟩ | ⟨hc, rfl⟩ | ⟨hc, rfl⟩
  · exact List.mem_append.mpr (Or.inl (List.mem_append.mpr (Or.inl
      (List.mem_append.mpr (Or.inl (by rw [if_pos hc]; exact List.mem_singleton.mpr rfl))))))
  · exact List.mem_append.mpr (Or.inl (List.mem_append.mpr (Or.inl
      (List.mem_append.mpr (Or.inr (by rw [if_pos hc]; exact List.mem_singleton.mpr rfl))))))
  · exact List.mem_append.mpr (Or.inl (List.mem_append.mpr (Or.inr
      (by rw [if_pos hc]; exact List.mem_singleton.mpr rfl))))
  · exact List.mem_append.mpr (Or.inr
      (by rw [if_pos hc]; exact List.mem_singleton.mpr rfl))

/-- Neighbors are never walls. -/
theorem not_wall_of_mem_getNeighbors {g : Grid} {p q : Pos}
    (h : q ∈ getNeighbors g p) : (cellAt g q).isWall = false :=
  (mem_getNeighbors_cases h).1

/-- Neighbors of an in-grid position are in-grid. -/
theorem inGrid_of_mem_getNeighbors {g : Grid} {p q : Pos}
    (h : q ∈ getNeighbors g p) (hp : inGrid g p) : inGrid g q := by
  obtain ⟨hr, hc⟩ := hp
  rcases (mem_getNeighbors_cases h).2 with ⟨h1, rfl⟩ | ⟨h1, rfl⟩ | ⟨h1, rfl⟩ | ⟨h1, rfl⟩
  · exact ⟨by omega, hc⟩
  · exact ⟨by omega, hc⟩
  · exact ⟨hr, by omega⟩
  · exact ⟨hr, by omega⟩

/-- Geometric symmetry: a step into a non-wall in-grid cell can be walked
back. -/
theorem adj4_symm {g : Grid} {p q : Pos} (h : q ∈ getNeighbors g p)
    (hw : (cellAt g p).isWall = false) (hp : inGrid g p) :
    p ∈ getNeighbors g q := by
  obtain ⟨hr, hc⟩ := hp
  obtain ⟨p1, p2⟩ := p
  refine mem_getNeighbors_of hw ?_
  rcases (mem_getNeighbors_cases h).2 with ⟨h1, rfl⟩ | ⟨h1, rfl⟩ | ⟨h1, rfl⟩ | ⟨h1, rfl⟩
  · refine Or.inr (Or.inl ⟨?_, ?_⟩)
    · show p1 - 1 < rows g - 1
      omega
    · show (p1, p2) = (p1 - 1 + 1, p2)
      simp only [Prod.mk.injEq, and_true, true_and]
      omega
  · refine Or.inl ⟨?_, ?_⟩
    · show 0 < p1 + 1
      omega
    · show (p1, p2) = (p1 + 1 - 1, p2)
      simp only [Prod.mk.injEq, and_true, true_and]
      omega
  · refine Or.inr (Or.inr (Or.inr ⟨?_, ?_⟩))
    · show p2 - 1 < cols g - 1
      omega
    · show (p1, p2) = (p1, p2 - 1 + 1)
      simp only [Prod.mk.injEq, and_true, true_and]
      omega
  · refine Or.inr (Or.inr (Or.inl ⟨?_, ?_⟩))
    · show 0 < p2 + 1
      omega
    · show (p1, p2) = (p1, p2 + 1 - 1)
      simp only [Prod.mk.injEq, and_true, true_and]
      omega

/-- Everything reachable from inside a neighbor-closed set stays inside. -/
theorem reach4_mem_closed {g : Grid} {C : List Pos} {s e : Pos} (hs : s ∈ C)
    (hcl : ∀ p ∈ C, ∀ q ∈ getNeighbors g p, q ∈ C) (h : Reach4 g s e) :
    e ∈ C := by
  induction h with
  | refl => exact hs
  | tail _ hadj ih => exact hcl _ ih _ hadj

/-- 8-neighbor version of `reach4_mem_closed`. -/
theorem reach8_mem_closed {g : Grid} {C : List Pos} {s e : Pos} (hs : s ∈ C)
    (hcl : ∀ p ∈ C, ∀ q ∈ getDiagonalNeighbors g p, q ∈ C) (h : Reach8 g s e) :
    e ∈ C := by
  induction h with
  | refl => exact hs
  | tail _ hadj ih => exact hcl _ ih _ hadj

/-- A 4-reachability chain out of a non-wall in-grid cell can be reversed. -/
theorem reach4_rev {g : Grid} {e m : Pos} (hw : (cellAt g e).isWall = false)
    (he : inGrid g e) (h : Reach4 g e m) : Reach4 g m e := by
  have main : Reach4 g m e ∧ ((cellAt g m).isWall = false ∧ inGrid g m ∨ m = e) := by
    induction h with
    | refl => exact ⟨Relation.ReflTransGen.refl, Or.inr rfl⟩
    | tail hbc hadj ih =>
      rename_i b c
      have hbw : (cellAt g b).isWall = false := by
        rcases ih.2 with ⟨h1, _⟩ | rfl
        · exact h1
        · exact hw
      have hbg : inGrid g b := by
        rcases ih.2 with ⟨_, h2⟩ | rfl
        · exact h2
        · exact he
      refine ⟨Relation.ReflTransGen.head (adj4_symm hadj hbw hbg) ih.1,
        Or.inl ⟨not_wall_of_mem_getNeighbors hadj,
          inGrid_of_mem_getNeighbors hadj hbg⟩⟩
  exact main.1

end Pathfinding

namespace Pathfinding

/-- The queue and visited list after the bfs/dfs neighbor fold only gain
members of the neighbor list. -/
theorem bfsVisit_fold_mem (cur : Pos) :
    ∀ (ns : List Pos) (acc : List Pos × List Pos × PState) (q : Pos),
      (q ∈ (ns.foldl (bfsVisit cur) acc).1 → q ∈ acc.1 ∨ q ∈ ns) ∧
      (q ∈ (ns.foldl (bfsVisit cur) acc).2.1 → q ∈ acc.2.1 ∨ q ∈ ns)
  | [], acc, q => ⟨fun h => Or.inl h, fun h => Or.inl h⟩
  | n :: t, acc, q => by
    have ih := bfsVisit_fold_mem cur t (bfsVisit cur acc n) q
    rw [List.foldl_cons]
    have hsub1 : (bfsVisit cur acc n).1 = acc.1 ∨
        (bfsVisit cur acc n).1 = acc.1 ++ [n] := by
      unfold bfsVisit
      by_cases h : n ∈ acc.2.1
      · rw [if_pos h]; exact Or.inl rfl
      · rw [if_neg h]; exact Or.inr rfl
    have hsub2 : (bfsVisit cur acc n).2.1 = acc.2.1 ∨
        (bfsVisit cur acc n).2.1 = acc.2.1 ++ [n] := by
      unfold bfsVisit
      by_cases h : n ∈ acc.2.1
      · rw [if_pos h]; exact Or.inl rfl
      · rw [if_neg h]; exact Or.inr rfl
    constructor
    · intro h
      rcases ih.1 h with h2 | h2
      · rcases hsub1 with h3 | h3
        · exact Or.inl (h3 ▸ h2)
        · rcases List.mem_append.mp (h3 ▸ h2) with h4 | h4
          · exact Or.inl h4
          · exact Or.inr (List.mem_cons.mpr (Or.inl (List.mem_singleton.mp h4)))
      · exact Or.inr (List.mem_cons_of_mem n h2)
    · intro h
      rcases ih.2 h with h2 | h2
      · rcases hsub2 with h3 | h3
        · exact Or.inl (h3 ▸ h2)
        · rcases List.mem_append.mp (h3 ▸ h2) with h4 | h4
          · exact Or.inl h4
          · exact Or.inr (List.mem_cons.mpr (Or.inl (List.mem_singleton.mp h4)))
      · exact Or.inr (List.mem_cons_of_mem n h2)

end Pathfinding

namespace Pathfinding

theorem mem_of_getLast?_eq {l : List Pos} {a : Pos} (h : l.getLast? = some a) :
    a ∈ l := by
  have hne : l ≠ [] := by
    intro h2
    subst h2
    exact absurd h (by simp)
  rw [List.getLast?_eq_getLast l hne] at h
  have h2 : l.getLast hne = a := Option.some.inj h
  exact h2 ▸ List.getLast_mem hne

/-- Every step `bfs`'s loop emits on an unreachable end carries an empty
path: the end node is never popped, because the queue stays inside the set
reachable from the start. -/
theorem bfsLoop_path_empty {g : Grid} {s e : Pos} (hne : ¬ Reach4 g s e) :
    ∀ (fuel : Nat) (queue visited : List Pos) (st : PState),
      (∀ p ∈ queue, Reach4 g s p) →
      ∀ stp ∈ (bfsLoop g e fuel queue visited st).1, stp.path = [] := by
  intro fuel
  induction fuel with
  | zero =>
    intro queue visited st hq stp hstp
    exact absurd hstp (List.not_mem_nil stp)
  | succ fuel ih =>
    intro queue visited st hq stp hstp
    rcases queue with _ | ⟨cur, rest⟩
    · exact absurd hstp (List.not_mem_nil stp)
    · rw [bfsLoop] at hstp
      by_cases hce : cur = e
      · rw [if_pos hce] at hstp
        exact absurd (hce ▸ hq cur (List.mem_cons_self cur rest)) hne
      · rw [if_neg hce] at hstp
        dsimp only at hstp
        rcases List.mem_cons.mp hstp with rfl | h2
        · rfl
        · refine ih _ _ _ ?_ stp h2
          intro p hp
          rcases (bfsVisit_fold_mem cur (getNeighbors g cur)
              (rest, visited, st) p).1 hp with h3 | h3
          · exact hq p (List.mem_cons_of_mem cur h3)
          · exact Relation.ReflTransGen.tail
              (hq cur (List.mem_cons_self cur rest)) h3

/-- `dfs` version of `bfsLoop_path_empty` (the stack pops from the end). -/
theorem dfsLoop_path_empty {g : Grid} {s e : Pos} (hne : ¬ Reach4 g s e) :
    ∀ (fuel : Nat) (stack visited : List Pos) (st : PState),
      (∀ p ∈ stack, Reach4 g s p) →
      ∀ stp ∈ (dfsLoop g e fuel stack visited st).1, stp.path = [] := by
  intro fuel
  induction fuel with
  | zero =>
    intro stack visited st hq stp hstp
    exact absurd hstp (List.not_mem_nil stp)
  | succ fuel ih =>
    intro stack visited st hq stp hstp
    rw [dfsLoop] at hstp
    rcases hlast : stack.getLast? with _ | cur
    · rw [hlast] at hstp
      exact absurd hstp (List.not_mem_nil stp)
    · rw [hlast] at hstp
      dsimp only at hstp
      have hcur : cur ∈ stack := mem_of_getLast?_eq hlast
      by_cases hce : cur = e
      · rw [if_pos hce] at hstp
        exact absurd (hce ▸ hq cur hcur) hne
      · rw [if_neg hce] at hstp
        dsimp only at hstp
        rcases List.mem_cons.mp hstp with rfl | h2
        · rfl
        · refine ih _ _ _ ?_ stp h2
          intro p hp
          rcases (bfsVisit_fold_mem cur (getNeighbors g cur)
              (stack.dropLast, visited, st) p).1 hp with h3 | h3
          · exact hq p (List.dropLast_subset stack h3)
          · exact Relation.ReflTransGen.tail (hq cur hcur) h3

end Pathfinding

namespace Pathfinding

/-- The open set after the A* neighbor fold only gains members of the
neighbor list. -/
theorem astarVisit_fold_mem (g : Grid) (cur : Pos) (closed : List Pos) :
    ∀ (ns : List Pos) (acc : List Pos × PState) (q : Pos),
      q ∈ (ns.foldl (astarVisit g cur closed) acc).1 → q ∈ acc.1 ∨ q ∈ ns
  | [], acc, q => fun h => Or.inl h
  | n :: t, acc, q => by
    intro h
    rw [List.foldl_cons] at h
    have hsub : (astarVisit g cur closed acc n).1 = acc.1 ∨
        (astarVisit g cur closed acc n).1 = acc.1 ++ [n] := by
      unfold astarVisit
      by_cases h1 : n ∈ closed
      · rw [if_pos h1]; exact Or.inl rfl
      · rw [if_neg h1]
        dsimp only
        by_cases h2 : n ∈ acc.1
        · rw [if_pos h2]
          by_cases h3 : acc.2.dist n ≤ acc.2.dist cur + 1
          · rw [if_pos h3]; exact Or.inl rfl
          · rw [if_neg h3]; exact Or.inl rfl
        · rw [if_neg h2]; exact Or.inr rfl
    rcases astarVisit_fold_mem g cur closed t (astarVisit g cur closed acc n) q h
        with h2 | h2
    · rcases hsub with h3 | h3
      · exact Or.inl (h3 ▸ h2)
      · rcases List.mem_append.mp (h3 ▸ h2) with h4 | h4
        · exact Or.inl h4
        · exact Or.inr (List.mem_cons.mpr (Or.inl (List.mem_singleton.mp h4)))
    · exact Or.inr (List.mem_cons_of_mem n h2)

/-- The open set after the greedy neighbor fold only gains members of the
neighbor list. -/
theorem greedyVisit_fold_mem (cur : Pos) (closed : List Pos) :
    ∀ (ns : List Pos) (acc : List Pos × PState) (q : Pos),
      q ∈ (ns.foldl (greedyVisit cur closed) acc).1 → q ∈ acc.1 ∨ q ∈ ns
  | [], acc, q => fun h => Or.inl h
  | n :: t, acc, q => by
    intro h
    rw [List.foldl_cons] at h
    have hsub : (greedyVisit cur closed acc n).1 = acc.1 ∨
        (greedyVisit cur closed acc n).1 = acc.1 ++ [n] := by
      unfold greedyVisit
      by_cases h1 : n ∈ closed
      · rw [if_pos h1]; exact Or.inl rfl
      · rw [if_neg h1]
        by_cases h2 : n ∈ acc.1
        · rw [if_pos h2]; exact Or.inl rfl
        · rw [if_neg h2]; exact Or.inr rfl
    rcases greedyVisit_fold_mem cur closed t (greedyVisit cur closed acc n) q h
        with h2 | h2
    · rcases hsub with h3 | h3
      · exact Or.inl (h3 ▸ h2)
      · rcases List.mem_append.mp (h3 ▸ h2) with h4 | h4
        · exact Or.inl h4
        · exact Or.inr (List.mem_cons.mpr (Or.inl (List.mem_singleton.mp h4)))
    · exact Or.inr (List.mem_cons_of_mem n h2)

/-- Every step the A* loop emits on an unreachable end carries an empty
path. -/
theorem astarLoop_path_empty {g : Grid} {s e : Pos} (hne : ¬ Reach4 g s e) :
    ∀ (fuel : Nat) (openSet closed : List Pos) (st : PState),
      (∀ p ∈ openSet, Reach4 g s p) →
      ∀ stp ∈ (astarLoop g e fuel openSet closed st).1, stp.path = [] := by
  intro fuel
  induction fuel with
  | zero =>
    intro openSet closed st hq stp hstp
    exact absurd hstp (List.not_mem_nil stp)
  | succ fuel ih =>
    intro openSet closed st hq stp hstp
    rw [astarLoop] at hstp
    rcases hsk : sortByKey (fun p => st.dist p + (getDistance p e : WithTop Nat))
        openSet with _ | ⟨cur, rest⟩
    · rw [hsk] at hstp
      exact absurd hstp (List.not_mem_nil stp)
    · rw [hsk] at hstp
      dsimp only at hstp
      have hcur : cur ∈ openSet :=
        mem_of_mem_sortByKey (hsk ▸ List.mem_cons_self cur rest)
      have hrest : ∀ p ∈ rest, p ∈ openSet := fun p hp =>
        mem_of_mem_sortByKey (hsk ▸ List.mem_cons_of_mem cur hp)
      by_cases hce : cur = e
      · rw [if_pos hce] at hstp
        exact absurd (hce ▸ hq cur hcur) hne
      · rw [if_neg hce] at hstp
        rcases List.mem_cons.mp hstp with rfl | h2
        · rfl
        · refine ih _ _ _ ?_ stp h2
          intro p hp
          rcases astarVisit_fold_mem g cur (closed ++ [cur]) (getNeighbors g cur)
              (rest, st) p hp with h3 | h3
          · exact hq p (hrest p h3)
          · exact Relation.ReflTransGen.tail (hq cur hcur) h3

/-- Every step the greedy loop emits on an unreachable end carries an empty
path. -/
theorem greedyLoop_path_empty {g : Grid} {s e : Pos} (hne : ¬ Reach4 g s e) :
    ∀ (fuel : Nat) (openSet closed : List Pos) (st : PState),
      (∀ p ∈ openSet, Reach4 g s p) →
      ∀ stp ∈ (greedyLoop g e fuel openSet closed st).1, stp.path = [] := by
  intro fuel
  induction fuel with
  | zero =>
    intro openSet closed st hq stp hstp
    exact absurd hstp (List.not_mem_nil stp)
  | succ fuel ih =>
    intro openSet closed st hq stp hstp
    rw [greedyLoop] at hstp
    rcases hsk : sortByKey (fun p => (getDistance p e : WithTop Nat)) openSet
        with _ | ⟨cur, rest⟩
    · rw [hsk] at hstp
      exact absurd hstp (List.not_mem_nil stp)
    · rw [hsk] at hstp
      dsimp only at hstp
      have hcur : cur ∈ openSet :=
        mem_of_mem_sortByKey (hsk ▸ List.mem_cons_self cur rest)
      have hrest : ∀ p ∈ rest, p ∈ openSet := fun p hp =>
        mem_of_mem_sortByKey (hsk ▸ List.mem_cons_of_mem cur hp)
      by_cases hce : cur = e
      · rw [if_pos hce] at hstp
        exact absurd (hce ▸ hq cur hcur) hne
      · rw [if_neg hce] at hstp
        rcases List.mem_cons.mp hstp with rfl | h2
        · rfl
        · refine ih _ _ _ ?_ stp h2
          intro p hp
          rcases greedyVisit_fold_mem cur (closed ++ [cur]) (getNeighbors g cur)
              (rest, st) p hp with h3 | h3
          · exact hq p (hrest p h3)
          · exact Relation.ReflTransGen.tail (hq cur hcur) h3

end Pathfinding

namespace Pathfinding

/-- Dijkstra's reachability invariant: every node with a finite distance is
reachable from the start. -/
def DInv (g : Grid) (s : Pos) (st : PState) : Prop :=
  ∀ p, st.dist p ≠ ⊤ → Reach4 g s p

theorem relaxDijkstra_inv {g : Grid} {s cur : Pos} {st : PState} {n : Pos}
    (hn : n ∈ getNeighbors g cur) (hst : DInv g s st) :
    DInv g s (relaxDijkstra cur st n) := by
  unfold relaxDijkstra
  by_cases h : st.dist cur + 1 < st.dist n
  · rw [if_pos h]
    intro p hp
    by_cases hpn : p = n
    · subst hpn
      have hd : (setPrev (setDist st p (st.dist cur + 1)) p (some cur)).dist p =
          st.dist cur + 1 := by
        unfold setPrev setDist
        dsimp only
        rw [if_pos rfl]
      rw [hd] at hp
      have hcur : st.dist cur ≠ ⊤ := by
        intro h2
        rw [h2, WithTop.top_add] at hp
        exact hp rfl
      exact Relation.ReflTransGen.tail (hst cur hcur) hn
    · have hd : (setPrev (setDist st n (st.dist cur + 1)) n (some cur)).dist p =
          st.dist p := by
        unfold setPrev setDist
        dsimp only
        rw [if_neg hpn]
      rw [hd] at hp
      exact hst p hp
  · rw [if_neg h]
    exact hst

theorem foldl_relaxDijkstra_inv {g : Grid} {s cur : Pos} :
    ∀ (ns : List Pos), (∀ n ∈ ns, n ∈ getNeighbors g cur) →
      ∀ (st : PState), DInv g s st →
        DInv g s (ns.foldl (relaxDijkstra cur) st)
  | [], _, st, hst => hst
  | n :: t, hns, st, hst => by
    rw [List.foldl_cons]
    exact foldl_relaxDijkstra_inv t
      (fun m hm => hns m (List.mem_cons_of_mem n hm))
      (relaxDijkstra cur st n)
      (relaxDijkstra_inv (hns n (List.mem_cons_self n t)) hst)

/-- Every step dijkstra's loop emits on an unreachable end carries an empty
path: the end node's distance stays `Infinity`, and an `Infinity` head stops
the loop before the end node could be popped. -/
theorem dijkstraLoop_path_empty {g : Grid} {s e : Pos} (hne : ¬ Reach4 g s e) :
    ∀ (fuel : Nat) (unvisited : List Pos) (st : PState), DInv g s st →
      ∀ stp ∈ (dijkstraLoop g e fuel unvisited st).1, stp.path = [] := by
  intro fuel
  induction fuel with
  | zero =>
    intro unvisited st hst stp hstp
    exact absurd hstp (List.not_mem_nil stp)
  | succ fuel ih =>
    intro unvisited st hst stp hstp
    rw [dijkstraLoop] at hstp
    rcases hsk : sortByKey st.dist unvisited with _ | ⟨cur, rest⟩
    · rw [hsk] at hstp
      exact absurd hstp (List.not_mem_nil stp)
    · rw [hsk] at hstp
      dsimp only at hstp
      by_cases htop : st.dist cur = ⊤
      · rw [if_pos htop] at hstp
        exact absurd hstp (List.not_mem_nil stp)
      · rw [if_neg htop] at hstp
        by_cases hce : cur = e
        · exact absurd (hce ▸ hst cur htop) hne
        · rw [if_neg hce] at hstp
          rcases List.mem_cons.mp hstp with rfl | h2
          · rfl
          · exact ih rest _ (foldl_relaxDijkstra_inv (getNeighbors g cur)
              (fun n hn => hn) st hst) stp h2

end Pathfinding

namespace Pathfinding

/-- The queue and visited list after a bidirectional neighbor fold only gain
members of the neighbor list. -/
theorem bidirVisit_fold_mem (cur : Pos) :
    ∀ (ns : List Pos) (acc : List Pos × List Pos × PState) (q : Pos),
      (q ∈ (ns.foldl (bidirVisit cur) acc).1 → q ∈ acc.1 ∨ q ∈ ns) ∧
      (q ∈ (ns.foldl (bidirVisit cur) acc).2.1 → q ∈ acc.2.1 ∨ q ∈ ns)
  | [], acc, q => ⟨fun h => Or.inl h, fun h => Or.inl h⟩
  | n :: t, acc, q => by
    have ih := bidirVisit_fold_mem cur t (bidirVisit cur acc n) q
    rw [List.foldl_cons]
    have hsub1 : (bidirVisit cur acc n).1 = acc.1 ∨
        (bidirVisit cur acc n).1 = acc.1 ++ [n] := by
      unfold bidirVisit
      by_cases h : n ∈ acc.2.1
      · rw [if_pos h]; exact Or.inl rfl
      · rw [if_neg h]; exact Or.inr rfl
    have hsub2 : (bidirVisit cur acc n).2.1 = acc.2.1 ∨
        (bidirVisit cur acc n).2.1 = acc.2.1 ++ [n] := by
      unfold bidirVisit
      by_cases h : n ∈ acc.2.1
      · rw [if_pos h]; exact Or.inl rfl
      · rw [if_neg h]; exact Or.inr rfl
    constructor
    · intro h
      rcases ih.1 h with h2 | h2
      · rcases hsub1 with h3 | h3
        · exact Or.inl (h3 ▸ h2)
        · rcases List.mem_append.mp (h3 ▸ h2) with h4 | h4
          · exact Or.inl h4
          · exact Or.inr (List.mem_cons.mpr (Or.inl (List.mem_singleton.mp h4)))
      · exact Or.inr (List.mem_cons_of_mem n h2)
    · intro h
      rcases ih.2 h with h2 | h2
      · rcases hsub2 with h3 | h3
        · exact Or.inl (h3 ▸ h2)
        · rcases List.mem_append.mp (h3 ▸ h2) with h4 | h4
          · exact Or.inl h4
          · exact Or.inr (List.mem_cons.mpr (Or.inl (List.mem_singleton.mp h4)))
      · exact Or.inr (List.mem_cons_of_mem n h2)

/-- Every step the bidirectional loop emits on an unreachable (non-wall,
in-grid) end carries an empty path: the frontiers stay inside the sets
reachable from the start and from the end, which cannot meet. -/
theorem bidirLoop_path_empty {g : Grid} {s e : Pos} (hne : ¬ Reach4 g s e)
    (hw : (cellAt g e).isWall = false) (hg : inGrid g e) :
    ∀ (fuel : Nat) (fq bq fv bv : List Pos) (st : PState),
      (∀ p ∈ fq, Reach4 g s p) → (∀ p ∈ fv, Reach4 g s p) →
      (∀ p ∈ bq, Reach4 g e p) → (∀ p ∈ bv, Reach4 g e p) →
      ∀ stp ∈ (bidirLoop g fuel fq bq fv bv st).1, stp.path = [] := by
  intro fuel
  induction fuel with
  | zero =>
    intro fq bq fv bv st hfq hfv hbq hbv stp hstp
    exact absurd hstp (List.not_mem_nil stp)
  | succ fuel ih =>
    intro fq bq fv bv st hfq hfv hbq hbv stp hstp
    rcases fq with _ | ⟨fNode, fRest⟩
    · simp [bidirLoop] at hstp
    rcases bq with _ | ⟨bNode, bRest⟩
    · simp [bidirLoop] at hstp
    simp only [bidirLoop] at hstp
    have hfN : Reach4 g s fNode := hfq fNode (List.mem_cons_self fNode fRest)
    have hbN : Reach4 g e bNode := hbq bNode (List.mem_cons_self bNode bRest)
    by_cases hmeet : fNode ∈ bv
    · exact absurd (hfN.trans (reach4_rev hw hg (hbv fNode hmeet))) hne
    rw [if_neg hmeet] at hstp
    have hfv2 : ∀ p ∈ (List.foldl (bidirVisit fNode) (fRest, fv, st)
        (getNeighbors g fNode)).2.1, Reach4 g s p := by
      intro p hp
      rcases (bidirVisit_fold_mem fNode (getNeighbors g fNode)
          (fRest, fv, st) p).2 hp with h3 | h3
      · exact hfv p h3
      · exact Relation.ReflTransGen.tail hfN h3
    have hfq2 : ∀ p ∈ (List.foldl (bidirVisit fNode) (fRest, fv, st)
        (getNeighbors g fNode)).1, Reach4 g s p := by
      intro p hp
      rcases (bidirVisit_fold_mem fNode (getNeighbors g fNode)
          (fRest, fv, st) p).1 hp with h3 | h3
      · exact hfq p (List.mem_cons_of_mem fNode h3)
      · exact Relation.ReflTransGen.tail hfN h3
    by_cases hmeet2 : bNode ∈ (List.foldl (bidirVisit fNode) (fRest, fv, st)
        (getNeighbors g fNode)).2.1
    · exact absurd ((hfv2 bNode hmeet2).trans (reach4_rev hw hg hbN)) hne
    rw [if_neg hmeet2] at hstp
    rcases List.mem_cons.mp hstp with rfl | h2
    · rfl
    · refine ih _ _ _ _ _ hfq2 hfv2 ?_ ?_ stp h2
      · intro p hp
        rcases (bidirVisit_fold_mem bNode (getNeighbors g bNode)
            (bRest, bv, _) p).1 hp with h3 | h3
        · exact hbq p (List.mem_cons_of_mem bNode h3)
        · exact Relation.ReflTransGen.tail hbN h3
      · intro p hp
        rcases (bidirVisit_fold_mem bNode (getNeighbors g bNode)
            (bRest, bv, _) p).2 hp with h3 | h3
        · exact hbv p h3
        · exact Relation.ReflTransGen.tail hbN h3

end Pathfinding

namespace Pathfinding

/-- Bellman–Ford's reachability invariant: every node with a finite distance
or a set predecessor is reachable from the start. -/
def KInv (g : Grid) (s : Pos) (st : PState) : Prop :=
  ∀ p, (st.dist p ≠ ⊤ ∨ st.prev p ≠ none) → Reach4 g s p

theorem mem_bfEdges {g : Grid} {uv : Pos × Pos} (h : uv ∈ bfEdges g) :
    uv.2 ∈ getNeighbors g uv.1 := by
  unfold bfEdges at h
  rw [List.mem_flatten] at h
  obtain ⟨l, hl, hml⟩ := h
  rw [List.mem_map] at hl
  obtain ⟨p, hp, rfl⟩ := hl
  rw [List.mem_map] at hml
  obtain ⟨q, hq, rfl⟩ := hml
  exact hq

theorem bfRelaxStep_inv {g : Grid} {s : Pos} {acc : PState × Bool}
    {uv : Pos × Pos} (huv : uv.2 ∈ getNeighbors g uv.1)
    (hst : KInv g s acc.1) : KInv g s (bfRelaxStep acc uv).1 := by
  unfold bfRelaxStep
  by_cases h : acc.1.dist uv.1 + 1 < acc.1.dist uv.2
  · rw [if_pos h]
    intro p hp
    by_cases hpe : p = uv.2
    · subst hpe
      have h1 : acc.1.dist uv.1 ≠ ⊤ := by
        intro h2
        rw [h2, WithTop.top_add] at h
        exact absurd h (not_top_lt)
      exact Relation.ReflTransGen.tail (hst uv.1 (Or.inl h1)) huv
    · have hd : (setPrev (setDist acc.1 uv.2 (acc.1.dist uv.1 + 1)) uv.2
          (some uv.1)).dist p = acc.1.dist p := by
        unfold setPrev setDist
        dsimp only
        rw [if_neg hpe]
      have hpr : (setPrev (setDist acc.1 uv.2 (acc.1.dist uv.1 + 1)) uv.2
          (some uv.1)).prev p = acc.1.prev p := by
        unfold setPrev setDist
        dsimp only
        rw [if_neg hpe]
      rw [hd, hpr] at hp
      exact hst p hp
  · rw [if_neg h]
    exact hst

theorem foldl_bfRelaxStep_inv {g : Grid} {s : Pos} :
    ∀ (edges : List (Pos × Pos)),
      (∀ uv ∈ edges, uv.2 ∈ getNeighbors g uv.1) →
      ∀ (acc : PState × Bool), KInv g s acc.1 →
        KInv g s (edges.foldl bfRelaxStep acc).1
  | [], _, acc, hst => hst
  | uv :: t, hedges, acc, hst => by
    rw [List.foldl_cons]
    exact foldl_bfRelaxStep_inv t
      (fun w hw => hedges w (List.mem_cons_of_mem uv hw))
      (bfRelaxStep acc uv)
      (bfRelaxStep_inv (hedges uv (List.mem_cons_self uv t)) hst)

theorem bfLoop_inv {g : Grid} {s : Pos} {edges : List (Pos × Pos)}
    (hedges : ∀ uv ∈ edges, uv.2 ∈ getNeighbors g uv.1) :
    ∀ (k : Nat) (st : PState), KInv g s st → KInv g s (bfLoop edges k st)
  | 0, st, hst => hst
  | k + 1, st, hst => by
    rw [bfLoop]
    have hpass : KInv g s (bfRelaxPass edges st).1 :=
      foldl_bfRelaxStep_inv edges hedges (st, false) hst
    by_cases h : (bfRelaxPass edges st).2
    · rw [if_pos h]
      exact bfLoop_inv hedges k (bfRelaxPass edges st).1 hpass
    · rw [if_neg h]
      exact hpass

theorem getReversePath_of_prev_none {prev : Pos → Option Pos} {e : Pos}
    (fuel : Nat) (h : prev e = none) :
    getReversePath prev (fuel + 1) e = [e] := by
  unfold getReversePath
  rw [h]

/-- On a grid whose end is unreachable, `bellmanFord` either trips its
negative-cycle guard and returns an empty trace or pushes the single step
`⟨[end], [end]⟩` — whose path `[end]` is non-empty. -/
theorem bellmanFord_unreachable {g : Grid} {s e : Pos}
    (hs : findStart g = some s) (he : findEnd g = some e)
    (hne : ¬ Reach4 g s e) :
    bellmanFord g = [] ∨ bellmanFord g = [⟨[e], [e]⟩] := by
  unfold bellmanFord bellmanFordRun
  rw [hs, he]
  dsimp only
  have hinv : KInv g s (bfLoop (bfEdges g) ((allPositions g).length - 1)
      ⟨fun p => if p = s then 0 else ⊤, fun _ => none⟩) := by
    refine bfLoop_inv (fun uv huv => mem_bfEdges huv) _ _ ?_
    intro p hp
    rcases hp with hp | hp
    · dsimp only at hp
      by_cases hps : p = s
      · exact hps ▸ Relation.ReflTransGen.refl
      · rw [if_neg hps] at hp
        exact absurd rfl hp
    · exact absurd rfl hp
  set st2 := bfLoop (bfEdges g) ((allPositions g).length - 1)
    ⟨fun p => if p = s then 0 else ⊤, fun _ => none⟩ with hst2
  have hprev : st2.prev e = none := by
    by_cases h : st2.prev e = none
    · exact h
    · exact absurd (hinv e (Or.inr h)) hne
  by_cases hch : (bfEdges g).any (fun ed => decide (st2.dist ed.1 + 1 < st2.dist ed.2))
  · rw [if_pos hch]
    exact Or.inl rfl
  · rw [if_neg hch]
    refine Or.inr ?_
    have hrev : getReversePath st2.prev (pathFuel g) e = [e] :=
      getReversePath_of_prev_none (allPositions g).length hprev
    rw [hrev]
    unfold getPath
    rw [hrev]
    rfl

end Pathfinding

namespace Pathfinding

theorem mem_condMap {α β : Type} (C : α → Bool) (pos : α → β) :
    ∀ (l : List α) (q : β),
      q ∈ l.foldr (fun d acc => if C d then pos d :: acc else acc) [] ↔
        ∃ d, d ∈ l ∧ C d = true ∧ q = pos d := by
  intro l
  induction l with
  | nil =>
    intro q
    simp
  | cons d t ih =>
    intro q
    rw [List.foldr_cons]
    by_cases h : C d
    · rw [if_pos h]
      constructor
      · intro hm
        rcases List.mem_cons.mp hm with rfl | hm2
        · exact ⟨d, List.mem_cons_self d t, h, rfl⟩
        · obtain ⟨d2, hd2, hc2, hq2⟩ := (ih q).mp hm2
          exact ⟨d2, List.mem_cons_of_mem d hd2, hc2, hq2⟩
      · rintro ⟨d2, hd2, hc2, rfl⟩
        rcases List.mem_cons.mp hd2 with rfl | hd3
        · exact List.mem_cons_self _ _
        · exact List.mem_cons_of_mem (pos d) ((ih _).mpr ⟨d2, hd3, hc2, rfl⟩)
    · rw [if_neg h]
      constructor
      · intro hm
        obtain ⟨d2, hd2, hc2, hq2⟩ := (ih q).mp hm
        exact ⟨d2, List.mem_cons_of_mem d hd2, hc2, hq2⟩
      · rintro ⟨d2, hd2, hc2, rfl⟩
        rcases List.mem_cons.mp hd2 with rfl | hd3
        · exact absurd hc2 h
        · exact (ih _).mpr ⟨d2, hd3, hc2, rfl⟩

theorem mem_getDiagonalNeighbors_iff {g : Grid} {p q : Pos} :
    q ∈ getDiagonalNeighbors g p ↔ ∃ d, d ∈ dirs8 ∧
      (inBounds g ((p.1 : Int) + d.1) ((p.2 : Int) + d.2) &&
        !(cellAt g (((p.1 : Int) + d.1).toNat,
          ((p.2 : Int) + d.2).toNat)).isWall) = true ∧
      q = (((p.1 : Int) + d.1).toNat, ((p.2 : Int) + d.2).toNat) := by
  unfold getDiagonalNeighbors
  exact mem_condMap
    (fun d => inBounds g ((p.1 : Int) + d.1) ((p.2 : Int) + d.2) &&
      !(cellAt g (((p.1 : Int) + d.1).toNat,
        ((p.2 : Int) + d.2).toNat)).isWall)
    (fun d => (((p.1 : Int) + d.1).toNat, ((p.2 : Int) + d.2).toNat))
    dirs8 q

theorem inBounds_iff {g : Grid} {r c : Int} :
    inBounds g r c = true ↔
      0 ≤ r ∧ r < (rows g : Int) ∧ 0 ≤ c ∧ c < (cols g : Int) := by
  unfold inBounds
  simp [Bool.and_eq_true, and_assoc]

/-- The direction from a cell to one of its diagonal neighbors is one of the
8 unit directions. -/
theorem dir_mem_dirs8_of_diag {g : Grid} {cur n : Pos}
    (h : n ∈ getDiagonalNeighbors g cur) :
    ((n.1 : Int) - cur.1, (n.2 : Int) - cur.2) ∈ dirs8 := by
  obtain ⟨d, hd, hc, rfl⟩ := mem_getDiagonalNeighbors_iff.mp h
  rw [Bool.and_eq_true] at hc
  obtain ⟨hb, -⟩ := hc
  obtain ⟨h1, h2, h3, h4⟩ := inBounds_iff.mp hb
  have e1 : ((((cur.1 : Int) + d.1).toNat : Int)) = (cur.1 : Int) + d.1 :=
    Int.toNat_of_nonneg h1
  have e2 : ((((cur.2 : Int) + d.2).toNat : Int)) = (cur.2 : Int) + d.2 :=
    Int.toNat_of_nonneg h3
  have : ((((cur.1 : Int) + d.1).toNat, ((cur.2 : Int) + d.2).toNat) : Pos) =
      (((cur.1 : Int) + d.1).toNat, ((cur.2 : Int) + d.2).toNat) := rfl
  show ((((cur.1 : Int) + d.1).toNat : Int) - cur.1,
    ((((cur.2 : Int) + d.2).toNat : Int)) - cur.2) ∈ dirs8
  rw [e1, e2]
  have e3 : (cur.1 : Int) + d.1 - cur.1 = d.1 := by ring
  have e4 : (cur.2 : Int) + d.2 - cur.2 = d.2 := by ring
  rw [e3, e4]
  exact hd

end Pathfinding

namespace Pathfinding

/-- The step taken inside `findJumpPoint` is an 8-neighbor step. -/
theorem adj8_of_jump_step {g : Grid} {cur : Pos} {dir : Int × Int}
    (hdir : dir ∈ dirs8)
    (hb : inBounds g ((cur.1 : Int) + dir.1) ((cur.2 : Int) + dir.2) = true)
    (hw : (cellAt g (((cur.1 : Int) + dir.1).toNat,
      ((cur.2 : Int) + dir.2).toNat)).isWall = false) :
    ((((cur.1 : Int) + dir.1).toNat, ((cur.2 : Int) + dir.2).toNat) : Pos) ∈
      getDiagonalNeighbors g cur := by
  refine mem_getDiagonalNeighbors_iff.mpr ⟨dir, hdir, ?_, rfl⟩
  rw [Bool.and_eq_true]
  exact ⟨hb, by rw [hw]; rfl⟩

/-- `findJumpPoint` only adds nodes reachable from the start to the open
set, and any jump point it returns is reachable from the start. -/
theorem findJumpPoint_spec {g : Grid} {s ePos : Pos} {dir : Int × Int}
    (hdir : dir ∈ dirs8) :
    ∀ (fuel : Nat) (cur : Pos) (st : PState) (os : List Pos),
      Reach8 g s cur → (∀ p ∈ os, Reach8 g s p) →
      (∀ q ∈ (findJumpPoint g ePos dir fuel cur st os).2.2, Reach8 g s q) ∧
      (∀ jp, (findJumpPoint g ePos dir fuel cur st os).1 = some jp →
        Reach8 g s jp) := by
  intro fuel
  induction fuel with
  | zero =>
    intro cur st os hcur hos
    exact ⟨hos, fun jp h => absurd h (by simp [findJumpPoint])⟩
  | succ fuel ih =>
    intro cur st os hcur hos
    rw [findJumpPoint]
    by_cases hc : (!(inBounds g ((cur.1 : Int) + dir.1) ((cur.2 : Int) + dir.2)) ||
        (cellAt g (((cur.1 : Int) + dir.1).toNat,
          ((cur.2 : Int) + dir.2).toNat)).isWall) = true
    · rw [if_pos hc]
      exact ⟨hos, fun jp h => absurd h (by simp)⟩
    · rw [if_neg hc]
      have hc2 := hc
      rw [Bool.or_eq_true] at hc2
      push_neg at hc2
      have hb : inBounds g ((cur.1 : Int) + dir.1) ((cur.2 : Int) + dir.2) = true := by
        simpa using hc2.1
      have hw : (cellAt g (((cur.1 : Int) + dir.1).toNat,
          ((cur.2 : Int) + dir.2).toNat)).isWall = false := by
        simpa using hc2.2
      have hnext : Reach8 g s
          ((((cur.1 : Int) + dir.1).toNat, ((cur.2 : Int) + dir.2).toNat) : Pos) :=
        Relation.ReflTransGen.tail hcur (adj8_of_jump_step hdir hb hw)
      dsimp only
      by_cases he : ((((cur.1 : Int) + dir.1).toNat,
          ((cur.2 : Int) + dir.2).toNat) : Pos) = ePos
      · rw [if_pos he]
        exact ⟨hos, fun jp h => (Option.some.inj h) ▸ hnext⟩
      · rw [if_neg he]
        by_cases hf : jpForced g dir ((cur.1 : Int) + dir.1) ((cur.2 : Int) + dir.2)
        · rw [if_pos hf]
          exact ⟨hos, fun jp h => (Option.some.inj h) ▸ hnext⟩
        · rw [if_neg hf]
          obtain ⟨iha, ihb⟩ := ih
            ((((cur.1 : Int) + dir.1).toNat, ((cur.2 : Int) + dir.2).toNat) : Pos)
            st os hnext hos
          rcases hr : (findJumpPoint g ePos dir fuel
              ((((cur.1 : Int) + dir.1).toNat, ((cur.2 : Int) + dir.2).toNat) : Pos)
              st os).1 with _ | jp
          · dsimp only
            refine ⟨iha, fun jp2 h => absurd h (by simp)⟩
          · dsimp only
            have hjp : Reach8 g s jp := ihb jp hr
            by_cases hd2 : (findJumpPoint g ePos dir fuel
                ((((cur.1 : Int) + dir.1).toNat, ((cur.2 : Int) + dir.2).toNat) : Pos)
                st os).2.1.dist
                ((((cur.1 : Int) + dir.1).toNat, ((cur.2 : Int) + dir.2).toNat) : Pos) +
                (getDistance ((((cur.1 : Int) + dir.1).toNat,
                  ((cur.2 : Int) + dir.2).toNat) : Pos) jp : WithTop Nat) <
                (findJumpPoint g ePos dir fuel
                  ((((cur.1 : Int) + dir.1).toNat, ((cur.2 : Int) + dir.2).toNat) : Pos)
                  st os).2.1.dist jp
            · rw [if_pos hd2]
              refine ⟨?_, fun jp2 h => absurd h (by simp)⟩
              intro q hq
              by_cases hjm : jp ∈ (findJumpPoint g ePos dir fuel
                  ((((cur.1 : Int) + dir.1).toNat, ((cur.2 : Int) + dir.2).toNat) : Pos)
                  st os).2.2
              · rw [if_pos hjm] at hq
                exact iha q hq
              · rw [if_neg hjm] at hq
                rcases List.mem_append.mp hq with h3 | h3
                · exact iha q h3
                · exact (List.mem_singleton.mp h3) ▸ hjp
            · rw [if_neg hd2]
              exact ⟨iha, fun jp2 h => absurd h (by simp)⟩

end Pathfinding

namespace Pathfinding

/-- The open set after the jump-point neighbor fold only holds nodes
reachable from the start. -/
theorem foldl_jpsVisit_reach {g : Grid} {s ePos cur : Pos} {closed : List Pos}
    (hcur : Reach8 g s cur) :
    ∀ (ns : List Pos), (∀ n ∈ ns, n ∈ getDiagonalNeighbors g cur) →
      ∀ (acc : List Pos × PState), (∀ p ∈ acc.1, Reach8 g s p) →
        ∀ q ∈ (ns.foldl (jpsVisit g ePos cur closed) acc).1, Reach8 g s q
  | [], _, acc, hacc => hacc
  | n :: t, hns, acc, hacc => by
    rw [List.foldl_cons]
    refine foldl_jpsVisit_reach hcur t
      (fun m hm => hns m (List.mem_cons_of_mem n hm))
      (jpsVisit g ePos cur closed acc n) ?_
    intro q hq
    unfold jpsVisit at hq
    by_cases h1 : n ∈ closed
    · rw [if_pos h1] at hq
      exact hacc q hq
    · rw [if_neg h1] at hq
      have hdir : (((n.1 : Int) - cur.1, (n.2 : Int) - cur.2) : Int × Int) ∈ dirs8 :=
        dir_mem_dirs8_of_diag (hns n (List.mem_cons_self n t))
      obtain ⟨fja, fjb⟩ := findJumpPoint_spec hdir (jumpFuel g) cur acc.2 acc.1
        hcur hacc
      dsimp only at hq
      rcases hr : (findJumpPoint g ePos ((n.1 : Int) - cur.1, (n.2 : Int) - cur.2)
          (jumpFuel g) cur acc.2 acc.1).1 with _ | jp
      · rw [hr] at hq
        dsimp only at hq
        exact fja q hq
      · rw [hr] at hq
        dsimp only at hq
        have hjp : Reach8 g s jp := fjb jp hr
        by_cases hd2 : (findJumpPoint g ePos ((n.1 : Int) - cur.1, (n.2 : Int) - cur.2)
            (jumpFuel g) cur acc.2 acc.1).2.1.dist cur +
            (getDistance cur jp : WithTop Nat) <
            (findJumpPoint g ePos ((n.1 : Int) - cur.1, (n.2 : Int) - cur.2)
              (jumpFuel g) cur acc.2 acc.1).2.1.dist jp
        · rw [if_pos hd2] at hq
          dsimp only at hq
          by_cases hjm : jp ∈ (findJumpPoint g ePos
              ((n.1 : Int) - cur.1, (n.2 : Int) - cur.2)
              (jumpFuel g) cur acc.2 acc.1).2.2
          · rw [if_pos hjm] at hq
            exact fja q hq
          · rw [if_neg hjm] at hq
            rcases List.mem_append.mp hq with h3 | h3
            · exact fja q h3
            · exact (List.mem_singleton.mp h3) ▸ hjp
        · rw [if_neg hd2] at hq
          exact fja q hq

/-- Every step the jump point search loop emits on an (8-neighbor)
unreachable end carries an empty path. -/
theorem jpsLoop_path_empty {g : Grid} {s e : Pos} (hne : ¬ Reach8 g s e) :
    ∀ (fuel : Nat) (openSet closed : List Pos) (st : PState),
      (∀ p ∈ openSet, Reach8 g s p) →
      ∀ stp ∈ (jpsLoop g e fuel openSet closed st).1, stp.path = [] := by
  intro fuel
  induction fuel with
  | zero =>
    intro openSet closed st hq stp hstp
    exact absurd hstp (List.not_mem_nil stp)
  | succ fuel ih =>
    intro openSet closed st hq stp hstp
    rw [jpsLoop] at hstp
    rcases hsk : sortByKey (fun p => st.dist p + (getDistance p e : WithTop Nat))
        openSet with _ | ⟨cur, rest⟩
    · rw [hsk] at hstp
      exact absurd hstp (List.not_mem_nil stp)
    · rw [hsk] at hstp
      dsimp only at hstp
      have hcur : cur ∈ openSet :=
        mem_of_mem_sortByKey (hsk ▸ List.mem_cons_self cur rest)
      have hrest : ∀ p ∈ rest, p ∈ openSet := fun p hp =>
        mem_of_mem_sortByKey (hsk ▸ List.mem_cons_of_mem cur hp)
      by_cases hce : cur = e
      · rw [if_pos hce] at hstp
        exact absurd (hce ▸ hq cur hcur) hne
      · rw [if_neg hce] at hstp
        rcases List.mem_cons.mp hstp with rfl | h2
        · rfl
        · refine ih _ _ _ ?_ stp h2
          exact foldl_jpsVisit_reach (hq cur hcur) (getDiagonalNeighbors g cur)
            (fun n hn => hn) (rest, st) (fun p hp => hq p (hrest p hp))

end Pathfinding

namespace Pathfinding

/-- 1×2 grid with an end cell but no start cell. -/
def noStartGrid : Grid :=
  [[⟨false, false, false, ⊤, none⟩, ⟨false, false, true, ⊤, none⟩]]

/-- In `walledGrid` the end is not 4-reachable from the start: `{(0,0)}` is
closed under `getNeighbors`. -/
theorem walled_unreach4 : ¬ Reach4 walledGrid (0, 0) (0, 2) := by
  intro h
  exact absurd
    (@reach4_mem_closed walledGrid [(0, 0)] (0, 0) (0, 2)
      (by decide) (by decide) h)
    (by decide)

/-- In `walledGrid` the end is not even 8-reachable from the start. -/
theorem walled_unreach8 : ¬ Reach8 walledGrid (0, 0) (0, 2) := by
  intro h
  exact absurd
    (@reach8_mem_closed walledGrid [(0, 0)] (0, 0) (0, 2)
      (by decide) (by decide) h)
    (by decide)

/-- The dijkstra relaxation never changes the start node's zero distance
(nothing is below 0). -/
theorem relaxDijkstra_dist_zero {s cur n : Pos} {st : PState}
    (h : st.dist s = 0) : (relaxDijkstra cur st n).dist s = 0 := by
  unfold relaxDijkstra
  by_cases hc : st.dist cur + 1 < st.dist n
  · rw [if_pos hc]
    unfold setPrev setDist
    dsimp only
    by_cases hsn : s = n
    · subst hsn
      rw [h] at hc
      exact absurd hc (not_lt_of_le (zero_le _))
    · rw [if_neg hsn]
      exact h
  · rw [if_neg hc]
    exact h

theorem foldl_relaxDijkstra_dist_zero {s cur : Pos} :
    ∀ (ns : List Pos) (st : PState), st.dist s = 0 →
      (ns.foldl (relaxDijkstra cur) st).dist s = 0
  | [], _, h => h
  | n :: t, st, h => by
    rw [List.foldl_cons]
    exact foldl_relaxDijkstra_dist_zero t (relaxDijkstra cur st n)
      (relaxDijkstra_dist_zero h)

/-- The dijkstra loop leaves the start node's distance at 0 in the final
state. -/
theorem dijkstraLoop_dist_zero {g : Grid} {e s : Pos} :
    ∀ (fuel : Nat) (unvisited : List Pos) (st : PState), st.dist s = 0 →
      (dijkstraLoop g e fuel unvisited st).2.dist s = 0 := by
  intro fuel
  induction fuel with
  | zero =>
    intro unvisited st h
    exact h
  | succ fuel ih =>
    intro unvisited st h
    rw [dijkstraLoop]
    rcases hsk : sortByKey st.dist unvisited with _ | ⟨cur, rest⟩
    · exact h
    · dsimp only
      by_cases htop : st.dist cur = ⊤
      · rw [if_pos htop]
        exact h
      · rw [if_neg htop]
        by_cases hce : cur = e
        · rw [if_pos hce]
          exact h
        · rw [if_neg hce]
          exact ih rest _ (foldl_relaxDijkstra_dist_zero (getNeighbors g cur) st h)

end Pathfinding

/-- **C3** (amended): on a grid with a start and an end where the end is
unreachable, dijkstra, astar, bfs, dfs and greedyBestFirst emit only
empty-path steps; so does bidirectionalSearch when the end cell is a
non-wall cell inside the grid, and jumpPointSearch when the end is not even
8-neighbor-reachable. `bellmanFord` however does NOT follow the claim: it
returns either an empty trace (if its negative-cycle guard fires) or a
single step whose path is the non-empty `[end]`. -/
theorem C3_unreachable_end_paths (g : Pathfinding.Grid) (s e : Pathfinding.Pos)
    (hs : Pathfinding.findStart g = some s)
    (he : Pathfinding.findEnd g = some e) :
    (¬ Pathfinding.Reach4 g s e →
      (∀ stp ∈ Pathfinding.dijkstra g, stp.path = []) ∧
      (∀ stp ∈ Pathfinding.astar g, stp.path = []) ∧
      (∀ stp ∈ Pathfinding.bfs g, stp.path = []) ∧
      (∀ stp ∈ Pathfinding.dfs g, stp.path = []) ∧
      (∀ stp ∈ Pathfinding.greedyBestFirst g, stp.path = []) ∧
      ((Pathfinding.cellAt g e).isWall = false → Pathfinding.inGrid g e →
        ∀ stp ∈ Pathfinding.bidirectionalSearch g, stp.path = []) ∧
      (Pathfinding.bellmanFord g = [] ∨
        Pathfinding.bellmanFord g = [⟨[e], [e]⟩])) ∧
    (¬ Pathfinding.Reach8 g s e →
      ∀ stp ∈ Pathfinding.jumpPointSearch g, stp.path = []) := by
  constructor
  · intro hne
    refine ⟨?_, ?_, ?_, ?_, ?_, ?_, ?_⟩
    · unfold Pathfinding.dijkstra Pathfinding.dijkstraRun
      rw [hs, he]
      dsimp only
      refine Pathfinding.dijkstraLoop_path_empty hne _ _ _ ?_
      intro p hp
      dsimp only at hp
      by_cases hps : p = s
      · exact hps ▸ Relation.ReflTransGen.refl
      · rw [if_neg hps] at hp
        exact absurd rfl hp
    · unfold Pathfinding.astar Pathfinding.astarRun
      rw [hs, he]
      dsimp only
      refine Pathfinding.astarLoop_path_empty hne _ _ _ _ ?_
      intro p hp
      rw [List.mem_singleton.mp hp]
      exact Relation.ReflTransGen.refl
    · unfold Pathfinding.bfs Pathfinding.bfsRun
      rw [hs, he]
      dsimp only
      refine Pathfinding.bfsLoop_path_empty hne _ _ _ _ ?_
      intro p hp
      rw [List.mem_singleton.mp hp]
      exact Relation.ReflTransGen.refl
    · unfold Pathfinding.dfs Pathfinding.dfsRun
      rw [hs, he]
      dsimp only
      refine Pathfinding.dfsLoop_path_empty hne _ _ _ _ ?_
      intro p hp
      rw [List.mem_singleton.mp hp]
      exact Relation.ReflTransGen.refl
    · unfold Pathfinding.greedyBestFirst Pathfinding.greedyBestFirstRun
      rw [hs, he]
      dsimp only
      refine Pathfinding.greedyLoop_path_empty hne _ _ _ _ ?_
      intro p hp
      rw [List.mem_singleton.mp hp]
      exact Relation.ReflTransGen.refl
    · intro hw hg
      unfold Pathfinding.bidirectionalSearch Pathfinding.bidirectionalSearchRun
      rw [hs, he]
      dsimp only
      refine Pathfinding.bidirLoop_path_empty hne hw hg _ _ _ _ _ _ ?_ ?_ ?_ ?_
      · intro p hp
        rw [List.mem_singleton.mp hp]
        exact Relation.ReflTransGen.refl
      · intro p hp
        rw [List.mem_singleton.mp hp]
        exact Relation.ReflTransGen.refl
      · intro p hp
        rw [List.mem_singleton.mp hp]
        exact Relation.ReflTransGen.refl
      · intro p hp
        rw [List.mem_singleton.mp hp]
        exact Relation.ReflTransGen.refl
    · exact Pathfinding.bellmanFord_unreachable hs he hne
  · intro hne8
    unfold Pathfinding.jumpPointSearch Pathfinding.jumpPointSearchRun
    rw [hs, he]
    dsimp only
    by_cases hr1 : (Pathfinding.jpsLoop g e (Pathfinding.jpsTotalFuel g) [s] []
        ⟨fun p => if p = s then 0 else ⊤, fun _ => none⟩).1 = []
    · rw [if_pos hr1]
      intro stp hstp
      rw [List.mem_singleton.mp hstp]
    · rw [if_neg hr1]
      refine Pathfinding.jpsLoop_path_empty hne8 _ _ _ _ ?_
      intro p hp
      rw [List.mem_singleton.mp hp]
      exact Relation.ReflTransGen.refl

/-- Witness for the amended C3 at `walledGrid` (start `(0,0)`, wall, end
`(0,2)`): the seven searches emit only empty-path steps, while bellmanFord
produces the step `⟨[(0,2)], [(0,2)]⟩`. -/
theorem C3_unreachable_end_paths_witness :
    (∀ stp ∈ Pathfinding.dijkstra Pathfinding.walledGrid, stp.path = []) ∧
    (∀ stp ∈ Pathfinding.astar Pathfinding.walledGrid, stp.path = []) ∧
    (∀ stp ∈ Pathfinding.bfs Pathfinding.walledGrid, stp.path = []) ∧
    (∀ stp ∈ Pathfinding.dfs Pathfinding.walledGrid, stp.path = []) ∧
    (∀ stp ∈ Pathfinding.greedyBestFirst Pathfinding.walledGrid, stp.path = []) ∧
    (∀ stp ∈ Pathfinding.bidirectionalSearch Pathfinding.walledGrid,
      stp.path = []) ∧
    (Pathfinding.bellmanFord Pathfinding.walledGrid = [] ∨
      Pathfinding.bellmanFord Pathfinding.walledGrid = [⟨[(0, 2)], [(0, 2)]⟩]) ∧
    (∀ stp ∈ Pathfinding.jumpPointSearch Pathfinding.walledGrid, stp.path = []) := by
  have h := C3_unreachable_end_paths Pathfinding.walledGrid (0, 0) (0, 2)
    (by decide) (by decide)
  have h4 := h.1 Pathfinding.walled_unreach4
  exact ⟨h4.1, h4.2.1, h4.2.2.1, h4.2.2.2.1, h4.2.2.2.2.1,
    h4.2.2.2.2.2.1 (by decide) ⟨by decide, by decide⟩,
    h4.2.2.2.2.2.2, h.2 Pathfinding.walled_unreach8⟩

/-- **C3** counterexample: on `walledGrid` (end walled off) `bellmanFord`
pushes a step whose path `[(0,2)]` is non-empty, so "no Step carries a
non-empty path" fails. -/
theorem C3_bellmanFord_pushes_path :
    ¬ (∀ stp ∈ Pathfinding.bellmanFord Pathfinding.walledGrid,
      stp.path = []) := by
  decide

/-- **C4** (amended): when the grid has no start cell or no end cell, every
pathfinding algorithm returns an empty trace. (A grid with MORE than one
start or end cell does not yield an empty trace: the algorithms simply use
the first matching cell — see the counterexample.) -/
theorem C4_missing_start_or_end_empty (g : Pathfinding.Grid)
    (h : Pathfinding.findStart g = none ∨ Pathfinding.findEnd g = none) :
    Pathfinding.dijkstra g = [] ∧ Pathfinding.astar g = [] ∧
    Pathfinding.bfs g = [] ∧ Pathfinding.dfs g = [] ∧
    Pathfinding.greedyBestFirst g = [] ∧
    Pathfinding.bidirectionalSearch g = [] ∧
    Pathfinding.jumpPointSearch g = [] ∧ Pathfinding.bellmanFord g = [] := by
  rcases hfs : Pathfinding.findStart g with _ | s
  · exact ⟨by simp [Pathfinding.dijkstra, Pathfinding.dijkstraRun, hfs],
      by simp [Pathfinding.astar, Pathfinding.astarRun, hfs],
      by simp [Pathfinding.bfs, Pathfinding.bfsRun, hfs],
      by simp [Pathfinding.dfs, Pathfinding.dfsRun, hfs],
      by simp [Pathfinding.greedyBestFirst, Pathfinding.greedyBestFirstRun, hfs],
      by simp [Pathfinding.bidirectionalSearch,
        Pathfinding.bidirectionalSearchRun, hfs],
      by simp [Pathfinding.jumpPointSearch, Pathfinding.jumpPointSearchRun, hfs],
      by simp [Pathfinding.bellmanFord, Pathfinding.bellmanFordRun, hfs]⟩
  · have he : Pathfinding.findEnd g = none := by
      rcases h with h | h
      · rw [hfs] at h
        exact absurd h (by simp)
      · exact h
    exact ⟨by simp [Pathfinding.dijkstra, Pathfinding.dijkstraRun, hfs, he],
      by simp [Pathfinding.astar, Pathfinding.astarRun, hfs, he],
      by simp [Pathfinding.bfs, Pathfinding.bfsRun, hfs, he],
      by simp [Pathfinding.dfs, Pathfinding.dfsRun, hfs, he],
      by simp [Pathfinding.greedyBestFirst, Pathfinding.greedyBestFirstRun,
        hfs, he],
      by simp [Pathfinding.bidirectionalSearch,
        Pathfinding.bidirectionalSearchRun, hfs, he],
      by simp [Pathfinding.jumpPointSearch, Pathfinding.jumpPointSearchRun,
        hfs, he],
      by simp [Pathfinding.bellmanFord, Pathfinding.bellmanFordRun, hfs, he]⟩

/-- Witness for the amended C4 at a 1×2 grid with no start cell. -/
theorem C4_missing_start_or_end_empty_witness :
    Pathfinding.dijkstra Pathfinding.noStartGrid = [] ∧
    Pathfinding.astar Pathfinding.noStartGrid = [] ∧
    Pathfinding.bfs Pathfinding.noStartGrid = [] ∧
    Pathfinding.dfs Pathfinding.noStartGrid = [] ∧
    Pathfinding.greedyBestFirst Pathfinding.noStartGrid = [] ∧
    Pathfinding.bidirectionalSearch Pathfinding.noStartGrid = [] ∧
    Pathfinding.jumpPointSearch Pathfinding.noStartGrid = [] ∧
    Pathfinding.bellmanFord Pathfinding.noStartGrid = [] :=
  C4_missing_start_or_end_empty Pathfinding.noStartGrid (Or.inl (by decide))

/-- **C4** counterexample: a grid with TWO start cells violates the
exactly-one-start requirement, yet bfs returns a non-empty trace (it just
uses the first start found). -/
theorem C4_two_starts_nonempty :
    Pathfinding.bfs Pathfinding.twoStartGrid ≠ [] := by
  decide

/-- **C5** (amended): on the two-cell grid (either orientation) bfs returns
exactly TWO steps, not one: first an exploration step with
`visited = [start]` and an empty path, then the end step with
`visited = [end]` and `path = [start, end]`. -/
theorem C5_two_cell_bfs_trace :
    Pathfinding.bfs Pathfinding.twoCellGrid =
      [⟨[(0, 0)], []⟩, ⟨[(0, 1)], [(0, 0), (0, 1)]⟩] ∧
    Pathfinding.bfs Pathfinding.vertCellGrid =
      [⟨[(0, 0)], []⟩, ⟨[(1, 0)], [(0, 0), (1, 0)]⟩] := by
  exact ⟨by decide, by decide⟩

/-- **C5** counterexample: the trace has two steps, not exactly one. -/
theorem C5_two_cell_bfs_not_one_step :
    (Pathfinding.bfs Pathfinding.twoCellGrid).length ≠ 1 := by
  decide

/-- **C6** (amended): the pathfinding algorithms do NOT operate on a copy:
dijkstra overwrites the `distance`/`previousNode` fields of the caller's
grid in place, leaving the start node's distance at 0 — observably different
from the caller's value whenever that value was not 0 (the app's grids hold
`Infinity`). The sorting algorithms do copy (`const arr = [...array]`);
their model is pure. -/
theorem C6_dijkstra_mutates_grid (g : Pathfinding.Grid) (s e : Pathfinding.Pos)
    (hs : Pathfinding.findStart g = some s)
    (he : Pathfinding.findEnd g = some e) :
    (Pathfinding.dijkstraRun g).2.dist s = 0 ∧
    ((Pathfinding.stateOf g).dist s ≠ 0 →
      (Pathfinding.dijkstraRun g).2.dist s ≠ (Pathfinding.stateOf g).dist s) := by
  have h1 : (Pathfinding.dijkstraRun g).2.dist s = 0 := by
    unfold Pathfinding.dijkstraRun
    rw [hs, he]
    dsimp only
    refine Pathfinding.dijkstraLoop_dist_zero _ _ _ ?_
    dsimp only
    rw [if_pos rfl]
  refine ⟨h1, ?_⟩
  intro hne h2
  rw [h1] at h2
  exact hne h2.symm

/-- Witness for the amended C6 at the two-cell grid: the caller's grid held
distance `Infinity` at the start cell, the run leaves 0 there. -/
theorem C6_dijkstra_mutates_grid_witness :
    (Pathfinding.dijkstraRun Pathfinding.twoCellGrid).2.dist (0, 0) = 0 ∧
    (Pathfinding.dijkstraRun Pathfinding.twoCellGrid).2.dist (0, 0) ≠
      (Pathfinding.stateOf Pathfinding.twoCellGrid).dist (0, 0) :=
  ⟨(C6_dijkstra_mutates_grid Pathfinding.twoCellGrid (0, 0) (0, 1)
      (by decide) (by decide)).1,
   (C6_dijkstra_mutates_grid Pathfinding.twoCellGrid (0, 0) (0, 1)
      (by decide) (by decide)).2 (by decide)⟩

/-- **C6** counterexample: after `dijkstra` runs on the app-style two-cell
grid, the caller's start cell no longer holds its original `Infinity`
distance — the input grid was mutated, not copied. -/
theorem C6_input_state_changed :
    (Pathfinding.dijkstraRun Pathfinding.twoCellGrid).2.dist (0, 0) ≠
      (Pathfinding.stateOf Pathfinding.twoCellGrid).dist (0, 0) := by
  decide

/-- **C8**: on the two-cell grid the meeting node is the end cell, and
because both frontiers share the single `previousNode` field, `getPath` and
`getReversePath` walk the SAME chain: the final step's path is
`[start, end, start]` — not a start-to-end path, and the meeting node's
"duplicate removal" still leaves the start duplicated. The step also lists
the end cell twice in `visited`. -/
theorem C8_bidirectional_duplicated_path :
    Pathfinding.bidirectionalSearch Pathfinding.twoCellGrid =
      [⟨[(0, 0), (0, 1), (0, 1)], [(0, 0), (0, 1), (0, 0)]⟩] ∧
    ¬ ([((0, 0) : Pathfinding.Pos), (0, 1), (0, 0)]).Nodup := by
  exact ⟨by decide, by decide⟩

namespace GraphAlg

/-- `GraphNode` of graph.ts (`x`/`y` are layout data the algorithms never
read). -/
structure GraphNode where
  id : String
deriving DecidableEq, Repr

/-- `GraphEdge` of graph.ts. -/
structure GraphEdge where
  source : String
  target : String
  weight : Int
deriving DecidableEq, Repr

/-- `Graph` of graph.ts. -/
structure Graph where
  nodes : List GraphNode
  edges : List GraphEdge
deriving DecidableEq, Repr

/-- `Step` of graph.ts. The floydWarshall `distances` object
(`Object.fromEntries`) is modelled as its entry list in insertion order
(keys are unique when node ids are). -/
structure GStep where
  visitedNodes : List String
  visitedEdges : List GraphEdge
  mst : Option (List GraphEdge)
  distances : Option (List (String × WithTop Int))
deriving DecidableEq, Repr

/-- Stable insertion for the edge sort. -/
def insertEdge (e : GraphEdge) : List GraphEdge → List GraphEdge
  | [] => [e]
  | f :: t => if e.weight ≤ f.weight then e :: f :: t else f :: insertEdge e t

/-- `[...graph.edges].sort((a, b) => a.weight - b.weight)`: a stable sort by
weight. -/
def sortEdges : List GraphEdge → List GraphEdge
  | [] => []
  | e :: t => insertEdge e (sortEdges t)

/-- `DisjointSet` of graph.ts: the `parent` and `rank` string-keyed objects.
`makeSet` gives every node id `parent = itself`, `rank = 0`; the theorems'
hypotheses keep every queried key inside the node-id set, so the initial
maps are modelled as the identity and the zero function on all strings. -/
structure DisjointSet where
  parent : String → String
  rank : String → Nat

/-- `find` of graph.ts with path compression. `fuel` bounds the recursion
depth (the source recurses along the parent chain, which stays shorter than
the number of nodes; the call sites pass `nodes.length + 1`). -/
def dsuFind (ds : DisjointSet) : Nat → String → String × DisjointSet
  | 0, v => (ds.parent v, ds)
  | fuel + 1, v =>
    if ds.parent v = v then (v, ds)
    else
      let r := dsuFind ds fuel (ds.parent v)
      ((r.1, ⟨fun w => if w = v then r.1 else r.2.parent w, r.2.rank⟩) :
        String × DisjointSet)

/-- `union` of graph.ts: two `find`s (with their compressions), then union by
rank; on a rank tie `parent[root2] = root1` and `rank[root1]++`. -/
def dsuUnion (ds : DisjointSet) (fuel : Nat) (v1 v2 : String) : DisjointSet :=
  let r1 := dsuFind ds fuel v1
  let r2 := dsuFind r1.2 fuel v2
  let ds2 := r2.2
  if r1.1 ≠ r2.1 then
    if ds2.rank r1.1 < ds2.rank r2.1 then
      ⟨fun w => if w = r1.1 then r2.1 else ds2.parent w, ds2.rank⟩
    else if ds2.rank r2.1 < ds2.rank r1.1 then
      ⟨fun w => if w = r2.1 then r1.1 else ds2.parent w, ds2.rank⟩
    else
      ⟨fun w => if w = r2.1 then r1.1 else ds2.parent w,
        fun w => if w = r1.1 then ds2.rank r1.1 + 1 else ds2.rank w⟩
  else ds2

/-- The `for (const edge of sortedEdges)` loop of `kruskal`: one step per
edge with the MST-so-far, a second step after a union. -/
def kruskalLoop (fuel : Nat) :
    DisjointSet → List GraphEdge → List GraphEdge →
      List GStep × List GraphEdge × DisjointSet
  | ds, mst, [] => ([], mst, ds)
  | ds, mst, e :: rest =>
    let r1 := dsuFind ds fuel e.source
    let r2 := dsuFind r1.2 fuel e.target
    let s1 : GStep := ⟨[e.source, e.target], [e], some mst, none⟩
    if r1.1 ≠ r2.1 then
      let ds3 := dsuUnion r2.2 fuel e.source e.target
      let mst2 := mst ++ [e]
      let s2 : GStep := ⟨[e.source, e.target], [e], some mst2, none⟩
      let res := kruskalLoop fuel ds3 mst2 rest
      (s1 :: s2 :: res.1, res.2)
    else
      let res := kruskalLoop fuel r2.2 mst rest
      (s1 :: res.1, res.2)

/-- `kruskal` of graph.ts: the step trace, the final MST and the final
disjoint-set state. -/
def kruskalRun (g : Graph) : List GStep × List GraphEdge × DisjointSet :=
  kruskalLoop (g.nodes.length + 1) ⟨fun v => v, fun _ => 0⟩ []
    (sortEdges g.edges)

/-- The step trace `kruskal` returns. -/
def kruskal (g : Graph) : List GStep := (kruskalRun g).1

/-- The MST edge list `kruskal` builds. -/
def kruskalMst (g : Graph) : List GraphEdge := (kruskalRun g).2.1

/-- The floydWarshall distance matrix, keyed by node ids. -/
abbrev DistMat := String → String → WithTop Int

/-- The initial distance matrix of `floydWarshall`: 0 on the diagonal, the
first matching edge's weight (in either direction), `Infinity` otherwise. -/
def fwInit (g : Graph) : DistMat := fun i j =>
  if i = j then 0
  else
    match g.edges.find? (fun e => (e.source == i && e.target == j) ||
        (e.source == j && e.target == i)) with
    | some e => (e.weight : WithTop Int)
    | none => ⊤

/-- The `distances` snapshot a floydWarshall step carries:
`${source.id}->${target.id}` keys over all node pairs in node order. -/
def fwSnapshot (g : Graph) (d : DistMat) : List (String × WithTop Int) :=
  (g.nodes.map (fun i => g.nodes.map
    (fun j => (i.id ++ "->" ++ j.id, d i.id j.id)))).flatten

/-- The innermost update of `floydWarshall`: relax `(i, j)` through `k` and
push a full-snapshot step on strict improvement. -/
def fwUpdate (g : Graph) (k i j : String) (acc : DistMat × List GStep) :
    DistMat × List GStep :=
  let throughK := acc.1 i k + acc.1 k j
  if throughK < acc.1 i j then
    let d2 : DistMat := fun a b => if a = i ∧ b = j then throughK else acc.1 a b
    (d2, acc.2 ++ [⟨[i, j, k], [], none, some (fwSnapshot g d2)⟩])
  else acc

/-- The triple `forEach` of `floydWarshall`. -/
def floydWarshallRun (g : Graph) : DistMat × List GStep :=
  g.nodes.foldl
    (fun acc k =>
      g.nodes.foldl
        (fun acc2 i =>
          g.nodes.foldl (fun acc3 j => fwUpdate g k.id i.id j.id acc3) acc2)
        acc)
    (fwInit g, [])

/-- The step trace `floydWarshall` returns. -/
def floydWarshall (g : Graph) : List GStep := (floydWarshallRun g).2

end GraphAlg

namespace GraphAlg

/-- The step-trace tracking for floydWarshall: with no steps the matrix is
still the initial one; otherwise the last step's `distances` snapshot
serializes the current matrix. -/
def fwTrail (g : Graph) (acc : DistMat × List GStep) : Prop :=
  match acc.2.getLast? with
  | none => acc.1 = fwInit g
  | some st => st.distances = some (fwSnapshot g acc.1)

/-- During pivot `kid`'s iteration every entry is either its value at the
start of the iteration or the relaxed minimum through `kid`. -/
def FwDisj (D0 Dc : DistMat) (kid : String) : Prop :=
  ∀ a b, Dc a b = D0 a b ∨ Dc a b = min (D0 a b) (D0 a kid + D0 kid b)

theorem fw_col_stable {D0 : DistMat} {kid : String} (hz : D0 kid kid = 0)
    (a : String) : min (D0 a kid) (D0 a kid + D0 kid kid) = D0 a kid := by
  rw [hz, add_zero, min_self]

theorem fw_row_stable {D0 : DistMat} {kid : String} (hz : D0 kid kid = 0)
    (b : String) : min (D0 kid b) (D0 kid kid + D0 kid b) = D0 kid b := by
  rw [hz, zero_add, min_self]

theorem fwDisj_col {D0 Dc : DistMat} {kid : String} (hd : FwDisj D0 Dc kid)
    (hz : D0 kid kid = 0) (a : String) : Dc a kid = D0 a kid := by
  rcases hd a kid with h | h
  · exact h
  · rw [h]
    exact fw_col_stable hz a

theorem fwDisj_row {D0 Dc : DistMat} {kid : String} (hd : FwDisj D0 Dc kid)
    (hz : D0 kid kid = 0) (b : String) : Dc kid b = D0 kid b := by
  rcases hd kid b with h | h
  · exact h
  · rw [h]
    exact fw_row_stable hz b

theorem fwUpdate_spec (g : Graph) (kid iid jid : String) (D0 : DistMat)
    (hz : D0 kid kid = 0) (acc : DistMat × List GStep)
    (hd : FwDisj D0 acc.1 kid) (ht : fwTrail g acc) :
    FwDisj D0 (fwUpdate g kid iid jid acc).1 kid ∧
    (fwUpdate g kid iid jid acc).1 iid jid =
      min (D0 iid jid) (D0 iid kid + D0 kid jid) ∧
    (∀ a b, ¬(a = iid ∧ b = jid) →
      (fwUpdate g kid iid jid acc).1 a b = acc.1 a b) ∧
    fwTrail g (fwUpdate g kid iid jid acc) := by
  have hik : acc.1 iid kid = D0 iid kid := fwDisj_col hd hz iid
  have hkj : acc.1 kid jid = D0 kid jid := fwDisj_row hd hz jid
  unfold fwUpdate
  dsimp only
  rw [hik, hkj]
  by_cases hlt : D0 iid kid + D0 kid jid < acc.1 iid jid
  · rw [if_pos hlt]
    have hval : acc.1 iid jid = D0 iid jid := by
      rcases hd iid jid with h | h
      · exact h
      · rw [h] at hlt
        exact absurd (min_le_right _ _) (not_le_of_lt hlt)
    have hmin : min (D0 iid jid) (D0 iid kid + D0 kid jid) =
        D0 iid kid + D0 kid jid :=
      min_eq_right (le_of_lt (hval ▸ hlt))
    refine ⟨?_, ?_, ?_, ?_⟩
    · intro a b
      dsimp only
      by_cases hab : a = iid ∧ b = jid
      · rw [if_pos hab]
        obtain ⟨rfl, rfl⟩ := hab
        rw [hmin]
        exact Or.inr rfl
      · rw [if_neg hab]
        exact hd a b
    · dsimp only
      rw [if_pos ⟨rfl, rfl⟩, hmin]
    · intro a b hab
      dsimp only
      rw [if_neg hab]
    · unfold fwTrail
      dsimp only
      rw [List.getLast?_concat]
  · rw [if_neg hlt]
    have hmm : acc.1 iid jid = min (D0 iid jid) (D0 iid kid + D0 kid jid) := by
      rcases hd iid jid with h | h
      · rw [h] at hlt ⊢
        exact (min_eq_left (le_of_not_lt hlt)).symm
      · exact h
    exact ⟨hd, hmm, fun a b _ => rfl, ht⟩

/-- The inner `j`-loop of a floydWarshall pivot iteration. -/
theorem fwInner_spec (g : Graph) (kid iid : String) (D0 : DistMat)
    (hz : D0 kid kid = 0) :
    ∀ (js : List GraphNode) (acc : DistMat × List GStep),
      FwDisj D0 acc.1 kid → fwTrail g acc →
      FwDisj D0
        (js.foldl (fun a3 j => fwUpdate g kid iid j.id a3) acc).1 kid ∧
      (∀ j ∈ js,
        (js.foldl (fun a3 j => fwUpdate g kid iid j.id a3) acc).1 iid j.id =
          min (D0 iid j.id) (D0 iid kid + D0 kid j.id)) ∧
      (∀ a b, acc.1 a b = min (D0 a b) (D0 a kid + D0 kid b) →
        (js.foldl (fun a3 j => fwUpdate g kid iid j.id a3) acc).1 a b =
          min (D0 a b) (D0 a kid + D0 kid b)) ∧
      fwTrail g (js.foldl (fun a3 j => fwUpdate g kid iid j.id a3) acc)
  | [], acc, hd, ht =>
    ⟨hd, fun j hj => absurd hj (List.not_mem_nil j), fun a b h => h, ht⟩
  | j0 :: jt, acc, hd, ht => by
    rw [List.foldl_cons]
    obtain ⟨hd1, hval1, hfr1, ht1⟩ := fwUpdate_spec g kid iid j0.id D0 hz acc hd ht
    obtain ⟨hd2, hval2, hfr2, ht2⟩ :=
      fwInner_spec g kid iid D0 hz jt (fwUpdate g kid iid j0.id acc) hd1 ht1
    refine ⟨hd2, ?_, ?_, ht2⟩
    · intro j hj
      rcases List.mem_cons.mp hj with rfl | hj2
      · exact hfr2 iid j.id hval1
      · exact hval2 j hj2
    · intro a b hab
      refine hfr2 a b ?_
      by_cases h2 : a = iid ∧ b = j0.id
      · obtain ⟨rfl, rfl⟩ := h2
        exact hval1
      · rw [hfr1 a b h2]
        exact hab

/-- The middle `i`-loop of a floydWarshall pivot iteration. -/
theorem fwMiddle_spec (g : Graph) (kid : String) (D0 : DistMat)
    (hz : D0 kid kid = 0) :
    ∀ (is : List GraphNode) (acc : DistMat × List GStep),
      FwDisj D0 acc.1 kid → fwTrail g acc →
      FwDisj D0
        (is.foldl (fun a2 i => g.nodes.foldl
          (fun a3 j => fwUpdate g kid i.id j.id a3) a2) acc).1 kid ∧
      (∀ i ∈ is, ∀ j ∈ g.nodes,
        (is.foldl (fun a2 i => g.nodes.foldl
          (fun a3 j => fwUpdate g kid i.id j.id a3) a2) acc).1 i.id j.id =
          min (D0 i.id j.id) (D0 i.id kid + D0 kid j.id)) ∧
      (∀ a b, acc.1 a b = min (D0 a b) (D0 a kid + D0 kid b) →
        (is.foldl (fun a2 i => g.nodes.foldl
          (fun a3 j => fwUpdate g kid i.id j.id a3) a2) acc).1 a b =
          min (D0 a b) (D0 a kid + D0 kid b)) ∧
      fwTrail g (is.foldl (fun a2 i => g.nodes.foldl
        (fun a3 j => fwUpdate g kid i.id j.id a3) a2) acc)
  | [], acc, hd, ht =>
    ⟨hd, fun i hi => absurd hi (List.not_mem_nil i), fun a b h => h, ht⟩
  | i0 :: it, acc, hd, ht => by
    rw [List.foldl_cons]
    obtain ⟨hd1, hval1, hfr1, ht1⟩ :=
      fwInner_spec g kid i0.id D0 hz g.nodes acc hd ht
    obtain ⟨hd2, hval2, hfr2, ht2⟩ :=
      fwMiddle_spec g kid D0 hz it _ hd1 ht1
    refine ⟨hd2, ?_, ?_, ht2⟩
    · intro i hi j hj
      rcases List.mem_cons.mp hi with rfl | hi2
      · exact hfr2 i.id j.id (hval1 j hj)
      · exact hval2 i hi2 j hj
    · intro a b hab
      exact hfr2 a b (hfr1 a b hab)

end GraphAlg

namespace GraphAlg

/-- Order arithmetic for the pivot step: the relaxed matrix keeps the
triangle inequality of an earlier pivot `k0`. -/
theorem fw_min_tri {D0 : DistMat} {kid k0 i j : String}
    (h1 : D0 i j ≤ D0 i k0 + D0 k0 j)
    (h2 : D0 kid j ≤ D0 kid k0 + D0 k0 j)
    (h3 : D0 i kid ≤ D0 i k0 + D0 k0 kid)
    (h4 : (0 : WithTop Int) ≤ D0 kid k0)
    (h5 : (0 : WithTop Int) ≤ D0 k0 kid) :
    min (D0 i j) (D0 i kid + D0 kid j) ≤
      min (D0 i k0) (D0 i kid + D0 kid k0) +
        min (D0 k0 j) (D0 k0 kid + D0 kid j) := by
  rcases min_cases (D0 i k0) (D0 i kid + D0 kid k0) with ⟨e1, l1⟩ | ⟨e1, l1⟩ <;>
    rcases min_cases (D0 k0 j) (D0 k0 kid + D0 kid j) with ⟨e2, l2⟩ | ⟨e2, l2⟩ <;>
    rw [e1, e2]
  · exact le_trans (min_le_left _ _) h1
  · calc min (D0 i j) (D0 i kid + D0 kid j) ≤ D0 i kid + D0 kid j :=
        min_le_right _ _
      _ ≤ (D0 i k0 + D0 k0 kid) + D0 kid j := add_le_add_right h3 _
      _ = D0 i k0 + (D0 k0 kid + D0 kid j) := add_assoc _ _ _
  · calc min (D0 i j) (D0 i kid + D0 kid j) ≤ D0 i kid + D0 kid j :=
        min_le_right _ _
      _ ≤ D0 i kid + (D0 kid k0 + D0 k0 j) := add_le_add_left h2 _
      _ = (D0 i kid + D0 kid k0) + D0 k0 j := (add_assoc _ _ _).symm
  · calc min (D0 i j) (D0 i kid + D0 kid j) ≤ D0 i kid + D0 kid j :=
        min_le_right _ _
      _ = D0 i kid + (0 + D0 kid j) := by rw [zero_add]
      _ ≤ D0 i kid + ((D0 kid k0 + D0 k0 kid) + D0 kid j) :=
        add_le_add_left (add_le_add_right (add_nonneg h4 h5) _) _
      _ = (D0 i kid + D0 kid k0) + (D0 k0 kid + D0 kid j) := by abel

/-- The pivot `k`-loop of floydWarshall: nonnegativity, the zero diagonal,
the triangle inequality for every processed pivot, and the last-step
snapshot tracking all hold of the accumulated matrix. -/
theorem fwOuter_spec (g : Graph) :
    ∀ (ks : List GraphNode) (K : List String) (acc : DistMat × List GStep),
      (∀ k ∈ ks, k ∈ g.nodes) →
      (∀ k0 ∈ K, k0 ∈ g.nodes.map GraphNode.id) →
      (∀ a b, 0 ≤ acc.1 a b) →
      (∀ a, acc.1 a a = 0) →
      (∀ k0 ∈ K, ∀ i ∈ g.nodes.map GraphNode.id,
        ∀ j ∈ g.nodes.map GraphNode.id,
        acc.1 i j ≤ acc.1 i k0 + acc.1 k0 j) →
      fwTrail g acc →
      (∀ a b, 0 ≤ (ks.foldl (fun acc k => g.nodes.foldl
        (fun a2 i => g.nodes.foldl
          (fun a3 j => fwUpdate g k.id i.id j.id a3) a2) acc) acc).1 a b) ∧
      (∀ a, (ks.foldl (fun acc k => g.nodes.foldl
        (fun a2 i => g.nodes.foldl
          (fun a3 j => fwUpdate g k.id i.id j.id a3) a2) acc) acc).1 a a = 0) ∧
      (∀ k0, k0 ∈ K ++ ks.map GraphNode.id →
        ∀ i ∈ g.nodes.map GraphNode.id, ∀ j ∈ g.nodes.map GraphNode.id,
        (ks.foldl (fun acc k => g.nodes.foldl
          (fun a2 i => g.nodes.foldl
            (fun a3 j => fwUpdate g k.id i.id j.id a3) a2) acc) acc).1 i j ≤
          (ks.foldl (fun acc k => g.nodes.foldl
            (fun a2 i => g.nodes.foldl
              (fun a3 j => fwUpdate g k.id i.id j.id a3) a2) acc) acc).1 i k0 +
          (ks.foldl (fun acc k => g.nodes.foldl
            (fun a2 i => g.nodes.foldl
              (fun a3 j => fwUpdate g k.id i.id j.id a3) a2) acc) acc).1 k0 j) ∧
      fwTrail g (ks.foldl (fun acc k => g.nodes.foldl
        (fun a2 i => g.nodes.foldl
          (fun a3 j => fwUpdate g k.id i.id j.id a3) a2) acc) acc)
  | [], K, acc, hks, hK, hnn, hdiag, htri, ht => by
    refine ⟨hnn, hdiag, ?_, ht⟩
    intro k0 hk0
    rw [List.map_nil, List.append_nil] at hk0
    exact htri k0 hk0
  | kc :: kt, K, acc, hks, hK, hnn, hdiag, htri, ht => by
    rw [List.foldl_cons]
    have hz : acc.1 kc.id kc.id = 0 := hdiag kc.id
    obtain ⟨hdA, hvalA, hfrA, htA⟩ := fwMiddle_spec g kc.id acc.1 hz g.nodes acc
      (fun a b => Or.inl rfl) ht
    set A := g.nodes.foldl (fun a2 i => g.nodes.foldl
      (fun a3 j => fwUpdate g kc.id i.id j.id a3) a2) acc with hA
    have hnnA : ∀ a b, 0 ≤ A.1 a b := by
      intro a b
      rcases hdA a b with h | h
      · rw [h]
        exact hnn a b
      · rw [h]
        exact le_min (hnn a b) (add_nonneg (hnn a kc.id) (hnn kc.id b))
    have hdiagA : ∀ a, A.1 a a = 0 := by
      intro a
      rcases hdA a a with h | h
      · rw [h]
        exact hdiag a
      · rw [h, hdiag a]
        exact min_eq_left (add_nonneg (hnn a kc.id) (hnn kc.id a))
    have hkc : kc ∈ g.nodes := hks kc (List.mem_cons_self kc kt)
    have hkcid : kc.id ∈ g.nodes.map GraphNode.id :=
      List.mem_map_of_mem GraphNode.id hkc
    have hval : ∀ i ∈ g.nodes.map GraphNode.id, ∀ j ∈ g.nodes.map GraphNode.id,
        A.1 i j = min (acc.1 i j) (acc.1 i kc.id + acc.1 kc.id j) := by
      intro i hi j hj
      obtain ⟨ni, hni, rfl⟩ := List.mem_map.mp hi
      obtain ⟨nj, hnj, rfl⟩ := List.mem_map.mp hj
      exact hvalA ni hni nj hnj
    have htriA : ∀ k0 ∈ K ++ [kc.id], ∀ i ∈ g.nodes.map GraphNode.id,
        ∀ j ∈ g.nodes.map GraphNode.id, A.1 i j ≤ A.1 i k0 + A.1 k0 j := by
      intro k0 hk0 i hi j hj
      have hk02 : k0 ∈ g.nodes.map GraphNode.id := by
        rcases List.mem_append.mp hk0 with h | h
        · exact hK k0 h
        · exact (List.mem_singleton.mp h) ▸ hkcid
      rw [hval i hi j hj, hval i hi k0 hk02, hval k0 hk02 j hj]
      rcases List.mem_append.mp hk0 with hk0K | hk0c
      · exact fw_min_tri (htri k0 hk0K i hi j hj)
          (htri k0 hk0K kc.id hkcid j hj) (htri k0 hk0K i hi kc.id hkcid)
          (hnn kc.id k0) (hnn k0 kc.id)
      · obtain rfl : k0 = kc.id := List.mem_singleton.mp hk0c
        rw [fw_col_stable hz, fw_row_stable hz]
        exact min_le_right _ _
    obtain ⟨hnn2, hdiag2, htri2, ht2⟩ := fwOuter_spec g kt (K ++ [kc.id]) A
      (fun k hk => hks k (List.mem_cons_of_mem kc hk))
      (fun k0 hk0 => by
        rcases List.mem_append.mp hk0 with h | h
        · exact hK k0 h
        · exact (List.mem_singleton.mp h) ▸ hkcid)
      hnnA hdiagA htriA htA
    refine ⟨hnn2, hdiag2, ?_, ht2⟩
    intro k0 hk0 i hi j hj
    refine htri2 k0 ?_ i hi j hj
    rw [List.append_assoc, List.singleton_append]
    rw [List.map_cons] at hk0
    exact hk0

end GraphAlg

namespace GraphAlg

/-- The spec's concrete weighted graph: A—B with weight 2, B—C with
weight 3. -/
def gABC : Graph :=
  ⟨[⟨"A"⟩, ⟨"B"⟩, ⟨"C"⟩], [⟨"A", "B", 2⟩, ⟨"B", "C", 3⟩]⟩

theorem fwInit_nonneg {g : Graph} (hw : ∀ e ∈ g.edges, 0 ≤ e.weight) :
    ∀ a b, 0 ≤ fwInit g a b := by
  intro a b
  unfold fwInit
  by_cases hab : a = b
  · rw [if_pos hab]
  · rw [if_neg hab]
    rcases hfind : g.edges.find? (fun e => (e.source == a && e.target == b) ||
        (e.source == b && e.target == a)) with _ | e
    · rw [hfind]
      exact le_top
    · rw [hfind]
      have he : e ∈ g.edges := List.mem_of_find?_eq_some hfind
      show (0 : WithTop Int) ≤ (e.weight : WithTop Int)
      exact_mod_cast hw e he

theorem fwInit_diag (g : Graph) : ∀ a, fwInit g a a = 0 := by
  intro a
  unfold fwInit
  rw [if_pos rfl]

end GraphAlg

/-- **C9**: with the data model's nonnegative edge weights, the final
floydWarshall distance matrix satisfies the triangle inequality for every
triple of nodes, and the "final snapshot" reading holds: when steps exist
the last step's distances serialize the final matrix, otherwise the matrix
is still the initial one. -/
theorem C9_floydWarshall_triangle (g : GraphAlg.Graph)
    (hw : ∀ e ∈ g.edges, 0 ≤ e.weight) :
    (∀ i ∈ g.nodes, ∀ j ∈ g.nodes, ∀ k ∈ g.nodes,
      (GraphAlg.floydWarshallRun g).1 i.id j.id ≤
        (GraphAlg.floydWarshallRun g).1 i.id k.id +
        (GraphAlg.floydWarshallRun g).1 k.id j.id) ∧
    GraphAlg.fwTrail g (GraphAlg.floydWarshallRun g) := by
  obtain ⟨hnn2, hdiag2, htri2, ht2⟩ := GraphAlg.fwOuter_spec g g.nodes []
    (GraphAlg.fwInit g, []) (fun k hk => hk)
    (fun k0 hk0 => absurd hk0 (List.not_mem_nil k0))
    (GraphAlg.fwInit_nonneg hw) (GraphAlg.fwInit_diag g)
    (fun k0 hk0 => absurd hk0 (List.not_mem_nil k0)) rfl
  constructor
  · intro i hi j hj k hk
    exact htri2 k.id
      (by rw [List.nil_append]; exact List.mem_map_of_mem GraphAlg.GraphNode.id hk)
      i.id (List.mem_map_of_mem GraphAlg.GraphNode.id hi)
      j.id (List.mem_map_of_mem GraphAlg.GraphNode.id hj)
  · exact ht2

/-- Witness for C9 at the concrete graph A—B(2)—C(3). -/
theorem C9_floydWarshall_triangle_witness :
    (∀ i ∈ GraphAlg.gABC.nodes, ∀ j ∈ GraphAlg.gABC.nodes,
      ∀ k ∈ GraphAlg.gABC.nodes,
      (GraphAlg.floydWarshallRun GraphAlg.gABC).1 i.id j.id ≤
        (GraphAlg.floydWarshallRun GraphAlg.gABC).1 i.id k.id +
        (GraphAlg.floydWarshallRun GraphAlg.gABC).1 k.id j.id) ∧
    GraphAlg.fwTrail GraphAlg.gABC (GraphAlg.floydWarshallRun GraphAlg.gABC) :=
  C9_floydWarshall_triangle GraphAlg.gABC (by decide)

namespace GraphAlg

/-- The node-id list of a graph. -/
def nodeIds (g : Graph) : List String := g.nodes.map GraphNode.id

/-- `w`'s chain in a parent map reaches the root `ρ`. -/
def Reaches (par : String → String) (w ρ : String) : Prop :=
  (∃ k, par^[k] w = ρ) ∧ par ρ = ρ

/-- The parent map has no cycles other than self-loops. -/
def NoCycle (par : String → String) : Prop :=
  ∀ w k, 0 < k → par^[k] w = w → par w = w

/-- The parent map maps the id set into itself. -/
def Closed (par : String → String) (ids : List String) : Prop :=
  ∀ v ∈ ids, par v ∈ ids

theorem fix_iterate {par : String → String} {ρ : String} (h : par ρ = ρ) :
    ∀ m, par^[m] ρ = ρ
  | 0 => rfl
  | m + 1 => by
    rw [Function.iterate_succ_apply, h]
    exact fix_iterate h m

theorem reaches_iterate_ge {par : String → String} {v ρ : String} {k : Nat}
    (hk : par^[k] v = ρ) (hfix : par ρ = ρ) {m : Nat} (hm : k ≤ m) :
    par^[m] v = ρ := by
  have h2 : par^[(m - k) + k] v = ρ := by
    rw [Function.iterate_add_apply, hk]
    exact fix_iterate hfix _
  rwa [show (m - k) + k = m by omega] at h2

theorem reaches_unique {par : String → String} {w ρ1 ρ2 : String}
    (h1 : Reaches par w ρ1) (h2 : Reaches par w ρ2) : ρ1 = ρ2 := by
  obtain ⟨⟨k1, hk1⟩, f1⟩ := h1
  obtain ⟨⟨k2, hk2⟩, f2⟩ := h2
  rcases le_total k1 k2 with h | h
  · rw [← hk2]
    exact (reaches_iterate_ge hk1 f1 h).symm
  · rw [← hk1]
    exact reaches_iterate_ge hk2 f2 h

theorem reaches_of_fix {par : String → String} {v : String} (h : par v = v) :
    Reaches par v v := ⟨⟨0, rfl⟩, h⟩

theorem reaches_step {par : String → String} {v ρ : String}
    (h : Reaches par (par v) ρ) : Reaches par v ρ := by
  obtain ⟨⟨k, hk⟩, f⟩ := h
  exact ⟨⟨k + 1, by rw [Function.iterate_succ_apply]; exact hk⟩, f⟩

theorem reaches_self_root {par : String → String} {v ρ : String}
    (h : Reaches par v ρ) (hfix : par v = v) : ρ = v :=
  reaches_unique h (reaches_of_fix hfix)

theorem reaches_root_ne {par : String → String} {v ρ : String}
    (h : Reaches par v ρ) (hv : par v ≠ v) : ρ ≠ v := by
  intro heq
  subst heq
  exact hv h.2

theorem iter_closed {par : String → String} {ids : List String}
    (hcl : Closed par ids) {v : String} (hv : v ∈ ids) :
    ∀ m, par^[m] v ∈ ids
  | 0 => hv
  | m + 1 => by
    rw [Function.iterate_succ_apply']
    exact hcl _ (iter_closed hcl hv m)

/-- Pigeonhole: inside a closed id set without cycles every chain reaches a
fixpoint within `|ids|` steps. -/
theorem exists_reach_small {par : String → String} {ids : List String}
    (hcl : Closed par ids) (hnc : NoCycle par) {v : String} (hv : v ∈ ids) :
    ∃ ρ k, k ≤ ids.length ∧ par^[k] v = ρ ∧ par ρ = ρ := by
  by_cases hfix : ∃ k, k ≤ ids.length ∧ par (par^[k] v) = par^[k] v
  · obtain ⟨k, hk, hf⟩ := hfix
    exact ⟨par^[k] v, k, hk, rfl, hf⟩
  · push_neg at hfix
    exfalso
    have hmaps : ∀ m ∈ Finset.range (ids.length + 1),
        par^[m] v ∈ ids.toFinset := by
      intro m _
      rw [List.mem_toFinset]
      exact iter_closed hcl hv m
    have hcard : ids.toFinset.card < (Finset.range (ids.length + 1)).card := by
      rw [Finset.card_range]
      exact Nat.lt_succ_of_le ids.toFinset_card_le
    obtain ⟨a, ha, b, hb, hab, heq⟩ :=
      Finset.exists_ne_map_eq_of_card_lt_of_maps_to hcard hmaps
    rw [Finset.mem_range] at ha hb
    rcases Nat.lt_or_ge a b with h | h
    · have hcyc : par^[b - a] (par^[a] v) = par^[a] v := by
        rw [← Function.iterate_add_apply, show b - a + a = b by omega, heq]
      have hfx := hnc (par^[a] v) (b - a) (by omega) hcyc
      exact hfix a (by omega) hfx
    · have hba : b < a := by omega
      have hcyc : par^[a - b] (par^[b] v) = par^[b] v := by
        rw [← Function.iterate_add_apply, show a - b + b = a by omega, ← heq]
      have hfx := hnc (par^[b] v) (a - b) (by omega) hcyc
      exact hfix b (by omega) hfx

end GraphAlg

namespace GraphAlg

/-- Redirecting one node at a root keeps the parent map acyclic. -/
theorem noCycle_update {par : String → String} {v r : String}
    (hnc : NoCycle par) (hrfix : par r = r) (hrv : r ≠ v) :
    NoCycle (fun w => if w = v then r else par w) := by
  intro w k hk hcyc
  set par2 := fun w => if w = v then r else par w with hpar2
  have hr2 : par2 r = r := by
    rw [hpar2]
    dsimp only
    rw [if_neg hrv]
    exact hrfix
  by_cases hvis : ∃ j, j < k ∧ par2^[j] w = v
  · obtain ⟨j, hj, hjv⟩ := hvis
    have hnext : par2^[j + 1] w = r := by
      rw [Function.iterate_succ_apply', hjv]
      rw [hpar2]
      dsimp only
      rw [if_pos rfl]
    have hall : ∀ m, par2^[(j + 1) + m] w = r := by
      intro m
      rw [Nat.add_comm (j + 1) m, Function.iterate_add_apply, hnext]
      exact fix_iterate hr2 m
    have hwr : w = r := by
      have := hall (k - (j + 1))
      rw [show (j + 1) + (k - (j + 1)) = k by omega] at this
      rw [← hcyc, this]
    rw [hwr]
    exact hr2
  · push_neg at hvis
    have hsame : ∀ m, m ≤ k → par2^[m] w = par^[m] w := by
      intro m
      induction m with
      | zero => intro _; rfl
      | succ m ih =>
        intro hm
        rw [Function.iterate_succ_apply', Function.iterate_succ_apply',
          ih (by omega)]
        have hne : par^[m] w ≠ v := by
          rw [← ih (by omega)]
          exact hvis m (by omega)
        rw [hpar2]
        dsimp only
        rw [if_neg hne]
    have hw : par w = w := by
      refine hnc w k hk ?_
      rw [← hsame k (le_refl k)]
      exact hcyc
    have hwv : w ≠ v := by
      have := hvis 0 hk
      exact this
    rw [hpar2]
    dsimp only
    rw [if_neg hwv]
    exact hw

/-- Path compression preserves every chain's root: redirecting `v` straight
at its own root changes no `Reaches` fact. -/
theorem reaches_compress {par : String → String} {v ρv : String}
    (hroot : Reaches par v ρv) :
    ∀ (k : Nat) (w τ : String), par^[k] w = τ → par τ = τ →
      Reaches (fun u => if u = v then ρv else par u) w τ := by
  have hfixP : ∀ τ, par τ = τ → (fun u => if u = v then ρv else par u) τ = τ := by
    intro τ hfix
    by_cases hτv : τ = v
    · dsimp only
      rw [if_pos hτv]
      have hρ : ρv = v := reaches_self_root hroot (by rw [← hτv]; exact hfix)
      rw [hρ, hτv]
    · dsimp only
      rw [if_neg hτv]
      exact hfix
  intro k
  induction k with
  | zero =>
    intro w τ hk hfix
    rw [Function.iterate_zero_apply] at hk
    exact ⟨⟨0, by rw [Function.iterate_zero_apply]; exact hk⟩, hfixP τ hfix⟩
  | succ k ih =>
    intro w τ hk hfix
    rw [Function.iterate_succ_apply] at hk
    by_cases hwv : w = v
    · have hk2 : par^[k + 1] v = τ := by
        rw [Function.iterate_succ_apply, ← hwv]
        exact hk
      have hτ : τ = ρv := reaches_unique ⟨⟨k + 1, hk2⟩, hfix⟩ hroot
      refine ⟨⟨1, ?_⟩, hfixP τ hfix⟩
      rw [Function.iterate_one]
      rw [if_pos hwv, hτ]
    · obtain ⟨⟨k2, hk2⟩, hfix2⟩ := ih (par w) τ hk hfix
      refine ⟨⟨k2 + 1, ?_⟩, hfix2⟩
      rw [Function.iterate_succ_apply]
      rw [if_neg hwv]
      exact hk2

/-- A union redirect `b → a` (both roots) maps every old root `τ` to
`if τ = b then a else τ`. -/
theorem reaches_union {par : String → String} {a b : String}
    (hafix : par a = a) (hbfix : par b = b) (hab : a ≠ b) :
    ∀ (k : Nat) (w τ : String), par^[k] w = τ → par τ = τ →
      Reaches (fun u => if u = b then a else par u) w
        (if τ = b then a else τ) := by
  intro k
  induction k with
  | zero =>
    intro w τ hk hfix
    rw [Function.iterate_zero_apply] at hk
    by_cases hτb : τ = b
    · rw [if_pos hτb]
      refine ⟨⟨1, ?_⟩, ?_⟩
      · rw [Function.iterate_one]
        rw [if_pos (hk.trans hτb)]
      · dsimp only
        rw [if_neg hab]
        exact hafix
    · rw [if_neg hτb]
      refine ⟨⟨0, by rw [Function.iterate_zero_apply]; exact hk⟩, ?_⟩
      dsimp only
      rw [if_neg hτb]
      exact hfix
  | succ k ih =>
    intro w τ hk hfix
    rw [Function.iterate_succ_apply] at hk
    by_cases hwb : w = b
    · have hτb : τ = b := by
        rw [← hk, hwb, hbfix]
        exact fix_iterate hbfix k
      rw [if_pos hτb]
      refine ⟨⟨1, ?_⟩, ?_⟩
      · rw [Function.iterate_one]
        rw [if_pos hwb]
      · dsimp only
        rw [if_neg hab]
        exact hafix
    · obtain ⟨⟨k2, hk2⟩, hfix2⟩ := ih (par w) τ hk hfix
      refine ⟨⟨k2 + 1, ?_⟩, hfix2⟩
      rw [Function.iterate_succ_apply]
      rw [if_neg hwb]
      exact hk2

end GraphAlg

namespace GraphAlg

/-- `find` returns the root of its argument's chain, keeps ranks, preserves
every chain's root, root-status, acyclicity and closure. -/
theorem dsuFind_spec (ds : DisjointSet) :
    ∀ (fuel : Nat) (v ρ : String),
      ds.parent^[fuel] v = ρ → ds.parent ρ = ρ →
      (dsuFind ds fuel v).1 = ρ ∧
      (dsuFind ds fuel v).2.rank = ds.rank ∧
      (∀ w τ, Reaches ds.parent w τ →
        Reaches (dsuFind ds fuel v).2.parent w τ) ∧
      (∀ w, (dsuFind ds fuel v).2.parent w = w ↔ ds.parent w = w) ∧
      (NoCycle ds.parent → NoCycle (dsuFind ds fuel v).2.parent) ∧
      (∀ ids, Closed ds.parent ids → ρ ∈ ids →
        Closed (dsuFind ds fuel v).2.parent ids) := by
  intro fuel
  induction fuel with
  | zero =>
    intro v ρ hk hfix
    rw [Function.iterate_zero_apply] at hk
    refine ⟨?_, rfl, fun w τ h => h, fun w => Iff.rfl, fun h => h,
      fun ids hcl _ => hcl⟩
    show ds.parent v = ρ
    rw [hk]
    exact hfix
  | succ fuel ih =>
    intro v ρ hk hfix
    rw [dsuFind]
    by_cases hv : ds.parent v = v
    · rw [if_pos hv]
      have hρ : ρ = v := by
        rw [← hk]
        exact fix_iterate hv (fuel + 1)
      exact ⟨hρ.symm, rfl, fun w τ h => h, fun w => Iff.rfl, fun h => h,
        fun ids hcl _ => hcl⟩
    · rw [if_neg hv]
      have hk2 : ds.parent^[fuel] (ds.parent v) = ρ := by
        rw [← Function.iterate_succ_apply]
        exact hk
      obtain ⟨ih1, ih2, ih3, ih4, ih5, ih6⟩ := ih (ds.parent v) ρ hk2 hfix
      have hreach : Reaches ds.parent v ρ := ⟨⟨fuel + 1, hk⟩, hfix⟩
      have hroot2 : Reaches (dsuFind ds fuel (ds.parent v)).2.parent v ρ :=
        ih3 v ρ hreach
      have hρv : ρ ≠ v := reaches_root_ne hreach hv
      refine ⟨ih1, ih2, ?_, ?_, ?_, ?_⟩
      · intro w τ hwτ
        simp only [ih1]
        obtain ⟨⟨k3, hk3⟩, hfix3⟩ := ih3 w τ hwτ
        exact reaches_compress hroot2 k3 w τ hk3 hfix3
      · intro w
        dsimp only
        by_cases hwv : w = v
        · rw [if_pos hwv, hwv, ih1]
          constructor
          · intro h
            exact absurd h.symm (fun h2 => hρv h2.symm)
          · intro h
            exact absurd h hv
        · rw [if_neg hwv]
          exact ih4 w
      · intro hnc
        simp only [ih1]
        exact noCycle_update (ih5 hnc) hroot2.2 hρv
      · intro ids hcl hρ
        intro u hu
        dsimp only
        by_cases huv : u = v
        · rw [if_pos huv, ih1]
          exact hρ
        · rw [if_neg huv]
          exact ih6 ids hcl hρ u hu

end GraphAlg

namespace GraphAlg

theorem find_prep {ds : DisjointSet} {ids : List String} {fuel : Nat}
    (hnc : NoCycle ds.parent) (hcl : Closed ds.parent ids)
    (hfuel : ids.length ≤ fuel) {v : String} (hv : v ∈ ids) :
    ∃ ρ, ds.parent^[fuel] v = ρ ∧ ds.parent ρ = ρ ∧ ρ ∈ ids := by
  obtain ⟨ρ, k, hk, hkv, hfix⟩ := exists_reach_small hcl hnc hv
  exact ⟨ρ, reaches_iterate_ge hkv hfix (le_trans hk hfuel), hfix,
    hkv ▸ iter_closed hcl hv k⟩

/-- The one-write part of a union: redirect the root `b` at the root `a`. -/
theorem union_update_spec (ds2 : DisjointSet) (ids : List String)
    (a b : String) (hafix : ds2.parent a = a) (hbfix : ds2.parent b = b)
    (hab : a ≠ b) (hnc2 : NoCycle ds2.parent) (hcl2 : Closed ds2.parent ids)
    (haids : a ∈ ids) :
    (∀ w τ, Reaches ds2.parent w τ →
      Reaches (fun w => if w = b then a else ds2.parent w) w
        (if τ = b then a else τ)) ∧
    (∀ w, w ≠ b → ((fun w => if w = b then a else ds2.parent w) w = w ↔
      ds2.parent w = w)) ∧
    (fun w => if w = b then a else ds2.parent w) b ≠ b ∧
    NoCycle (fun w => if w = b then a else ds2.parent w) ∧
    Closed (fun w => if w = b then a else ds2.parent w) ids := by
  refine ⟨?_, ?_, ?_, ?_, ?_⟩
  · intro w τ hwτ
    obtain ⟨⟨k, hk⟩, hfix⟩ := hwτ
    exact reaches_union hafix hbfix hab k w τ hk hfix
  · intro w hwb
    dsimp only
    rw [if_neg hwb]
  · dsimp only
    rw [if_pos rfl]
    exact hab
  · exact noCycle_update hnc2 hafix hab
  · intro u hu
    dsimp only
    by_cases hub : u = b
    · rw [if_pos hub]
      exact haids
    · rw [if_neg hub]
      exact hcl2 u hu

/-- `union` of two vertices with different roots: it merges exactly the two
classes (by rank, ties toward the first root), demotes one root, and keeps
acyclicity and closure. -/
theorem dsuUnion_spec {ds : DisjointSet} {ids : List String} {fuel : Nat}
    (hnc : NoCycle ds.parent) (hcl : Closed ds.parent ids)
    (hfuel : ids.length ≤ fuel) {v1 v2 ρ1 ρ2 : String}
    (hv1 : v1 ∈ ids) (hv2 : v2 ∈ ids)
    (hr1 : Reaches ds.parent v1 ρ1) (hr2 : Reaches ds.parent v2 ρ2)
    (hne : ρ1 ≠ ρ2) :
    ∃ a b, ((a = ρ1 ∧ b = ρ2) ∨ (a = ρ2 ∧ b = ρ1)) ∧
      (∀ w τ, Reaches ds.parent w τ →
        Reaches (dsuUnion ds fuel v1 v2).parent w (if τ = b then a else τ)) ∧
      (∀ w, w ≠ b →
        ((dsuUnion ds fuel v1 v2).parent w = w ↔ ds.parent w = w)) ∧
      (dsuUnion ds fuel v1 v2).parent b ≠ b ∧ ds.parent b = b ∧ b ∈ ids ∧
      NoCycle (dsuUnion ds fuel v1 v2).parent ∧
      Closed (dsuUnion ds fuel v1 v2).parent ids := by
  obtain ⟨ρ1', hit1, hfx1, hmem1'⟩ := find_prep hnc hcl hfuel hv1
  have hρ1' : ρ1' = ρ1 := reaches_unique ⟨⟨fuel, hit1⟩, hfx1⟩ hr1
  rw [hρ1'] at hit1 hfx1 hmem1'
  obtain ⟨f1a, f1b, f1c, f1d, f1e, f1f⟩ := dsuFind_spec ds fuel v1 ρ1 hit1 hfx1
  have hnc1 : NoCycle (dsuFind ds fuel v1).2.parent := f1e hnc
  have hcl1 : Closed (dsuFind ds fuel v1).2.parent ids := f1f ids hcl hmem1'
  obtain ⟨ρ2', hit2, hfx2, hmem2'⟩ := find_prep hnc1 hcl1 hfuel hv2
  have hρ2' : ρ2' = ρ2 :=
    reaches_unique ⟨⟨fuel, hit2⟩, hfx2⟩ (f1c v2 ρ2 hr2)
  rw [hρ2'] at hit2 hfx2 hmem2'
  obtain ⟨f2a, f2b, f2c, f2d, f2e, f2f⟩ :=
    dsuFind_spec (dsuFind ds fuel v1).2 fuel v2 ρ2 hit2 hfx2
  have hnc2 : NoCycle (dsuFind (dsuFind ds fuel v1).2 fuel v2).2.parent :=
    f2e hnc1
  have hcl2 : Closed (dsuFind (dsuFind ds fuel v1).2 fuel v2).2.parent ids :=
    f2f ids hcl1 hmem2'
  have hreach2 : ∀ w τ, Reaches ds.parent w τ →
      Reaches (dsuFind (dsuFind ds fuel v1).2 fuel v2).2.parent w τ :=
    fun w τ h => f2c w τ (f1c w τ h)
  have hfix1 : (dsuFind (dsuFind ds fuel v1).2 fuel v2).2.parent ρ1 = ρ1 :=
    (hreach2 v1 ρ1 hr1).2
  have hfix2b : (dsuFind (dsuFind ds fuel v1).2 fuel v2).2.parent ρ2 = ρ2 :=
    (hreach2 v2 ρ2 hr2).2
  have hiff : ∀ w, (dsuFind (dsuFind ds fuel v1).2 fuel v2).2.parent w = w ↔
      ds.parent w = w := fun w => (f2d w).trans (f1d w)
  unfold dsuUnion
  have hcond : (dsuFind ds fuel v1).1 ≠
      (dsuFind (dsuFind ds fuel v1).2 fuel v2).1 := by
    rw [f1a, f2a]
    exact hne
  rw [if_pos hcond]
  simp only [f1a, f2a]
  by_cases hrank1 : (dsuFind (dsuFind ds fuel v1).2 fuel v2).2.rank ρ1 <
      (dsuFind (dsuFind ds fuel v1).2 fuel v2).2.rank ρ2
  · rw [if_pos hrank1]
    obtain ⟨u1, u2, u3, u4, u5⟩ := union_update_spec _ ids ρ2 ρ1 hfix2b hfix1
      (fun h => hne h.symm) hnc2 hcl2 hmem2'
    refine ⟨ρ2, ρ1, Or.inr ⟨rfl, rfl⟩, ?_, ?_, u3, hr1.2, hmem1', u4, u5⟩
    · intro w τ hwτ
      exact u1 w τ (hreach2 w τ hwτ)
    · intro w hwb
      exact (u2 w hwb).trans (hiff w)
  · rw [if_neg hrank1]
    by_cases hrank2 : (dsuFind (dsuFind ds fuel v1).2 fuel v2).2.rank ρ2 <
        (dsuFind (dsuFind ds fuel v1).2 fuel v2).2.rank ρ1
    · rw [if_pos hrank2]
      obtain ⟨u1, u2, u3, u4, u5⟩ := union_update_spec _ ids ρ1 ρ2 hfix1
        hfix2b hne hnc2 hcl2 hmem1'
      refine ⟨ρ1, ρ2, Or.inl ⟨rfl, rfl⟩, ?_, ?_, u3, hr2.2, hmem2', u4, u5⟩
      · intro w τ hwτ
        exact u1 w τ (hreach2 w τ hwτ)
      · intro w hwb
        exact (u2 w hwb).trans (hiff w)
    · rw [if_neg hrank2]
      obtain ⟨u1, u2, u3, u4, u5⟩ := union_update_spec _ ids ρ1 ρ2 hfix1
        hfix2b hne hnc2 hcl2 hmem1'
      refine ⟨ρ1, ρ2, Or.inl ⟨rfl, rfl⟩, ?_, ?_, u3, hr2.2, hmem2', u4, u5⟩
      · intro w τ hwτ
        exact u1 w τ (hreach2 w τ hwτ)
      · intro w hwb
        exact (u2 w hwb).trans (hiff w)

end GraphAlg

namespace GraphAlg

/-- Two vertices lie in the same disjoint set: their chains share a root. -/
def EqRoot (par : String → String) (u v : String) : Prop :=
  ∃ ρ, Reaches par u ρ ∧ Reaches par v ρ

theorem eqRoot_symm {par : String → String} {u v : String}
    (h : EqRoot par u v) : EqRoot par v u := by
  obtain ⟨ρ, h1, h2⟩ := h
  exact ⟨ρ, h2, h1⟩

theorem eqRoot_trans {par : String → String} {u v w : String}
    (h1 : EqRoot par u v) (h2 : EqRoot par v w) : EqRoot par u w := by
  obtain ⟨ρ, ha, hb⟩ := h1
  obtain ⟨ρ2, hc, hd⟩ := h2
  rw [reaches_unique hb hc] at ha hb
  exact ⟨ρ2, ha, hd⟩

/-- The roots among a list of ids. -/
def rootsOf (par : String → String) (ids : List String) : List String :=
  ids.filter (fun v => par v == v)

theorem rootsOf_congr {par par2 : String → String} {ids : List String}
    (hiff : ∀ w, par2 w = w ↔ par w = w) :
    rootsOf par2 ids = rootsOf par ids := by
  unfold rootsOf
  refine List.filter_congr ?_
  intro v _
  by_cases h : par v = v
  · rw [beq_iff_eq.mpr ((hiff v).mpr h), beq_iff_eq.mpr h]
  · rw [beq_eq_false_iff_ne.mpr (fun h2 => h ((hiff v).mp h2)),
      beq_eq_false_iff_ne.mpr h]

theorem rootsOf_union_length {par par2 : String → String} {ids : List String}
    {b : String} (hnd : ids.Nodup)
    (hiff : ∀ w, w ≠ b → (par2 w = w ↔ par w = w)) (hb : par b = b)
    (hb2 : par2 b ≠ b) (hbids : b ∈ ids) :
    (rootsOf par2 ids).length + 1 = (rootsOf par ids).length := by
  have h1 : rootsOf par2 ids =
      (rootsOf par ids).filter (fun v => !(v == b)) := by
    unfold rootsOf
    rw [List.filter_filter]
    refine List.filter_congr ?_
    intro v _
    by_cases hvb : v = b
    · subst hvb
      rw [beq_eq_false_iff_ne.mpr hb2, beq_iff_eq.mpr hb]
      simp
    · have h3 : (!(v == b)) = true := by
        rw [beq_eq_false_iff_ne.mpr hvb]
        rfl
      rw [h3, Bool.true_and]
      by_cases h : par v = v
      · rw [beq_iff_eq.mpr ((hiff v hvb).mpr h), beq_iff_eq.mpr h]
      · rw [beq_eq_false_iff_ne.mpr (fun h2 => h ((hiff v hvb).mp h2)),
          beq_eq_false_iff_ne.mpr h]
  have hbmem : b ∈ rootsOf par ids := by
    unfold rootsOf
    rw [List.mem_filter]
    exact ⟨hbids, beq_iff_eq.mpr hb⟩
  have hnd2 : (rootsOf par ids).Nodup := hnd.filter _
  have h2 : (rootsOf par ids).filter (fun v => !(v == b)) =
      (rootsOf par ids).erase b := by
    rw [hnd2.erase_eq_filter]
    refine (List.filter_congr ?_).symm
    intro v _
    by_cases hvb : v = b
    · subst hvb
      rw [beq_iff_eq.mpr rfl]
      simp
    · rw [beq_eq_false_iff_ne.mpr hvb]
      simp [hvb]
  rw [h1, h2, List.length_erase_of_mem hbmem]
  have hpos : 0 < (rootsOf par ids).length := List.length_pos.mpr
    (fun h => by rw [h] at hbmem; exact absurd hbmem (List.not_mem_nil b))
  omega

/-- The per-edge step structure of `kruskal`'s trace: each edge yields one
step with the MST-so-far; an accepted edge yields a second step with the
extended MST. -/
def KruskalShape : List GraphEdge → List GraphEdge → List GStep →
    List GraphEdge → Prop
  | [], mst, steps, mstF => steps = [] ∧ mstF = mst
  | e :: rest, mst, steps, mstF =>
    (∃ steps2, steps = ⟨[e.source, e.target], [e], some mst, none⟩ ::
        ⟨[e.source, e.target], [e], some (mst ++ [e]), none⟩ :: steps2 ∧
      KruskalShape rest (mst ++ [e]) steps2 mstF) ∨
    (∃ steps2, steps = ⟨[e.source, e.target], [e], some mst, none⟩ :: steps2 ∧
      KruskalShape rest mst steps2 mstF)

end GraphAlg

namespace GraphAlg

/-- The kruskal edge loop: the trace has the per-edge step shape, the
disjoint set stays well-formed, each processed edge ends with both endpoints
in one set, set-equalities only coarsen, and each union trades one root for
one MST edge. -/
theorem kruskalLoop_spec {ids : List String} {fuel : Nat}
    (hfuel : ids.length ≤ fuel) (hnd : ids.Nodup) :
    ∀ (edges : List GraphEdge) (ds : DisjointSet) (mst : List GraphEdge),
      (∀ e ∈ edges, e.source ∈ ids ∧ e.target ∈ ids) →
      NoCycle ds.parent → Closed ds.parent ids →
      KruskalShape edges mst (kruskalLoop fuel ds mst edges).1
        (kruskalLoop fuel ds mst edges).2.1 ∧
      NoCycle (kruskalLoop fuel ds mst edges).2.2.parent ∧
      Closed (kruskalLoop fuel ds mst edges).2.2.parent ids ∧
      ((kruskalLoop fuel ds mst edges).2.1.length +
        (rootsOf (kruskalLoop fuel ds mst edges).2.2.parent ids).length =
        mst.length + (rootsOf ds.parent ids).length) ∧
      (∀ u v, EqRoot ds.parent u v →
        EqRoot (kruskalLoop fuel ds mst edges).2.2.parent u v) ∧
      (∀ e ∈ edges, EqRoot (kruskalLoop fuel ds mst edges).2.2.parent
        e.source e.target)
  | [], ds, mst => by
    intro hends hnc hcl
    exact ⟨⟨rfl, rfl⟩, hnc, hcl, rfl, fun u v h => h,
      fun e he => absurd he (List.not_mem_nil e)⟩
  | e :: rest, ds, mst => by
    intro hends hnc hcl
    obtain ⟨hes, het⟩ := hends e (List.mem_cons_self e rest)
    obtain ⟨ρ1, hit1, hfx1, hm1⟩ := find_prep hnc hcl hfuel hes
    obtain ⟨f1a, f1b, f1c, f1d, f1e, f1f⟩ :=
      dsuFind_spec ds fuel e.source ρ1 hit1 hfx1
    have hnc1 : NoCycle (dsuFind ds fuel e.source).2.parent := f1e hnc
    have hcl1 : Closed (dsuFind ds fuel e.source).2.parent ids :=
      f1f ids hcl hm1
    obtain ⟨ρ2, hit2, hfx2, hm2⟩ := find_prep hnc1 hcl1 hfuel het
    obtain ⟨f2a, f2b, f2c, f2d, f2e, f2f⟩ :=
      dsuFind_spec (dsuFind ds fuel e.source).2 fuel e.target ρ2 hit2 hfx2
    have hnc2 : NoCycle
        (dsuFind (dsuFind ds fuel e.source).2 fuel e.target).2.parent :=
      f2e hnc1
    have hcl2 : Closed
        (dsuFind (dsuFind ds fuel e.source).2 fuel e.target).2.parent ids :=
      f2f ids hcl1 hm2
    have hre1 : Reaches ds.parent e.source ρ1 := ⟨⟨fuel, hit1⟩, hfx1⟩
    have hre2srcd2 : ∀ w τ, Reaches ds.parent w τ →
        Reaches (dsuFind (dsuFind ds fuel e.source).2 fuel e.target).2.parent
          w τ := fun w τ h => f2c w τ (f1c w τ h)
    have hre2 : Reaches (dsuFind ds fuel e.source).2.parent e.target ρ2 :=
      ⟨⟨fuel, hit2⟩, hfx2⟩
    have hre2ds : Reaches ds.parent e.target ρ2 := by
      obtain ⟨ρ2', k, hk, hkv, hfix'⟩ := exists_reach_small hcl hnc het
      have h2 : Reaches (dsuFind ds fuel e.source).2.parent e.target ρ2' :=
        f1c e.target ρ2' ⟨⟨k, hkv⟩, hfix'⟩
      have heq : ρ2 = ρ2' := reaches_unique hre2 h2
      rw [heq]
      exact ⟨⟨k, hkv⟩, hfix'⟩
    have hiff12 : ∀ w,
        (dsuFind (dsuFind ds fuel e.source).2 fuel e.target).2.parent w = w ↔
          ds.parent w = w := fun w => (f2d w).trans (f1d w)
    rw [kruskalLoop]
    by_cases hb : (dsuFind ds fuel e.source).1 ≠
        (dsuFind (dsuFind ds fuel e.source).2 fuel e.target).1
    · rw [if_pos hb]
      have hρne : ρ1 ≠ ρ2 := by
        rw [f1a, f2a] at hb
        exact hb
      obtain ⟨a, b, habcase, u_reach, u_iff, u_bne, u_bfix, u_bids, u_nc,
          u_cl⟩ := dsuUnion_spec hnc2 hcl2 hfuel hes het
        (hre2srcd2 e.source ρ1 hre1) (hre2srcd2 e.target ρ2 hre2ds) hρne
      obtain ⟨ih1, ih2, ih3, ih4, ih5, ih6⟩ := kruskalLoop_spec hfuel hnd rest
        (dsuUnion (dsuFind (dsuFind ds fuel e.source).2 fuel e.target).2 fuel
          e.source e.target) (mst ++ [e])
        (fun e2 he2 => hends e2 (List.mem_cons_of_mem e he2)) u_nc u_cl
      have hcoarse : ∀ u v, EqRoot ds.parent u v →
          EqRoot (dsuUnion
            (dsuFind (dsuFind ds fuel e.source).2 fuel e.target).2 fuel
            e.source e.target).parent u v := by
        intro u v huv
        obtain ⟨ρ, hu, hv⟩ := huv
        exact ⟨if ρ = b then a else ρ, u_reach u ρ (hre2srcd2 u ρ hu),
          u_reach v ρ (hre2srcd2 v ρ hv)⟩
      have hjoin : EqRoot (dsuUnion
          (dsuFind (dsuFind ds fuel e.source).2 fuel e.target).2 fuel
          e.source e.target).parent e.source e.target := by
        have h1 := u_reach e.source ρ1 (hre2srcd2 e.source ρ1 hre1)
        have h2 := u_reach e.target ρ2 (hre2srcd2 e.target ρ2 hre2ds)
        rcases habcase with ⟨ha, hb2⟩ | ⟨ha, hb2⟩
        · rw [if_neg (fun hh => hρne (hb2 ▸ hh))] at h1
          rw [if_pos hb2.symm, ha] at h2
          exact ⟨ρ1, h1, h2⟩
        · rw [if_pos hb2.symm, ha] at h1
          rw [if_neg (fun hh => hρne ((hb2 ▸ hh : ρ2 = ρ1)).symm)] at h2
          exact ⟨ρ2, h1, h2⟩
      have hcount : (rootsOf (dsuUnion
          (dsuFind (dsuFind ds fuel e.source).2 fuel e.target).2 fuel
          e.source e.target).parent ids).length + 1 =
          (rootsOf ds.parent ids).length := by
        have h2 : (rootsOf (dsuUnion
            (dsuFind (dsuFind ds fuel e.source).2 fuel e.target).2 fuel
            e.source e.target).parent ids).length + 1 =
            (rootsOf (dsuFind (dsuFind ds fuel e.source).2 fuel
              e.target).2.parent ids).length :=
          rootsOf_union_length hnd u_iff u_bfix u_bne u_bids
        rw [h2, rootsOf_congr hiff12]
      dsimp only
      refine ⟨?_, ih2, ih3, ?_, ?_, ?_⟩
      · exact Or.inl ⟨_, rfl, ih1⟩
      · dsimp only
        simp only [List.length_append, List.length_singleton] at ih4
        omega
      · intro u v huv
        exact ih5 u v (hcoarse u v huv)
      · intro e2 he2
        rcases List.mem_cons.mp he2 with rfl | he3
        · exact ih5 e2.source e2.target hjoin
        · exact ih6 e2 he3
    · rw [if_neg hb]
      obtain ⟨ih1, ih2, ih3, ih4, ih5, ih6⟩ := kruskalLoop_spec hfuel hnd rest
        (dsuFind (dsuFind ds fuel e.source).2 fuel e.target).2 mst
        (fun e2 he2 => hends e2 (List.mem_cons_of_mem e he2)) hnc2 hcl2
      have hρeq : ρ1 = ρ2 := by
        rw [not_not] at hb
        rw [f1a, f2a] at hb
        exact hb
      dsimp only
      refine ⟨?_, ih2, ih3, ?_, ?_, ?_⟩
      · exact Or.inr ⟨_, rfl, ih1⟩
      · dsimp only
        rw [rootsOf_congr hiff12] at ih4
        omega
      · intro u v huv
        refine ih5 u v ?_
        obtain ⟨ρ, hu, hv⟩ := huv
        exact ⟨ρ, hre2srcd2 u ρ hu, hre2srcd2 v ρ hv⟩
      · intro e2 he2
        rcases List.mem_cons.mp he2 with rfl | he3
        · refine ih5 e2.source e2.target ?_
          exact ⟨ρ1, hre2srcd2 e2.source ρ1 hre1,
            hρeq ▸ hre2srcd2 e2.target ρ2 hre2ds⟩
        · exact ih6 e2 he3

end GraphAlg

namespace GraphAlg

theorem insertEdge_perm (e : GraphEdge) : ∀ l, (insertEdge e l).Perm (e :: l)
  | [] => List.Perm.refl _
  | f :: t => by
    rw [insertEdge]
    split
    · exact List.Perm.refl _
    · exact ((insertEdge_perm e t).cons f).trans (List.Perm.swap e f t)

theorem sortEdges_perm : ∀ l, (sortEdges l).Perm l
  | [] => List.Perm.refl _
  | e :: t =>
    (insertEdge_perm e (sortEdges t)).trans ((sortEdges_perm t).cons e)

theorem insertEdge_sorted {e : GraphEdge} : ∀ {l : List GraphEdge},
    l.Pairwise (fun a b => a.weight ≤ b.weight) →
    (insertEdge e l).Pairwise (fun a b => a.weight ≤ b.weight)
  | [], _ => by simp [insertEdge]
  | f :: t, hp => by
    obtain ⟨hf, ht⟩ := List.pairwise_cons.mp hp
    rw [insertEdge]
    split
    · next hle =>
      refine List.pairwise_cons.mpr ⟨?_, hp⟩
      intro x hx
      rcases List.mem_cons.mp hx with rfl | hxt
      · exact hle
      · exact le_trans hle (hf x hxt)
    · next hnle =>
      refine List.pairwise_cons.mpr ⟨?_, insertEdge_sorted ht⟩
      intro x hx
      rcases List.mem_cons.mp ((insertEdge_perm e t).mem_iff.mp hx) with rfl | hxt
      · exact le_of_not_le hnle
      · exact hf x hxt

theorem sortEdges_sorted : ∀ l : List GraphEdge,
    (sortEdges l).Pairwise (fun a b => a.weight ≤ b.weight)
  | [] => List.Pairwise.nil
  | e :: t => insertEdge_sorted (sortEdges_sorted t)

/-- Two node ids joined by an edge of the graph, in either direction. -/
def EdgeAdj (g : Graph) (u v : String) : Prop :=
  ∃ e ∈ g.edges, (e.source = u ∧ e.target = v) ∨ (e.source = v ∧ e.target = u)

/-- Every pair of node ids is linked by a chain of edges. -/
def GConnected (g : Graph) : Prop :=
  ∀ u ∈ nodeIds g, ∀ v ∈ nodeIds g, Relation.ReflTransGen (EdgeAdj g) u v

/-- The disjoint-set state kruskal ends with. -/
def kruskalFinalDS (g : Graph) : DisjointSet := (kruskalRun g).2.2

theorem length_eq_one_of_nodup_all_eq : ∀ {l : List String}, l.Nodup →
    l ≠ [] → (∀ a ∈ l, ∀ b ∈ l, a = b) → l.length = 1
  | [], _, hne, _ => absurd rfl hne
  | [_], _, _, _ => rfl
  | a :: b :: t, hnd, _, hall =>
    absurd (hall a (List.mem_cons_self _ _) b
      (List.mem_cons_of_mem a (List.mem_cons_self _ _)))
      (List.ne_of_not_mem_cons (List.nodup_cons.mp hnd).1)

end GraphAlg

namespace GraphAlg

theorem kruskalRun_roots (g : Graph) (hnd : (nodeIds g).Nodup)
    (hends : ∀ e ∈ g.edges, e.source ∈ nodeIds g ∧ e.target ∈ nodeIds g) :
    KruskalShape (sortEdges g.edges) [] (kruskal g) (kruskalMst g) ∧
    NoCycle (kruskalFinalDS g).parent ∧
    Closed (kruskalFinalDS g).parent (nodeIds g) ∧
    (kruskalMst g).length +
      (rootsOf (kruskalFinalDS g).parent (nodeIds g)).length =
      (nodeIds g).length ∧
    (∀ e ∈ g.edges,
      EqRoot (kruskalFinalDS g).parent e.source e.target) := by
  have hfuel : (nodeIds g).length ≤ g.nodes.length + 1 := by
    rw [nodeIds, List.length_map]
    omega
  have hends2 : ∀ e ∈ sortEdges g.edges,
      e.source ∈ nodeIds g ∧ e.target ∈ nodeIds g := fun e he =>
    hends e ((sortEdges_perm g.edges).mem_iff.mp he)
  have hnc0 : NoCycle (fun v => v) := fun w k _ _ => rfl
  have hcl0 : Closed (fun v => v) (nodeIds g) := fun v hv => hv
  obtain ⟨ih1, ih2, ih3, ih4, ih5, ih6⟩ :=
    kruskalLoop_spec hfuel hnd (sortEdges g.edges)
      ⟨fun v => v, fun _ => 0⟩ [] hends2 hnc0 hcl0
  have hroots0 : rootsOf (⟨fun v => v, fun _ => 0⟩ : DisjointSet).parent
      (nodeIds g) = nodeIds g := by
    simp [rootsOf]
  rw [hroots0] at ih4
  simp only [List.length_nil, Nat.zero_add] at ih4
  exact ⟨ih1, ih2, ih3, ih4,
    fun e he => ih6 e ((sortEdges_perm g.edges).mem_iff.mpr he)⟩

end GraphAlg

/-- C7: kruskal processes the edges in ascending weight order (the list it
iterates over is weight-sorted and a permutation of the graph's edges); each
edge yields one visited step carrying the MST-so-far snapshot, and an
accepted edge yields a second step with the extended MST (`KruskalShape`);
and on a connected graph (with duplicate-free node ids and edges between
graph nodes) the final MST has exactly (node count − 1) edges. -/
theorem C7_kruskal_sorted_shape_mst_count (g : GraphAlg.Graph)
    (hnd : (GraphAlg.nodeIds g).Nodup)
    (hends : ∀ e ∈ g.edges, e.source ∈ GraphAlg.nodeIds g ∧
      e.target ∈ GraphAlg.nodeIds g) :
    (GraphAlg.sortEdges g.edges).Pairwise (fun a b => a.weight ≤ b.weight) ∧
    (GraphAlg.sortEdges g.edges).Perm g.edges ∧
    GraphAlg.KruskalShape (GraphAlg.sortEdges g.edges) [] (GraphAlg.kruskal g)
      (GraphAlg.kruskalMst g) ∧
    (GraphAlg.GConnected g →
      (GraphAlg.kruskalMst g).length = g.nodes.length - 1) := by
  obtain ⟨h1, hnc, hcl, hcount, hjoin⟩ := GraphAlg.kruskalRun_roots g hnd hends
  refine ⟨GraphAlg.sortEdges_sorted g.edges, GraphAlg.sortEdges_perm g.edges,
    h1, fun hconn => ?_⟩
  have hnlen : (GraphAlg.nodeIds g).length = g.nodes.length := by
    rw [GraphAlg.nodeIds, List.length_map]
  by_cases hnil : g.nodes = []
  · have hidsnil : GraphAlg.nodeIds g = [] := by
      rw [GraphAlg.nodeIds, hnil]
      rfl
    rw [hidsnil] at hcount
    simp only [GraphAlg.rootsOf, List.filter_nil, List.length_nil] at hcount
    rw [hnil]
    simp only [List.length_nil]
    omega
  · have hne2 : GraphAlg.nodeIds g ≠ [] := by
      simp [GraphAlg.nodeIds, hnil]
    obtain ⟨v0, hv0⟩ := List.exists_mem_of_ne_nil _ hne2
    have hstep : ∀ u v, GraphAlg.EdgeAdj g u v →
        GraphAlg.EqRoot (GraphAlg.kruskalFinalDS g).parent u v := by
      intro u v huv
      obtain ⟨e, he, hcase⟩ := huv
      have hj := hjoin e he
      rcases hcase with ⟨hsu, htv⟩ | ⟨hsv, htu⟩
      · exact hsu ▸ htv ▸ hj
      · exact hsv ▸ htu ▸ GraphAlg.eqRoot_symm hj
    have hlift : ∀ u, u ∈ GraphAlg.nodeIds g →
        ∀ v, Relation.ReflTransGen (GraphAlg.EdgeAdj g) u v →
        GraphAlg.EqRoot (GraphAlg.kruskalFinalDS g).parent u v := by
      intro u hu v h
      induction h with
      | refl =>
        obtain ⟨ρ, k, _, hkv, hfix⟩ := GraphAlg.exists_reach_small hcl hnc hu
        exact ⟨ρ, ⟨⟨k, hkv⟩, hfix⟩, ⟨⟨k, hkv⟩, hfix⟩⟩
      | tail _ h2 ih => exact GraphAlg.eqRoot_trans ih (hstep _ _ h2)
    have hallroots : ∀ a ∈ GraphAlg.rootsOf (GraphAlg.kruskalFinalDS g).parent
        (GraphAlg.nodeIds g), ∀ b ∈ GraphAlg.rootsOf
        (GraphAlg.kruskalFinalDS g).parent (GraphAlg.nodeIds g), a = b := by
      intro a ha b hb
      simp only [GraphAlg.rootsOf, List.mem_filter, beq_iff_eq] at ha hb
      obtain ⟨ρ, hra, hrb⟩ := hlift a ha.1 b (hconn a ha.1 b hb.1)
      rw [← GraphAlg.reaches_self_root hra ha.2,
        GraphAlg.reaches_self_root hrb hb.2]
    obtain ⟨ρ0, k0, _, hkv0, hfix0⟩ :=
      GraphAlg.exists_reach_small hcl hnc hv0
    have hρ0r : ρ0 ∈ GraphAlg.rootsOf (GraphAlg.kruskalFinalDS g).parent
        (GraphAlg.nodeIds g) := by
      simp only [GraphAlg.rootsOf, List.mem_filter, beq_iff_eq]
      exact ⟨hkv0 ▸ GraphAlg.iter_closed hcl hv0 k0, hfix0⟩
    have hrne : GraphAlg.rootsOf (GraphAlg.kruskalFinalDS g).parent
        (GraphAlg.nodeIds g) ≠ [] := by
      intro h
      rw [h] at hρ0r
      exact absurd hρ0r (List.not_mem_nil _)
    have hndr : (GraphAlg.rootsOf (GraphAlg.kruskalFinalDS g).parent
        (GraphAlg.nodeIds g)).Nodup := hnd.filter _
    have hlen1 :=
      GraphAlg.length_eq_one_of_nodup_all_eq hndr hrne hallroots
    omega

/-- Witness for C7: the 3-node graph with nodes A, B, C and edges
(A,B,2) and (B,C,3). -/
theorem C7_kruskal_sorted_shape_mst_count_witness :
    (GraphAlg.nodeIds GraphAlg.gABC).Nodup ∧
    (∀ e ∈ GraphAlg.gABC.edges, e.source ∈ GraphAlg.nodeIds GraphAlg.gABC ∧
      e.target ∈ GraphAlg.nodeIds GraphAlg.gABC) ∧
    ((GraphAlg.sortEdges GraphAlg.gABC.edges).Pairwise
        (fun a b => a.weight ≤ b.weight) ∧
      (GraphAlg.sortEdges GraphAlg.gABC.edges).Perm GraphAlg.gABC.edges ∧
      GraphAlg.KruskalShape (GraphAlg.sortEdges GraphAlg.gABC.edges) []
        (GraphAlg.kruskal GraphAlg.gABC) (GraphAlg.kruskalMst GraphAlg.gABC) ∧
      (GraphAlg.GConnected GraphAlg.gABC →
        (GraphAlg.kruskalMst GraphAlg.gABC).length =
          GraphAlg.gABC.nodes.length - 1)) :=
  ⟨by decide, by decide,
    C7_kruskal_sorted_shape_mst_count GraphAlg.gABC (by decide) (by decide)⟩
